import Mathlib

/-!
Aegis plagiarism core: fingerprint index, pair selector, Merkle AST score, and the
retry handler and the message parser of the stream consumer.

A shallow embedding of `internal/plagiarism/gii.go`, `internal/plagiarism/ast.go`,
`internal/stream/recovery.go` and `internal/stream/types.go`.

Conventions of the embedding

* A Go `map[string]V` is an association list `GoMap V` with pairwise distinct keys.
  A `range` over a map is a traversal of that list; Go leaves the order of a `range`
  unspecified, so statements about a ranged map are made for every ordering of its
  entries (`List.Perm`) when the order could matter.
* Go `int` counters are natural numbers (they only count list elements).
* Go `float64` quotients of two counters and the threshold literals are exact
  rationals: `float64(s) / float64(m)` is the correctly rounded value of `s / m` and a
  literal such as `0.10` is the correctly rounded value of `1/10`, so the comparison
  `overlap >= threshold` agrees with the comparison of the exact values as long as the
  counters stay below `2^50`.
* A Go `string` is a `String`; `<` on strings is the lexicographic order, which on
  valid UTF-8 is the byte order Go compares with.
* `crypto/sha256` is not part of the repository: the digest is a parameter
  `H : String → String` of the Merkle functions.
* A pointer that may be nil is an `Option`; the artifacts of a list are non-nil.
* A Go `error` is its message, `none` is the nil error. The calls of the retried
  operation, the elapsed delays and the writes to the dead-letter stream are recorded in
  a trace; the operation, the cancellation of the context and the Redis client are
  parameters.
-/

namespace Aegis

/-! ## Go maps -/

/-- A Go `map[string]V`: entries in some order, keys pairwise distinct. -/
abbrev GoMap (V : Type) := List (String × V)

namespace GoMap

variable {V : Type}

/-- The comma-ok lookup `v, ok := m[k]`. -/
def get? : GoMap V → String → Option V
  | [], _ => none
  | (k', v) :: rest, k => if k' = k then some v else get? rest k

/-- The assignment `m[k] = v`: overwrite the entry of `k`, or add a new entry. -/
def set : GoMap V → String → V → GoMap V
  | [], k, v => [(k, v)]
  | (k', v') :: rest, k, v => if k' = k then (k', v) :: rest else (k', v') :: set rest k v

/-- The keys of the map, in entry order. -/
def keys (m : GoMap V) : List String := m.map Prod.fst

end GoMap

/-! ## Data model -/

/-- Modelled from the spec: the declaration of `models.Parameter` is not in the sources;
`computeNodeHash` reads `Type`, `Name` and `ParamType` of a parameter. -/
structure Parameter where
  Type_ : String
  Name : String
  ParamType : String
deriving DecidableEq, Repr

/-- Modelled from the spec: the declaration of `models.ASTNode` is not in the sources.
The fields are the ones `computeNodeHash` and `buildSubtreeHashesRecursive` read;
`Children` is a slice of node pointers, so an entry may be `nil` (`none`). The value is
a finite tree: the spec rules out cycles. -/
structure ASTNode where
  Type_ : String
  Name : String
  ReturnType : String
  Operator : String
  Modifiers : List String
  Parameters : List Parameter
  Children : List (Option ASTNode)

/-- Modelled from the spec: one `(hash, position)` entry of a fingerprint list; the
declaration is not in the sources and only `Hash` is read. -/
structure HashEntry where
  Hash : String
  Position : Int
deriving DecidableEq, Repr

/-- Modelled from the spec: `models.Fingerprints`, of which only `Hashes` is read. -/
structure Fingerprints where
  Hashes : List HashEntry
deriving DecidableEq, Repr

/-- The record `models.Artifact` (`internal/models/results.go`). The pointers `AST` and
`Fingerprints` may be `nil`; `CFG` and `CreatedAt` are never read by the functions
embedded here and are left out. -/
structure Artifact where
  Email : String
  AttemptID : String
  TestID : String
  DriveID : String
  Difficulty : String
  SourceCode : String
  QID : Int
  Language : String
  LangCode : String
  Tokens : List String
  NormalizedTokens : List String
  AST : Option ASTNode
  Fingerprints : Option Fingerprints

/-- A pair of artifacts to compare (`Pair` in `gii.go`). -/
structure Pair where
  ArtifactA : Artifact
  ArtifactB : Artifact

/-! ## Global inverted index (`gii.go`) -/

/-- The type `GII`: hash → attempt IDs. -/
abbrev GII := GoMap (List String)

/-- One iteration of the inner loop of `BuildGII` (lines 24-35): the state is
`(seenHashes, gii)`. -/
def BuildGII.hashStep (attemptID : String) (st : GoMap Bool × GII) (hashEntry : HashEntry) :
    GoMap Bool × GII :=
  let hash := hashEntry.Hash
  if (st.1.get? hash).getD false then st
  else (st.1.set hash true, st.2.set hash ((st.2.get? hash).getD [] ++ [attemptID]))

/-- One iteration of the outer loop of `BuildGII` (lines 17-36). -/
def BuildGII.artifactStep (gii : GII) (artifact : Artifact) : GII :=
  match artifact.Fingerprints with
  | none => gii
  | some fp => (fp.Hashes.foldl (BuildGII.hashStep artifact.AttemptID) ([], gii)).2

/-- The function `BuildGII`: the first pass builds hash → attempt IDs, the second pass
keeps the hashes with at least two attempt IDs. -/
def BuildGII (artifacts : List Artifact) : GII :=
  let gii := artifacts.foldl BuildGII.artifactStep []
  gii.filter (fun e => decide (e.2.length ≥ 2))

/-- Whether hash `h` occurs in the fingerprints of the artifact (nil fingerprints hold
no hash). -/
def hasHash (artifact : Artifact) (h : String) : Bool :=
  match artifact.Fingerprints with
  | none => false
  | some fp => decide (h ∈ fp.Hashes.map HashEntry.Hash)

/-- The attempt IDs of the artifacts whose fingerprints hold `h`, one per artifact, in
the order of the input list. -/
def postingOf (artifacts : List Artifact) (h : String) : List String :=
  (artifacts.filter (fun artifact => hasHash artifact h)).map Artifact.AttemptID

/-- The function `getWorthyThreshold`. -/
def getWorthyThreshold (difficulty : String) : ℚ :=
  if difficulty = "easy" then 15 / 100
  else if difficulty = "medium" then 10 / 100
  else if difficulty = "hard" then 5 / 100
  else 10 / 100

/-- The function `getPairKey`: the smaller ID, a colon, the larger ID. -/
def getPairKey (id1 id2 : String) : String :=
  if id1 < id2 then id1 ++ ":" ++ id2 else id2 ++ ":" ++ id1

/-- The hash set `hashesA` that `calculateOverlap` builds from a fingerprint list
(lines 117-120). -/
def hashSet (fp : Fingerprints) : GoMap Bool :=
  fp.Hashes.foldl (fun m hashEntry => m.set hashEntry.Hash true) []

/-- The function `calculateOverlap`. -/
def calculateOverlap (artifactA artifactB : Artifact) (sharedCount : Nat) : ℚ :=
  match artifactA.Fingerprints, artifactB.Fingerprints with
  | some fpA, some fpB =>
    let totalA := (hashSet fpA).length
    let totalB := (hashSet fpB).length
    if totalA = 0 ∨ totalB = 0 then 0
    else (sharedCount : ℚ) / ((min totalA totalB : Nat) : ℚ)
  | _, _ => 0

/-- The map `artifactMap` of `GetWorthyPairs` (lines 53-56). -/
def artifactMapOf (artifacts : List Artifact) : GoMap Artifact :=
  artifacts.foldl (fun m artifact => m.set artifact.AttemptID artifact) []

/-- The state of the counting loops of `GetWorthyPairs`:
`(sharedPairCount, pairArtifacts)`. -/
abbrev PairState := GoMap Nat × GoMap Pair

/-- The body of the innermost loop (lines 80-90) for the artifacts at indices `i < j`. -/
def GetWorthyPairs.pairStep (st : PairState) (artifactA artifactB : Artifact) : PairState :=
  let pairKey := getPairKey artifactA.AttemptID artifactB.AttemptID
  let sharedPairCount := st.1.set pairKey ((st.1.get? pairKey).getD 0 + 1)
  match st.2.get? pairKey with
  | some _ => (sharedPairCount, st.2)
  | none => (sharedPairCount, st.2.set pairKey ⟨artifactA, artifactB⟩)

/-- The loops over `i` and `j > i` (lines 78-96) on the slice `hashArtifacts`. -/
def GetWorthyPairs.pairLoop : PairState → List Artifact → PairState
  | st, [] => st
  | st, artifactA :: rest =>
    GetWorthyPairs.pairLoop
      (rest.foldl (fun s artifactB => GetWorthyPairs.pairStep s artifactA artifactB) st) rest

/-- One iteration of the loop over the index (lines 64-97). -/
def GetWorthyPairs.entryStep (artifactMap : GoMap Artifact) (st : PairState)
    (entry : String × List String) : PairState :=
  let attemptIDs := entry.2
  if attemptIDs.length < 2 then st
  else
    let hashArtifacts := attemptIDs.filterMap (fun attemptID => artifactMap.get? attemptID)
    GetWorthyPairs.pairLoop st hashArtifacts

/-- The maps `(sharedPairCount, pairArtifacts)` after the loop over the index
(lines 61-97). -/
def GetWorthyPairs.counts (gii : GII) (artifacts : List Artifact) : PairState :=
  gii.foldl (GetWorthyPairs.entryStep (artifactMapOf artifacts)) ([], [])

/-- The final loop (lines 100-108) for one entry of `sharedPairCount`. A key of
`sharedPairCount` is always a key of `pairArtifacts` (both are written together), so the
branch `none` is never taken. -/
def GetWorthyPairs.emit (threshold : ℚ) (pairArtifacts : GoMap Pair)
    (entry : String × Nat) : Option Pair :=
  match pairArtifacts.get? entry.1 with
  | none => none
  | some pair =>
    if calculateOverlap pair.ArtifactA pair.ArtifactB entry.2 ≥ threshold then some pair else none

/-- The function `GetWorthyPairs`. -/
def GetWorthyPairs (gii : GII) (artifacts : List Artifact) (difficulty : String) : List Pair :=
  let threshold := getWorthyThreshold difficulty
  let st := GetWorthyPairs.counts gii artifacts
  st.1.filterMap (GetWorthyPairs.emit threshold st.2)

/-- The index pairs `(i, j)`, `i < j`, of a slice in the order in which the loops of
lines 78-79 visit them, as pairs of elements. -/
def pairsOf : List Artifact → List (Artifact × Artifact)
  | [] => []
  | a :: rest => rest.map (fun b => (a, b)) ++ pairsOf rest

/-- The artifact pairs that one index entry makes `GetWorthyPairs` visit. -/
def entryPairs (artifactMap : GoMap Artifact) (entry : String × List String) :
    List (Artifact × Artifact) :=
  if entry.2.length < 2 then []
  else pairsOf (entry.2.filterMap (fun attemptID => artifactMap.get? attemptID))

/-- All artifact pairs that `GetWorthyPairs` visits, in order. -/
def visitedPairs (gii : GII) (artifacts : List Artifact) : List (Artifact × Artifact) :=
  gii.flatMap (entryPairs (artifactMapOf artifacts))

/-- The key under which a visited pair is counted. -/
def pairKeyOf (p : Artifact × Artifact) : String :=
  getPairKey p.1.AttemptID p.2.AttemptID

/-- The output of `GetWorthyPairs` holds the unordered pair `{A, B}`. -/
def EmitsPair (out : List Pair) (A B : Artifact) : Prop :=
  ∃ p ∈ out, (p.ArtifactA = A ∧ p.ArtifactB = B) ∨ (p.ArtifactA = B ∧ p.ArtifactB = A)

/-- A Go `map[string]bool` used as a set: every stored value is `true`. -/
def GoMap.AllTrue (m : GoMap Bool) : Prop := ∀ k v, m.get? k = some v → v = true

/-! ## Merkle AST hasher (`ast.go`) -/

/-- The call `sort.Strings`: the sorted rearrangement of the slice in the
lexicographic order of strings. -/
def sortStrings (l : List String) : List String :=
  l.insertionSort (fun a b => a ≤ b)

/-- The string `paramStr` of one parameter (lines 148-152 of `ast.go`). -/
def paramString (param : Parameter) : String :=
  let paramStr := param.Type_ ++ ":" ++ param.Name
  if param.ParamType ≠ "" then paramStr ++ ":" ++ param.ParamType else paramStr

/-- The slice `parts` that `computeNodeHash` assembles (lines 116-162). -/
def hashParts (node : ASTNode) (childHashes : List String) : List String :=
  let parts := ["type:", node.Type_]
  let parts := if node.Name ≠ "" then parts ++ ["name:", node.Name] else parts
  let parts := if node.ReturnType ≠ "" then parts ++ ["return:", node.ReturnType] else parts
  let parts := if node.Operator ≠ "" then parts ++ ["op:", node.Operator] else parts
  let parts :=
    if node.Modifiers.length > 0 then
      parts ++ ["modifiers:", ",".intercalate (sortStrings node.Modifiers)]
    else parts
  let parts :=
    if node.Parameters.length > 0 then
      parts ++ ["params:", ",".intercalate (sortStrings (node.Parameters.map paramString))]
    else parts
  if childHashes.length > 0 then parts ++ ["children:", ",".intercalate childHashes] else parts

/-- The string `hashInput` that `computeNodeHash` passes to `computeHash` (line 165). -/
def hashInput (node : ASTNode) (childHashes : List String) : String :=
  "|".intercalate (hashParts node childHashes)

/-- The function `computeNodeHash`; `H` is `computeHash`, the lowercase hex SHA-256 digest. -/
def computeNodeHash (H : String → String) (node : Option ASTNode) (childHashes : List String) :
    String :=
  match node with
  | none => ""
  | some n => H (hashInput n childHashes)

mutual
/-- The function `buildSubtreeHashesRecursive` on a non-nil node. The state is the set
`subtreeHashes`; the result also carries the hash that the call stores in `hashCache`
for the node, which is what the caller reads back from the cache. -/
def buildSubtreeHashesRecursive (H : String → String) :
    ASTNode → GoMap Bool → String × GoMap Bool
  | ⟨type_, name, returnType, operator, modifiers, parameters, children⟩, subtreeHashes =>
    let r := buildSubtreeHashesRecursive.children H children [] subtreeHashes
    let nodeHash :=
      computeNodeHash H (some ⟨type_, name, returnType, operator, modifiers, parameters, children⟩)
        r.1
    (nodeHash, r.2.set nodeHash true)
/-- The loop over `node.Children` (lines 87-95): the state is
`(childHashes, subtreeHashes)`. -/
def buildSubtreeHashesRecursive.children (H : String → String) :
    List (Option ASTNode) → List String → GoMap Bool → List String × GoMap Bool
  | [], childHashes, subtreeHashes => (childHashes, subtreeHashes)
  | child :: rest, childHashes, subtreeHashes =>
    let r := buildSubtreeHashesRecursive.child H child subtreeHashes
    buildSubtreeHashesRecursive.children H rest
      (match r.1 with
        | some childHash => childHashes ++ [childHash]
        | none => childHashes)
      r.2
/-- The recursive call on one child pointer followed by the lookup `hashCache[child]`:
a nil child returns at once and has no cache entry. -/
def buildSubtreeHashesRecursive.child (H : String → String) :
    Option ASTNode → GoMap Bool → Option String × GoMap Bool
  | none, subtreeHashes => (none, subtreeHashes)
  | some node, subtreeHashes =>
    let r := buildSubtreeHashesRecursive H node subtreeHashes
    (some r.1, r.2)
end

/-- The function `buildSubtreeHashes`. -/
def buildSubtreeHashes (H : String → String) (node : Option ASTNode) : GoMap Bool :=
  match node with
  | none => []
  | some n => (buildSubtreeHashesRecursive H n []).2

/-- The counter `commonCount` of `ASTSimilarity` (lines 25-30): a pass over the keys
of `subtreesA`. -/
def commonCount (subtreesA subtreesB : GoMap Bool) : Nat :=
  subtreesA.foldl
    (fun count entry => if (subtreesB.get? entry.1).getD false then count + 1 else count) 0

/-- The function `ASTSimilarity`. -/
def ASTSimilarity (H : String → String) (artifactA artifactB : Artifact) : ℚ :=
  match artifactA.AST, artifactB.AST with
  | some astA, some astB =>
    let subtreesA := buildSubtreeHashes H (some astA)
    let subtreesB := buildSubtreeHashes H (some astB)
    let common := commonCount subtreesA subtreesB
    let totalA := subtreesA.length
    let totalB := subtreesB.length
    if totalA = 0 ∨ totalB = 0 then 0
    else
      let minTotal := if totalB < totalA then totalB else totalA
      if minTotal = 0 then 0 else (common : ℚ) / (minTotal : ℚ)
  | _, _ => 0

/-- The set of subtree hashes of an AST: the keys of the map that `buildSubtreeHashes`
returns (empty for a missing AST). -/
def subtreeHashSet (H : String → String) (ast : Option ASTNode) : Finset String :=
  (buildSubtreeHashes H ast).keys.toFinset

/-! ## Concrete inputs -/

/-- An artifact with the given attempt ID, fingerprint hashes and AST; the other fields
are left empty. -/
def exampleArtifact (attemptID : String) (hashes : List String) (ast : Option ASTNode) :
    Artifact :=
  { Email := "", AttemptID := attemptID, TestID := "", DriveID := "", Difficulty := "",
    SourceCode := "", QID := 1, Language := "", LangCode := "", Tokens := [],
    NormalizedTokens := [], AST := ast,
    Fingerprints := some ⟨hashes.map (fun h => ⟨h, 0⟩)⟩ }

/-- An artifact whose `Fingerprints` pointer is nil. -/
def exampleArtifactNoFingerprints (attemptID : String) : Artifact :=
  { Email := "", AttemptID := attemptID, TestID := "", DriveID := "", Difficulty := "",
    SourceCode := "", QID := 1, Language := "", LangCode := "", Tokens := [],
    NormalizedTokens := [], AST := none, Fingerprints := none }

/-- The attempt IDs of the emitted pairs. -/
def pairIDs (pairs : List Pair) : List (String × String) :=
  pairs.map (fun p => (p.ArtifactA.AttemptID, p.ArtifactB.AttemptID))

/-- A leaf node of the given type. -/
def exampleLeaf (type_ : String) : ASTNode :=
  ⟨type_, "", "", "", [], [], []⟩

/-- A five-node AST: a function with a parameter, whose body returns a sum of two
identifiers. -/
def exampleAST : ASTNode :=
  ⟨"FunctionDecl", "add", "int", "", ["static", "public"], [⟨"Param", "x", "int"⟩],
    [some ⟨"ReturnStmt", "", "", "", [], [],
      [some ⟨"BinaryExpr", "", "", "+", [], [],
        [some (exampleLeaf "Identifier"), some (exampleLeaf "Identifier")]⟩]⟩]⟩

/-- Scenario S4: disjoint fingerprints, identical ASTs. -/
def disjointA : Artifact := exampleArtifact "attempt-1" ["h1", "h2"] (some exampleAST)

/-- Scenario S4, second artifact. -/
def disjointB : Artifact := exampleArtifact "attempt-2" ["h3"] (some exampleAST)

/-- Scenario S2: the same ten fingerprint hashes and the same AST. -/
def identicalA : Artifact :=
  exampleArtifact "attempt-1" ["f0", "f1", "f2", "f3", "f4", "f5", "f6", "f7", "f8", "f9"]
    (some exampleAST)

/-- Scenario S2, second artifact. -/
def identicalB : Artifact :=
  exampleArtifact "attempt-2" ["f0", "f1", "f2", "f3", "f4", "f5", "f6", "f7", "f8", "f9"]
    (some exampleAST)

/-- Scenario S3: ten hashes each, one of them shared, no AST. -/
def boundaryA : Artifact :=
  exampleArtifact "attempt-1" ["s0", "a1", "a2", "a3", "a4", "a5", "a6", "a7", "a8", "a9"] none

/-- Scenario S3, second artifact. -/
def boundaryB : Artifact :=
  exampleArtifact "attempt-2" ["s0", "b1", "b2", "b3", "b4", "b5", "b6", "b7", "b8", "b9"] none

/-- Three attempts: the first repeats hash `h1` inside its fingerprints, the second has
nil fingerprints, the third shares `h1` with the first. -/
def repeatedHashArtifacts : List Artifact :=
  [exampleArtifact "attempt-1" ["h1", "h2", "h1"] none, exampleArtifactNoFingerprints "attempt-2",
    exampleArtifact "attempt-3" ["h3", "h1"] none]

/-- Attempt `a`, holding hash `h1`. -/
def collidingA : Artifact := exampleArtifact "a" ["h1"] none

/-- Attempt `b:c`, holding hash `h1`. -/
def collidingBC : Artifact := exampleArtifact "b:c" ["h1"] none

/-- Attempt `a:b`, holding hash `h2`. -/
def collidingAB : Artifact := exampleArtifact "a:b" ["h2"] none

/-- Attempt `c`, holding hash `h2`. -/
def collidingC : Artifact := exampleArtifact "c" ["h2"] none

/-- Four attempts whose IDs make two different pairs share one pair key:
`getPairKey "a" "b:c" = getPairKey "a:b" "c" = "a:b:c"`. -/
def collidingArtifacts : List Artifact :=
  [collidingA, collidingBC, collidingAB, collidingC]

/-! ## The selector as the spec words it -/

/-- The deduplicated set of fingerprint hashes of an artifact (empty for nil
fingerprints). -/
def fingerprintSet (artifact : Artifact) : Finset String :=
  match artifact.Fingerprints with
  | none => ∅
  | some fp => (fp.Hashes.map HashEntry.Hash).toFinset

/-- The overlap of the spec: shared hashes over the size of the smaller hash set. -/
def overlapRatio (A B : Artifact) : ℚ :=
  (((fingerprintSet A ∩ fingerprintSet B).card : ℕ) : ℚ) /
    ((min (fingerprintSet A).card (fingerprintSet B).card : ℕ) : ℚ)

/-- The pair `{A, B}` is worthy in the words of the spec: both fingerprints are non-nil
with non-empty hash sets, and the overlap reaches the threshold of the difficulty. -/
def WorthySpec (A B : Artifact) (difficulty : String) : Prop :=
  A.Fingerprints.isSome = true ∧ B.Fingerprints.isSome = true ∧
    fingerprintSet A ≠ ∅ ∧ fingerprintSet B ≠ ∅ ∧
    overlapRatio A B ≥ getWorthyThreshold difficulty

/-- The pair key tells the unordered pairs of the given IDs apart. -/
def PairKeyInjectiveOn (ids : List String) : Prop :=
  ∀ a ∈ ids, ∀ b ∈ ids, ∀ c ∈ ids, ∀ d ∈ ids,
    getPairKey a b = getPairKey c d → (a = c ∧ b = d) ∨ (a = d ∧ b = c)

/-! ## Retry with backoff (`stream/recovery.go`) -/

/-- The constant `maxRetries`. -/
def maxRetries : Nat := 4

/-- The duration `time.Second`, in nanoseconds. -/
def timeSecond : Nat := 1000000000

/-- The table `retryDelays`. -/
def retryDelays : List Nat :=
  [1 * timeSecond, 2 * timeSecond, 4 * timeSecond, 8 * timeSecond]

/-- A value of the map `fields` (`interface{}`): the values written by the code are
strings and the integer of `time.Now().Unix()`. -/
inductive FieldValue where
  | str (s : String)
  | int (i : Int)
deriving DecidableEq, Repr

/-- The surroundings of one call of `RetryWithBackoff`. A Go `error` is its message,
`none` is the nil error.
* `fn k` is what the `k`-th call of the operation returns (counted from 0);
* `ctxDone k` is `some e` when the `select` after the failed attempt number `k` takes
  the branch `ctx.Done()`, where `e` is `ctx.Err()`, and `none` when the delay elapses;
* `xadd record` is the error of the Redis `XAdd` of `record` onto the dead-letter
  stream;
* `now` is `time.Now().Unix()` at the dead-letter write. -/
structure RetryEnv where
  fn : Nat → Option String
  ctxDone : Nat → Option String
  xadd : GoMap FieldValue → Option String
  now : Int

/-- What a call of `RetryWithBackoff` did: how often it called `fn`, the delays that
elapsed in `time.After` (in order, in nanoseconds), and the records it passed to `XAdd`
on the dead-letter stream. -/
structure RetryTrace where
  calls : Nat
  waited : List Nat
  deadLetters : List (GoMap FieldValue)
deriving DecidableEq, Repr

/-- The function `sendToDeathQueue`: the record is `fields` with `_error`, `_stream_id`
and `_failed_at` set; the result is nil when `XAdd` succeeds and the wrapped error
otherwise. -/
def sendToDeathQueue (env : RetryEnv) (streamID : String) (fields : GoMap FieldValue)
    (err : String) (trace : RetryTrace) : Option String × RetryTrace :=
  let fields := fields.set "_error" (FieldValue.str err)
  let fields := fields.set "_stream_id" (FieldValue.str streamID)
  let fields := fields.set "_failed_at" (FieldValue.int env.now)
  let trace := { trace with deadLetters := trace.deadLetters ++ [fields] }
  match env.xadd fields with
  | some e => (some ("failed to send to death queue: " ++ e), trace)
  | none => (none, trace)

/-- The loop of `RetryWithBackoff` (lines 39-62) from iteration `attempt` on, followed by
the dead-letter write (lines 64-70). `lastErr` is non-nil at the dead-letter write,
because the loop body has run; the nil case stands for a nil dereference that cannot
happen. -/
def RetryWithBackoff.loop (env : RetryEnv) (streamID : String) (fields : GoMap FieldValue)
    (attempt : Nat) (lastErr : Option String) (trace : RetryTrace) :
    Option String × RetryTrace :=
  if attempt < maxRetries then
    match env.fn trace.calls with
    | none => (none, { trace with calls := trace.calls + 1 })
    | some err =>
      let trace := { trace with calls := trace.calls + 1 }
      if attempt < maxRetries - 1 then
        let delay := retryDelays.getD attempt 0
        match env.ctxDone attempt with
        | some e => (some e, trace)
        | none =>
          RetryWithBackoff.loop env streamID fields (attempt + 1) (some err)
            { trace with waited := trace.waited ++ [delay] }
      else RetryWithBackoff.loop env streamID fields (attempt + 1) (some err) trace
  else sendToDeathQueue env streamID fields (lastErr.getD "") trace
termination_by maxRetries - attempt

/-- The method `RetryWithBackoff`: the returned error and the trace of the call. -/
def RetryWithBackoff (env : RetryEnv) (streamID : String) (fields : GoMap FieldValue) :
    Option String × RetryTrace :=
  RetryWithBackoff.loop env streamID fields 0 none ⟨0, [], []⟩

/-- The record that `sendToDeathQueue` writes. -/
def deadLetterRecord (env : RetryEnv) (streamID : String) (fields : GoMap FieldValue)
    (err : String) : GoMap FieldValue :=
  ((fields.set "_error" (FieldValue.str err)).set "_stream_id" (FieldValue.str streamID)).set
    "_failed_at" (FieldValue.int env.now)

/-- An operation that fails on every call. -/
def alwaysFailing : RetryEnv :=
  { fn := fun _ => some "write failed", ctxDone := fun _ => none, xadd := fun _ => none,
    now := 1700000000 }

/-- An operation that fails twice and then succeeds. -/
def failingTwice : RetryEnv :=
  { fn := fun k => if k < 2 then some "write failed" else none, ctxDone := fun _ => none,
    xadd := fun _ => none, now := 1700000000 }

/-! ## The canonical hash input, part by part -/

/-- A label and its value, present only when the attribute is: the two strings that
`computeNodeHash` appends to `parts` for one optional attribute. -/
def labelled (present : Prop) [Decidable present] (label value : String) : List String :=
  if present then [label, value] else []

/-- A lowercase hex SHA-256 digest: 64 characters, each a hex digit. -/
def IsHexDigest (s : String) : Prop :=
  s.length = 64 ∧ ∀ c ∈ s.data, c ∈ "0123456789abcdef".data

/-- A node with type `T`, name `N` and nothing else. -/
def exampleTN : ASTNode := ⟨"T", "N", "", "", [], [], []⟩

/-- A digest-shaped string. -/
def digestA : String := "aaaaaaaaaaaaaaaaaaaaaaaaaaaaaaaaaaaaaaaaaaaaaaaaaaaaaaaaaaaaaaaa"

/-- Another digest-shaped string. -/
def digestB : String := "0123456789abcdef0123456789abcdef0123456789abcdef0123456789abcdef"

mutual
/-- Two trees that differ at most in the order of the modifiers and in the order of the
parameters of their nodes. -/
def ASTNode.PermEquiv : ASTNode → ASTNode → Prop
  | ⟨t₁, n₁, r₁, o₁, m₁, p₁, c₁⟩, ⟨t₂, n₂, r₂, o₂, m₂, p₂, c₂⟩ =>
    t₁ = t₂ ∧ n₁ = n₂ ∧ r₁ = r₂ ∧ o₁ = o₂ ∧ m₁.Perm m₂ ∧ p₁.Perm p₂ ∧
      ASTNode.PermEquiv.children c₁ c₂
/-- The relation `ASTNode.PermEquiv` on child slices, entry by entry. -/
def ASTNode.PermEquiv.children : List (Option ASTNode) → List (Option ASTNode) → Prop
  | [], [] => True
  | a :: as, b :: bs => ASTNode.PermEquiv.child a b ∧ ASTNode.PermEquiv.children as bs
  | [], _ :: _ => False
  | _ :: _, [] => False
/-- The relation `ASTNode.PermEquiv` on child pointers. -/
def ASTNode.PermEquiv.child : Option ASTNode → Option ASTNode → Prop
  | none, none => True
  | some a, some b => ASTNode.PermEquiv a b
  | none, some _ => False
  | some _, none => False
end

/-- The five-node example AST with the modifiers of its root in the other order. -/
def exampleASTPermuted : ASTNode :=
  ⟨"FunctionDecl", "add", "int", "", ["public", "static"], [⟨"Param", "x", "int"⟩],
    [some ⟨"ReturnStmt", "", "", "", [], [],
      [some ⟨"BinaryExpr", "", "", "+", [], [],
        [some (exampleLeaf "Identifier"), some (exampleLeaf "Identifier")]⟩]⟩]⟩

/-! ## The Merkle hash as the spec words it -/

mutual
/-- The Merkle hash of a node in the words of the spec: the node hash computed from the
node and the Merkle hashes of its children, in order (a nil child has no hash). -/
def merkle (H : String → String) : ASTNode → String
  | ⟨type_, name, returnType, operator, modifiers, parameters, children⟩ =>
    computeNodeHash H (some ⟨type_, name, returnType, operator, modifiers, parameters, children⟩)
      (merkle.children H children)
/-- The Merkle hashes of the non-nil entries of a child slice, in order. -/
def merkle.children (H : String → String) : List (Option ASTNode) → List String
  | [] => []
  | child :: rest => (merkle.child H child).toList ++ merkle.children H rest
/-- The Merkle hash of a child pointer, if it is not nil. -/
def merkle.child (H : String → String) : Option ASTNode → Option String
  | none => none
  | some node => some (merkle H node)
end

mutual
/-- The nodes of a tree, children before their parent. -/
def subtreeNodes : ASTNode → List ASTNode
  | ⟨type_, name, returnType, operator, modifiers, parameters, children⟩ =>
    subtreeNodes.children children ++
      [⟨type_, name, returnType, operator, modifiers, parameters, children⟩]
/-- The nodes of the trees of a child slice. -/
def subtreeNodes.children : List (Option ASTNode) → List ASTNode
  | [] => []
  | child :: rest => subtreeNodes.child child ++ subtreeNodes.children rest
/-- The nodes of the tree under a child pointer. -/
def subtreeNodes.child : Option ASTNode → List ASTNode
  | none => []
  | some node => subtreeNodes node
end

/-- The set `subtreeHashes` after the insertion of the given hashes, one after the
other. -/
def insertAll (subtreeHashes : GoMap Bool) (hashes : List String) : GoMap Bool :=
  hashes.foldl (fun m h => m.set h true) subtreeHashes

/-- Two emitted pairs are the same unordered pair of artifacts. -/
def SameUnorderedPair (p q : Pair) : Prop :=
  (p.ArtifactA = q.ArtifactA ∧ p.ArtifactB = q.ArtifactB) ∨
    (p.ArtifactA = q.ArtifactB ∧ p.ArtifactB = q.ArtifactA)

/-- The value that follows the label `label` in a slice of labelled pairs. -/
def partValue (label : String) : List String → Option String
  | a :: b :: rest => if a = label then some b else partValue label rest
  | _ => none

/-- No attribute of the node and no child hash holds a character that the hash input
uses as a delimiter: no `|` anywhere, no `,` in a modifier, a parameter or a child hash,
no `:` in the type or the name of a parameter. -/
def DelimiterFree (node : ASTNode) (childHashes : List String) : Prop :=
  '|' ∉ node.Type_.data ∧ '|' ∉ node.Name.data ∧ '|' ∉ node.ReturnType.data ∧
    '|' ∉ node.Operator.data ∧
    (∀ m ∈ node.Modifiers, '|' ∉ m.data ∧ ',' ∉ m.data) ∧
    (∀ p ∈ node.Parameters,
      ('|' ∉ p.Type_.data ∧ '|' ∉ p.Name.data ∧ '|' ∉ p.ParamType.data) ∧
      (',' ∉ p.Type_.data ∧ ',' ∉ p.Name.data ∧ ',' ∉ p.ParamType.data) ∧
      (':' ∉ p.Type_.data ∧ ':' ∉ p.Name.data)) ∧
    (∀ c ∈ childHashes, '|' ∉ c.data ∧ ',' ∉ c.data)

/-- A literal node whose text holds the delimiter `|`. -/
def exampleLiteralWithBar : ASTNode := ⟨"Literal", "x|op:|+", "", "", [], [], []⟩

/-- A node with the same type, the name `x` and the operator `+`. -/
def exampleLiteralWithOperator : ASTNode := ⟨"Literal", "x", "", "+", [], [], []⟩

/-! ## Fragments of an AST -/

/-- The subtree `BinaryExpr` of the five-node example AST. -/
def exampleFragment : ASTNode :=
  ⟨"BinaryExpr", "", "", "+", [], [],
    [some (exampleLeaf "Identifier"), some (exampleLeaf "Identifier")]⟩

/-- An artifact whose AST is the whole example AST. -/
def fragmentWhole : Artifact := exampleArtifact "attempt-1" ["h1"] (some exampleAST)

/-- An artifact whose AST is the fragment. -/
def fragmentPart : Artifact := exampleArtifact "attempt-2" ["h1"] (some exampleFragment)

/-! ## Parsing a stream message (`stream/types.go`) -/

/-- The struct `StreamMessage`. -/
structure StreamMessage where
  ID : String
  Fields : GoMap String

/-- Modelled from the spec: the declaration of `models.Submission` is not in the
sources; the fields are the ones that `ParseSubmission` assigns. -/
structure Submission where
  AttemptID : String
  SourceCode : String
  Language : String
  LangCode : String
  Email : String
  TestID : String
  DriveID : String
  Difficulty : String
  QID : Int
deriving DecidableEq, Repr

/-- The errors that `ParseSubmission` returns: the type `ErrMissingField`, a string that
names the missing field, and the error of `strconv.ParseInt`. -/
inductive ParseError where
  | ErrMissingField (field : String)
  | numError (message : String)
deriving DecidableEq, Repr

/-- The method `Error` of `ErrMissingField`, and the message of the other error. -/
def ParseError.Error : ParseError → String
  | ParseError.ErrMissingField e => "missing required field: " ++ e
  | ParseError.numError message => message

/-- The index expression `m[k]` on a `map[string]string`: the empty string for a missing
key. -/
def GoMap.index (m : GoMap String) (k : String) : String :=
  (m.get? k).getD ""

/-- The function `ParseSubmission`. The call `strconv.ParseInt(s, 10, 64)` of the Go
library is the parameter `parseInt`. -/
def ParseSubmission (parseInt : String → Except String Int) (msg : StreamMessage) :
    Except ParseError Submission :=
  let submission : Submission :=
    { AttemptID := msg.Fields.index "attemptId"
      SourceCode := msg.Fields.index "sourceCode"
      Language := msg.Fields.index "language"
      LangCode := msg.Fields.index "langCode"
      Email := msg.Fields.index "email"
      TestID := msg.Fields.index "testId"
      DriveID := msg.Fields.index "driveId"
      Difficulty := msg.Fields.index "difficulty"
      QID := 0 }
  let qidStr := msg.Fields.index "qId"
  if qidStr = "" then Except.error (ParseError.ErrMissingField "qId")
  else
    match parseInt qidStr with
    | Except.error err => Except.error (ParseError.numError err)
    | Except.ok qid =>
      let submission := { submission with QID := qid }
      if submission.AttemptID = "" then Except.error (ParseError.ErrMissingField "attemptId")
      else if submission.SourceCode = "" then
        Except.error (ParseError.ErrMissingField "sourceCode")
      else if submission.Email = "" then Except.error (ParseError.ErrMissingField "email")
      else if submission.DriveID = "" then Except.error (ParseError.ErrMissingField "driveId")
      else Except.ok submission

/-- The message passes the checks of `ParseSubmission`: `qId` is non-empty and parses,
and the four required fields are non-empty. -/
def ValidMessage (parseInt : String → Except String Int) (msg : StreamMessage) : Prop :=
  msg.Fields.index "qId" ≠ "" ∧ (∃ qid, parseInt (msg.Fields.index "qId") = Except.ok qid) ∧
    msg.Fields.index "attemptId" ≠ "" ∧ msg.Fields.index "sourceCode" ≠ "" ∧
    msg.Fields.index "email" ≠ "" ∧ msg.Fields.index "driveId" ≠ ""

/-- The value of a string of decimal digits, read from the left. -/
def decimalValue : List Char → Nat → Option Nat
  | [], acc => some acc
  | c :: cs, acc => if c.isDigit then decimalValue cs (acc * 10 + (c.toNat - 48)) else none

/-- A stand-in for `strconv.ParseInt(s, 10, 64)` on concrete inputs: an optional sign,
at least one decimal digit, and a value in the range of `int64`. -/
def decimalParseInt (s : String) : Except String Int :=
  match s.data with
  | [] => Except.error "invalid syntax"
  | '-' :: ds =>
    match ds, decimalValue ds 0 with
    | _ :: _, some n => if n ≤ 2 ^ 63 then Except.ok (-(n : Int)) else Except.error "out of range"
    | _, _ => Except.error "invalid syntax"
  | '+' :: ds =>
    match ds, decimalValue ds 0 with
    | _ :: _, some n => if n < 2 ^ 63 then Except.ok (n : Int) else Except.error "out of range"
    | _, _ => Except.error "invalid syntax"
  | ds =>
    match decimalValue ds 0 with
    | some n => if n < 2 ^ 63 then Except.ok (n : Int) else Except.error "out of range"
    | none => Except.error "invalid syntax"

/-- A complete stream message. -/
def exampleMessage : StreamMessage :=
  { ID := "1-0",
    Fields := [("attemptId", "a1"), ("sourceCode", "print(1)"), ("language", "python"),
      ("langCode", "py"), ("email", "a@example.org"), ("testId", "t1"), ("driveId", "d1"),
      ("difficulty", "easy"), ("qId", "42")] }

/-- A stream message without `sourceCode` and without `email`. -/
def exampleMessageMissing : StreamMessage :=
  { ID := "1-1",
    Fields := [("attemptId", "a1"), ("driveId", "d1"), ("qId", "42")] }

/-- A third attempt next to the two of scenario S2, sharing one hash with them. -/
def identicalThird : Artifact := exampleArtifact "attempt-3" ["f0", "g1"] none

/-! ## Facts about Go maps -/

namespace GoMap

variable {V : Type}

theorem get?_set_self (m : GoMap V) (k : String) (v : V) : (m.set k v).get? k = some v := by
  induction m with
  | nil => simp [set, get?]
  | cons e rest ih =>
    obtain ⟨k', v'⟩ := e
    by_cases h : k' = k
    · simp [set, get?, h]
    · simp [set, get?, h, ih]

theorem get?_set_of_ne (m : GoMap V) {k k' : String} (v : V) (h : k ≠ k') :
    (m.set k v).get? k' = m.get? k' := by
  induction m with
  | nil => simp [set, get?, h]
  | cons e rest ih =>
    obtain ⟨k₀, v₀⟩ := e
    by_cases h₀ : k₀ = k
    · subst h₀
      simp [set, get?, h]
    · by_cases h₁ : k₀ = k'
      · subst h₁
        simp [set, get?, h₀]
      · simp [set, get?, h₀, h₁, ih]

theorem get?_set (m : GoMap V) (k k' : String) (v : V) :
    (m.set k v).get? k' = if k = k' then some v else m.get? k' := by
  by_cases h : k = k'
  · subst h
    simp [get?_set_self]
  · simp [h, get?_set_of_ne]

theorem get?_eq_none_iff (m : GoMap V) (k : String) : m.get? k = none ↔ k ∉ m.keys := by
  induction m with
  | nil => simp [get?, keys]
  | cons e rest ih =>
    obtain ⟨k₀, v₀⟩ := e
    by_cases h₀ : k₀ = k
    · simp [get?, keys, h₀]
    · have h₁ : ¬ k = k₀ := fun h => h₀ h.symm
      simpa [get?, keys, h₀, h₁] using ih

theorem mem_keys_iff (m : GoMap V) (k : String) : k ∈ m.keys ↔ ∃ v, m.get? k = some v := by
  have h := get?_eq_none_iff m k
  cases hg : m.get? k with
  | none => simpa using h.1 hg
  | some v =>
    have : ¬ k ∉ m.keys := fun hk => by simp [h.2 hk] at hg
    simpa using this

theorem mem_of_get? {m : GoMap V} {k : String} {v : V} (h : m.get? k = some v) : (k, v) ∈ m := by
  induction m with
  | nil => simp [get?] at h
  | cons e rest ih =>
    obtain ⟨k₀, v₀⟩ := e
    by_cases h₀ : k₀ = k
    · simp [get?, h₀] at h
      simp [h₀, h]
    · simp [get?, h₀] at h
      exact List.mem_cons_of_mem _ (ih h)

theorem get?_of_mem {m : GoMap V} (hm : m.keys.Nodup) {k : String} {v : V} (h : (k, v) ∈ m) :
    m.get? k = some v := by
  induction m with
  | nil => simp at h
  | cons e rest ih =>
    obtain ⟨k₀, v₀⟩ := e
    simp only [keys, List.map_cons, List.nodup_cons] at hm
    rcases List.mem_cons.1 h with h' | h'
    · simp only [Prod.mk.injEq] at h'
      simp [get?, h'.1, h'.2]
    · have hk : k₀ ≠ k := by
        rintro rfl
        exact hm.1 (List.mem_map_of_mem Prod.fst h')
      simpa [get?, hk] using ih hm.2 h'

theorem mem_iff_get? {m : GoMap V} (hm : m.keys.Nodup) (k : String) (v : V) :
    (k, v) ∈ m ↔ m.get? k = some v :=
  ⟨get?_of_mem hm, mem_of_get?⟩

theorem keys_set (m : GoMap V) (k : String) (v : V) :
    (m.set k v).keys = if k ∈ m.keys then m.keys else m.keys ++ [k] := by
  induction m with
  | nil => simp [set, keys]
  | cons e rest ih =>
    obtain ⟨k₀, v₀⟩ := e
    by_cases h₀ : k₀ = k
    · simp [set, keys, h₀]
    · have h₁ : ¬ k = k₀ := fun h => h₀ h.symm
      simp only [keys] at ih
      simp only [set, keys, h₀, if_false, List.map_cons, List.mem_cons, h₁, false_or, ih]
      split <;> simp

theorem mem_keys_set (m : GoMap V) (k k' : String) (v : V) :
    k' ∈ (m.set k v).keys ↔ k' = k ∨ k' ∈ m.keys := by
  rw [keys_set]
  split
  · constructor
    · exact Or.inr
    · rintro (rfl | h)
      · assumption
      · exact h
  · simp [or_comm]

theorem nodup_keys_set {m : GoMap V} (hm : m.keys.Nodup) (k : String) (v : V) :
    (m.set k v).keys.Nodup := by
  rw [keys_set]
  split
  · exact hm
  · rename_i h
    exact List.Nodup.append hm (List.nodup_singleton k) (by simpa using h)

theorem length_set (m : GoMap V) (k : String) (v : V) :
    (m.set k v).length = if k ∈ m.keys then m.length else m.length + 1 := by
  have h := congrArg List.length (keys_set m k v)
  simp only [keys, List.length_map] at h
  rw [h]
  by_cases hk : k ∈ List.map Prod.fst m
  · simp [keys, hk]
  · simp [keys, hk]

theorem get?_filter {m : GoMap V} (hm : m.keys.Nodup) (p : V → Bool) (k : String) :
    GoMap.get? (m.filter (fun e => p e.2)) k = (m.get? k).filter p := by
  induction m with
  | nil => simp [get?]
  | cons e rest ih =>
    obtain ⟨k₀, v₀⟩ := e
    simp only [keys, List.map_cons, List.nodup_cons] at hm
    by_cases h₀ : k₀ = k
    · subst h₀
      have hnone : get? rest k₀ = none := (get?_eq_none_iff rest k₀).2 hm.1
      have ih' := ih hm.2
      rw [hnone] at ih'
      by_cases hp : p v₀ = true
      · simp [List.filter, hp, get?, Option.filter]
      · simp only [List.filter, hp, get?, if_true, Option.filter]
        simpa using ih'
    · by_cases hp : p v₀ = true
      · simpa [List.filter, hp, get?, h₀] using ih hm.2
      · simpa [List.filter, hp, get?, h₀] using ih hm.2

theorem nodup_keys_filter {m : GoMap V} (hm : m.keys.Nodup) (p : String × V → Bool) :
    GoMap.keys (m.filter p) |>.Nodup :=
  List.Nodup.sublist (List.Sublist.map Prod.fst (List.filter_sublist m)) hm

end GoMap

/-! ## The inverted index -/

theorem GoMap.allTrue_nil : GoMap.AllTrue [] := by
  intro k v h
  simp [GoMap.get?] at h

theorem GoMap.AllTrue.set {m : GoMap Bool} (hm : m.AllTrue) (k : String) :
    GoMap.AllTrue (m.set k true) := by
  intro k' v h
  rw [GoMap.get?_set] at h
  split at h
  · simpa using h.symm
  · exact hm k' v h

theorem GoMap.AllTrue.getD_eq_true_iff {m : GoMap Bool} (hm : m.AllTrue) (k : String) :
    (m.get? k).getD false = true ↔ k ∈ m.keys := by
  rw [GoMap.mem_keys_iff]
  cases hg : m.get? k with
  | none => simp
  | some v => simp [hm k v hg]

theorem foldl_hashStep_get? (attemptID : String) (hs : List HashEntry) (seen : GoMap Bool)
    (g : GII) (hseen : seen.AllTrue) (h : String) :
    GoMap.get? (hs.foldl (BuildGII.hashStep attemptID) (seen, g)).2 h =
      if h ∈ hs.map HashEntry.Hash ∧ h ∉ seen.keys then
        some ((g.get? h).getD [] ++ [attemptID])
      else g.get? h := by
  induction hs generalizing seen g with
  | nil => simp
  | cons e hs ih =>
    rw [List.foldl_cons]
    by_cases hs₀ : (seen.get? e.Hash).getD false = true
    · have hmem : e.Hash ∈ seen.keys := (hseen.getD_eq_true_iff _).1 hs₀
      have hstep : BuildGII.hashStep attemptID (seen, g) e = (seen, g) := by
        simp [BuildGII.hashStep, hs₀]
      rw [hstep, ih seen g hseen]
      by_cases he : h = e.Hash
      · subst he
        simp [hmem]
      · simp [he]
    · have hmem : e.Hash ∉ seen.keys := fun hk => hs₀ ((hseen.getD_eq_true_iff _).2 hk)
      have hstep : BuildGII.hashStep attemptID (seen, g) e =
          (seen.set e.Hash true, g.set e.Hash ((g.get? e.Hash).getD [] ++ [attemptID])) := by
        simp [BuildGII.hashStep, hs₀]
      rw [hstep, ih _ _ (hseen.set _)]
      by_cases he : h = e.Hash
      · subst he
        simp [GoMap.mem_keys_set, GoMap.get?_set_self, hmem]
      · have he' : e.Hash ≠ h := fun x => he x.symm
        simp [GoMap.mem_keys_set, GoMap.get?_set_of_ne _ _ he', he]

theorem foldl_hashStep_nodup (attemptID : String) (hs : List HashEntry) (seen : GoMap Bool)
    (g : GII) (hg : g.keys.Nodup) :
    (GoMap.keys (hs.foldl (BuildGII.hashStep attemptID) (seen, g)).2).Nodup := by
  induction hs generalizing seen g with
  | nil => simpa using hg
  | cons e hs ih =>
    rw [List.foldl_cons]
    unfold BuildGII.hashStep
    dsimp only
    split
    · exact ih _ _ hg
    · exact ih _ _ (GoMap.nodup_keys_set hg _ _)

theorem artifactStep_get? (g : GII) (a : Artifact) (h : String) :
    (BuildGII.artifactStep g a).get? h =
      if hasHash a h = true then some ((g.get? h).getD [] ++ [a.AttemptID]) else g.get? h := by
  unfold BuildGII.artifactStep hasHash
  cases a.Fingerprints with
  | none => simp
  | some fp =>
    simp only [foldl_hashStep_get? _ _ _ _ GoMap.allTrue_nil]
    simp [GoMap.keys]

theorem artifactStep_nodup (g : GII) (a : Artifact) (hg : g.keys.Nodup) :
    (BuildGII.artifactStep g a).keys.Nodup := by
  unfold BuildGII.artifactStep
  cases a.Fingerprints with
  | none => exact hg
  | some fp => exact foldl_hashStep_nodup _ _ _ _ hg

theorem postingOf_cons (a : Artifact) (arts : List Artifact) (h : String) :
    postingOf (a :: arts) h =
      if hasHash a h = true then a.AttemptID :: postingOf arts h else postingOf arts h := by
  unfold postingOf
  by_cases ha : hasHash a h = true
  · simp [List.filter, ha]
  · simp [List.filter, ha]

theorem foldl_artifactStep_get? (arts : List Artifact) (g : GII) (h : String) :
    (arts.foldl BuildGII.artifactStep g).get? h =
      if postingOf arts h = [] then g.get? h
      else some ((g.get? h).getD [] ++ postingOf arts h) := by
  induction arts generalizing g with
  | nil => simp [postingOf]
  | cons a arts ih =>
    rw [List.foldl_cons, ih, artifactStep_get?, postingOf_cons]
    by_cases ha : hasHash a h = true
    · by_cases hp : postingOf arts h = []
      · simp [ha, hp]
      · simp [ha, hp]
    · simp [ha]

theorem foldl_artifactStep_nodup (arts : List Artifact) (g : GII) (hg : g.keys.Nodup) :
    (arts.foldl BuildGII.artifactStep g).keys.Nodup := by
  induction arts generalizing g with
  | nil => simpa using hg
  | cons a arts ih =>
    rw [List.foldl_cons]
    exact ih _ (artifactStep_nodup g a hg)

/-- The index as a function: the posting list of `h` is `postingOf artifacts h` when
that list has at least two entries, and `h` is no key otherwise. -/
theorem BuildGII_get? (arts : List Artifact) (h : String) :
    (BuildGII arts).get? h =
      if 2 ≤ (postingOf arts h).length then some (postingOf arts h) else none := by
  unfold BuildGII
  have hn : (GoMap.keys (arts.foldl BuildGII.artifactStep [])).Nodup :=
    foldl_artifactStep_nodup arts [] (by simp [GoMap.keys])
  have := GoMap.get?_filter hn (fun l => decide (l.length ≥ 2)) h
  simp only at this
  rw [this, foldl_artifactStep_get?]
  by_cases hp : postingOf arts h = []
  · simp [hp, GoMap.get?, Option.filter]
  · by_cases hl : 2 ≤ (postingOf arts h).length
    · simp [hp, hl, GoMap.get?, Option.filter]
    · simp [hp, hl, GoMap.get?, Option.filter]

theorem BuildGII_nodup (arts : List Artifact) : (BuildGII arts).keys.Nodup := by
  unfold BuildGII
  exact GoMap.nodup_keys_filter (foldl_artifactStep_nodup arts [] (by simp [GoMap.keys])) _

theorem BuildGII_mem_iff (arts : List Artifact) (h : String) (l : List String) :
    (h, l) ∈ BuildGII arts ↔ l = postingOf arts h ∧ 2 ≤ l.length := by
  rw [GoMap.mem_iff_get? (BuildGII_nodup arts), BuildGII_get?]
  constructor
  · intro hh
    split at hh
    · simp only [Option.some.injEq] at hh
      subst hh
      exact ⟨rfl, by assumption⟩
    · simp at hh
  · rintro ⟨rfl, h2⟩
    simp [h2]

/-! ## The pair selector -/

theorem pairLoop_eq_foldl (st : PairState) (l : List Artifact) :
    GetWorthyPairs.pairLoop st l =
      (pairsOf l).foldl (fun s p => GetWorthyPairs.pairStep s p.1 p.2) st := by
  induction l generalizing st with
  | nil => simp [GetWorthyPairs.pairLoop, pairsOf]
  | cons a rest ih =>
    simp only [GetWorthyPairs.pairLoop, pairsOf, List.foldl_append, List.foldl_map]
    exact ih _

theorem foldl_entryStep_eq (m : GoMap Artifact) (gii : GII) (st : PairState) :
    gii.foldl (GetWorthyPairs.entryStep m) st =
      (gii.flatMap (entryPairs m)).foldl (fun s p => GetWorthyPairs.pairStep s p.1 p.2) st := by
  induction gii generalizing st with
  | nil => simp
  | cons e rest ih =>
    rw [List.foldl_cons, ih, List.flatMap_cons, List.foldl_append]
    congr 1
    unfold GetWorthyPairs.entryStep entryPairs
    dsimp only
    split
    · simp
    · exact pairLoop_eq_foldl _ _

theorem counts_eq (gii : GII) (arts : List Artifact) :
    GetWorthyPairs.counts gii arts =
      (visitedPairs gii arts).foldl (fun s p => GetWorthyPairs.pairStep s p.1 p.2) ([], []) :=
  foldl_entryStep_eq _ _ _

/-- The two maps after the visits `P`: a key is counted once per visit, and is bound to
the first pair visited under it. -/
theorem foldl_pairStep_spec (P : List (Artifact × Artifact)) :
    let st := P.foldl (fun s p => GetWorthyPairs.pairStep s p.1 p.2) ([], [])
    (∀ k, st.1.get? k =
        if P.countP (fun p => decide (pairKeyOf p = k)) = 0 then none
        else some (P.countP (fun p => decide (pairKeyOf p = k)))) ∧
    (∀ k, st.2.get? k =
        (P.find? (fun p => decide (pairKeyOf p = k))).map (fun p => (⟨p.1, p.2⟩ : Pair))) ∧
    st.1.keys.Nodup := by
  induction P using List.reverseRecOn with
  | nil => simp [GoMap.get?, GoMap.keys]
  | append_singleton P p ih =>
    simp only [List.foldl_append, List.foldl_cons, List.foldl_nil]
    obtain ⟨h1, h2, h3⟩ := ih
    generalize P.foldl (fun s p => GetWorthyPairs.pairStep s p.1 p.2) ([], []) = st at h1 h2 h3
    have hfst : (GetWorthyPairs.pairStep st p.1 p.2).1 =
        st.1.set (pairKeyOf p) ((st.1.get? (pairKeyOf p)).getD 0 + 1) := by
      unfold GetWorthyPairs.pairStep pairKeyOf
      dsimp only
      split <;> rfl
    have hsnd : (GetWorthyPairs.pairStep st p.1 p.2).2 =
        match st.2.get? (pairKeyOf p) with
        | some _ => st.2
        | none => st.2.set (pairKeyOf p) ⟨p.1, p.2⟩ := by
      unfold GetWorthyPairs.pairStep pairKeyOf
      dsimp only
      split <;> simp_all
    refine ⟨fun k => ?_, fun k => ?_, ?_⟩
    · rw [hfst, GoMap.get?_set, List.countP_append]
      by_cases hk : pairKeyOf p = k
      · subst hk
        rw [h1]
        by_cases hc : List.countP (fun q => decide (pairKeyOf q = pairKeyOf p)) P = 0
        · simp [hc, List.countP_cons]
        · simp [hc, List.countP_cons]
      · have hc : List.countP (fun q => decide (pairKeyOf q = k)) [p] = 0 := by
          rw [List.countP_eq_zero]
          intro q hq
          rw [List.mem_singleton] at hq
          subst hq
          simpa using hk
        rw [if_neg hk, hc, h1]
        rfl
    · rw [hsnd, List.find?_append]
      by_cases hk : pairKeyOf p = k
      · subst hk
        cases hf : List.find? (fun q => decide (pairKeyOf q = pairKeyOf p)) P with
        | none =>
          have : st.2.get? (pairKeyOf p) = none := by rw [h2, hf]; rfl
          simp [this, GoMap.get?_set_self, List.find?]
        | some q =>
          have : st.2.get? (pairKeyOf p) = some ⟨q.1, q.2⟩ := by rw [h2, hf]; rfl
          simp [this]
      · have hfp : List.find? (fun q => decide (pairKeyOf q = k)) [p] = none := by
          simp [List.find?, hk]
        rw [hfp, Option.or_none]
        split
        · exact h2 k
        · rw [GoMap.get?_set_of_ne _ _ hk]
          exact h2 k
    · rw [hfst]
      exact GoMap.nodup_keys_set h3 _ _

/-- Membership in the output of `GetWorthyPairs`, in terms of the visited pairs. -/
theorem mem_GetWorthyPairs_iff (gii : GII) (arts : List Artifact) (d : String) (q : Pair) :
    q ∈ GetWorthyPairs gii arts d ↔
      ∃ p, (visitedPairs gii arts).find? (fun x => decide (pairKeyOf x = pairKeyOf p)) = some p ∧
        q = ⟨p.1, p.2⟩ ∧
        calculateOverlap p.1 p.2
          ((visitedPairs gii arts).countP (fun x => decide (pairKeyOf x = pairKeyOf p))) ≥
            getWorthyThreshold d := by
  unfold GetWorthyPairs
  simp only [counts_eq]
  obtain ⟨h1, h2, h3⟩ := foldl_pairStep_spec (visitedPairs gii arts)
  generalize (visitedPairs gii arts).foldl (fun s p => GetWorthyPairs.pairStep s p.1 p.2)
    ([], []) = st at h1 h2 h3
  rw [List.mem_filterMap]
  constructor
  · rintro ⟨⟨k, c⟩, hmem, hemit⟩
    rw [GoMap.mem_iff_get? h3, h1] at hmem
    unfold GetWorthyPairs.emit at hemit
    simp only [h2] at hemit
    cases hf : List.find? (fun x => decide (pairKeyOf x = k)) (visitedPairs gii arts) with
    | none => simp [hf] at hemit
    | some p =>
      have hkp : pairKeyOf p = k := by simpa using List.find?_some hf
      subst hkp
      simp only [hf, Option.map_some'] at hemit
      split at hemit
      · rename_i hov
        simp only [Option.some.injEq] at hemit
        split at hmem
        · simp at hmem
        · simp only [Option.some.injEq] at hmem
          refine ⟨p, hf, hemit.symm, ?_⟩
          rw [hmem]
          exact hov
      · simp at hemit
  · rintro ⟨p, hf, rfl, hov⟩
    have hpos : List.countP (fun x => decide (pairKeyOf x = pairKeyOf p)) (visitedPairs gii arts) ≠ 0 := by
      rw [Ne, List.countP_eq_zero]
      intro hall
      have := hall p (List.mem_of_find?_eq_some hf)
      simp at this
    refine ⟨(pairKeyOf p, _), (GoMap.mem_iff_get? h3 _ _).2 ((h1 _).trans (if_neg hpos)), ?_⟩
    unfold GetWorthyPairs.emit
    simp only [h2, hf, Option.map_some']
    rw [if_pos hov]

/-! ## The visited pairs -/

theorem artifactMapOf_append (l : List Artifact) (a : Artifact) :
    artifactMapOf (l ++ [a]) = (artifactMapOf l).set a.AttemptID a := by
  simp [artifactMapOf, List.foldl_append]

/-- A lookup in `artifactMap` only returns artifacts of the list, under their own ID. -/
theorem artifactMapOf_get?_some {arts : List Artifact} {k : String} {X : Artifact}
    (h : (artifactMapOf arts).get? k = some X) : X ∈ arts ∧ X.AttemptID = k := by
  induction arts using List.reverseRecOn with
  | nil => simp [artifactMapOf, GoMap.get?] at h
  | append_singleton l a ih =>
    rw [artifactMapOf_append, GoMap.get?_set] at h
    split at h
    · rename_i hk
      simp only [Option.some.injEq] at h
      subst h
      exact ⟨by simp, hk⟩
    · obtain ⟨h1, h2⟩ := ih h
      exact ⟨List.mem_append_left _ h1, h2⟩

/-- With pairwise distinct attempt IDs every artifact is found under its ID. -/
theorem artifactMapOf_get?_of_mem {arts : List Artifact}
    (hid : (arts.map Artifact.AttemptID).Nodup) {X : Artifact} (hX : X ∈ arts) :
    (artifactMapOf arts).get? X.AttemptID = some X := by
  induction arts using List.reverseRecOn with
  | nil => simp at hX
  | append_singleton l a ih =>
    rw [artifactMapOf_append, GoMap.get?_set]
    rw [List.map_append, List.nodup_append] at hid
    rcases List.mem_append.1 hX with h | h
    · have hne : a.AttemptID ≠ X.AttemptID := by
        intro heq
        exact hid.2.2 (List.mem_map_of_mem Artifact.AttemptID h) (by simp [heq])
      rw [if_neg hne]
      exact ih hid.1 h
    · rw [List.mem_singleton] at h
      subst h
      simp

theorem mem_pairsOf {l : List Artifact} {p : Artifact × Artifact} (h : p ∈ pairsOf l) :
    p.1 ∈ l ∧ p.2 ∈ l := by
  induction l with
  | nil => simp [pairsOf] at h
  | cons a rest ih =>
    simp only [pairsOf, List.mem_append, List.mem_map] at h
    rcases h with ⟨b, hb, rfl⟩ | h
    · exact ⟨by simp, List.mem_cons_of_mem _ hb⟩
    · exact ⟨List.mem_cons_of_mem _ (ih h).1, List.mem_cons_of_mem _ (ih h).2⟩

theorem mem_postingOf {arts : List Artifact} {h id : String} (hm : id ∈ postingOf arts h) :
    ∃ X ∈ arts, hasHash X h = true ∧ X.AttemptID = id := by
  unfold postingOf at hm
  rw [List.mem_map] at hm
  obtain ⟨X, hX, rfl⟩ := hm
  rw [List.mem_filter] at hX
  exact ⟨X, hX.1, hX.2, rfl⟩

/-- Every pair visited on the index of the list consists of two artifacts of the list
that both hold the hash of the entry that produced the visit. -/
theorem mem_visitedPairs_BuildGII {arts : List Artifact}
    (hid : (arts.map Artifact.AttemptID).Nodup) {g : GII} (hg : g.Perm (BuildGII arts))
    {p : Artifact × Artifact} (hp : p ∈ visitedPairs g arts) :
    ∃ h, p.1 ∈ arts ∧ p.2 ∈ arts ∧ hasHash p.1 h = true ∧ hasHash p.2 h = true := by
  unfold visitedPairs at hp
  rw [List.mem_flatMap] at hp
  obtain ⟨⟨h, l⟩, he, hpe⟩ := hp
  have he' := (BuildGII_mem_iff arts h l).1 (hg.mem_iff.1 he)
  unfold entryPairs at hpe
  split at hpe
  · simp at hpe
  · have hmem := mem_pairsOf hpe
    simp only [List.mem_filterMap] at hmem
    obtain ⟨⟨i₁, hi₁, hg₁⟩, ⟨i₂, hi₂, hg₂⟩⟩ := hmem
    have key : ∀ i X, i ∈ l → (artifactMapOf arts).get? i = some X →
        X ∈ arts ∧ hasHash X h = true := by
      intro i X hi hX
      rw [he'.1] at hi
      obtain ⟨Y, hY, hYh, hYi⟩ := mem_postingOf hi
      have := artifactMapOf_get?_of_mem hid hY
      rw [hYi, hX] at this
      simp only [Option.some.injEq] at this
      subst this
      exact ⟨hY, hYh⟩
    exact ⟨h, (key i₁ p.1 hi₁ hg₁).1, (key i₂ p.2 hi₂ hg₂).1, (key i₁ p.1 hi₁ hg₁).2,
      (key i₂ p.2 hi₂ hg₂).2⟩

/-! ## Thresholds and disjoint fingerprints -/

theorem getWorthyThreshold_easy : getWorthyThreshold "easy" = 15 / 100 := by
  simp [getWorthyThreshold]

theorem getWorthyThreshold_medium : getWorthyThreshold "medium" = 10 / 100 := by
  simp [getWorthyThreshold]

theorem getWorthyThreshold_hard : getWorthyThreshold "hard" = 5 / 100 := by
  simp [getWorthyThreshold]

theorem GetWorthyPairs_subset_of_le (gii : GII) (arts : List Artifact) {d d' : String}
    (h : getWorthyThreshold d' ≤ getWorthyThreshold d) :
    GetWorthyPairs gii arts d ⊆ GetWorthyPairs gii arts d' := by
  intro q hq
  rw [mem_GetWorthyPairs_iff] at hq ⊢
  obtain ⟨p, h1, h2, h3⟩ := hq
  exact ⟨p, h1, h2, le_trans h h3⟩

/-- Threshold monotonicity under one range order: for every index and every artifact
list, when the calls range over the index in the same order, the pairs emitted at
difficulty easy are emitted at medium, and the pairs emitted at medium are emitted at
hard, the thresholds being strictly decreasing. -/
theorem GetWorthyPairs_threshold_monotone (gii : GII) (artifacts : List Artifact) :
    GetWorthyPairs gii artifacts "easy" ⊆ GetWorthyPairs gii artifacts "medium" ∧
    GetWorthyPairs gii artifacts "medium" ⊆ GetWorthyPairs gii artifacts "hard" ∧
    GetWorthyPairs gii artifacts "easy" ⊆ GetWorthyPairs gii artifacts "hard" ∧
    getWorthyThreshold "easy" > getWorthyThreshold "medium" ∧
    getWorthyThreshold "medium" > getWorthyThreshold "hard" := by
  have h1 : getWorthyThreshold "medium" < getWorthyThreshold "easy" := by
    rw [getWorthyThreshold_easy, getWorthyThreshold_medium]; norm_num
  have h2 : getWorthyThreshold "hard" < getWorthyThreshold "medium" := by
    rw [getWorthyThreshold_hard, getWorthyThreshold_medium]; norm_num
  exact ⟨GetWorthyPairs_subset_of_le _ _ h1.le, GetWorthyPairs_subset_of_le _ _ h2.le,
    GetWorthyPairs_subset_of_le _ _ (h2.trans h1).le, h1, h2⟩

/-- C2. Disjoint fingerprints: with pairwise distinct attempt IDs, two artifacts that
share no fingerprint hash are never emitted as a pair, at any difficulty, whatever their
ASTs are and in whatever order the index map is ranged over. -/
theorem GetWorthyPairs_disjoint_not_emitted (artifacts : List Artifact)
    (hid : (artifacts.map Artifact.AttemptID).Nodup) (difficulty : String) (A B : Artifact)
    (hdisj : ∀ h, ¬ (hasHash A h = true ∧ hasHash B h = true))
    (gii : GII) (hgii : gii.Perm (BuildGII artifacts)) :
    ¬ EmitsPair (GetWorthyPairs gii artifacts difficulty) A B := by
  rintro ⟨q, hq, hAB⟩
  rw [mem_GetWorthyPairs_iff] at hq
  obtain ⟨p, hf, rfl, -⟩ := hq
  obtain ⟨h, -, -, h1, h2⟩ := mem_visitedPairs_BuildGII hid hgii (List.mem_of_find?_eq_some hf)
  rcases hAB with ⟨rfl, rfl⟩ | ⟨rfl, rfl⟩
  · exact hdisj h ⟨h1, h2⟩
  · exact hdisj h ⟨h2, h1⟩

/-! ## Keys and posting lists of the index -/

theorem postingOf_nodup {arts : List Artifact} (hid : (arts.map Artifact.AttemptID).Nodup)
    (h : String) : (postingOf arts h).Nodup :=
  List.Nodup.sublist (List.Sublist.map _ (List.filter_sublist arts)) hid

theorem mem_postingOf_of_mem {arts : List Artifact} {h : String} {X : Artifact} (hX : X ∈ arts)
    (hh : hasHash X h = true) : X.AttemptID ∈ postingOf arts h :=
  List.mem_map_of_mem _ (List.mem_filter.2 ⟨hX, hh⟩)

theorem two_le_length_of_mem_of_ne {l : List String} {a b : String} (ha : a ∈ l) (hb : b ∈ l)
    (hab : a ≠ b) : 2 ≤ l.length := by
  match l, ha, hb with
  | [x], ha, hb =>
    rw [List.mem_singleton] at ha hb
    exact absurd (ha.trans hb.symm) hab
  | _ :: _ :: _, _, _ => simp

/-- A hash has a posting list of at least two entries exactly when two attempts of the
list hold it. -/
theorem two_le_length_postingOf_iff {arts : List Artifact}
    (hid : (arts.map Artifact.AttemptID).Nodup) (h : String) :
    2 ≤ (postingOf arts h).length ↔
      ∃ A ∈ arts, ∃ B ∈ arts, A.AttemptID ≠ B.AttemptID ∧
        hasHash A h = true ∧ hasHash B h = true := by
  constructor
  · intro hlen
    have hnd := postingOf_nodup hid h
    match hl : postingOf arts h, hlen, hnd with
    | x :: y :: t, _, hnd =>
      have hx : x ∈ postingOf arts h := by rw [hl]; simp
      have hy : y ∈ postingOf arts h := by rw [hl]; simp
      obtain ⟨X, hX, hXh, rfl⟩ := mem_postingOf hx
      obtain ⟨Y, hY, hYh, rfl⟩ := mem_postingOf hy
      refine ⟨X, hX, Y, hY, ?_, hXh, hYh⟩
      intro heq
      rw [List.nodup_cons] at hnd
      exact hnd.1 (by simp [heq])
  · rintro ⟨A, hA, B, hB, hne, hAh, hBh⟩
    exact two_le_length_of_mem_of_ne (mem_postingOf_of_mem hA hAh) (mem_postingOf_of_mem hB hBh) hne

theorem mem_keys_BuildGII_iff (arts : List Artifact) (h : String) :
    h ∈ (BuildGII arts).keys ↔ 2 ≤ (postingOf arts h).length := by
  rw [GoMap.mem_keys_iff, BuildGII_get?]
  by_cases hl : 2 ≤ (postingOf arts h).length
  · simp [hl]
  · simp [hl]

theorem foldl_artifactStep_filter (arts : List Artifact) (g : GII) :
    arts.foldl BuildGII.artifactStep g =
      (arts.filter (fun a => a.Fingerprints.isSome)).foldl BuildGII.artifactStep g := by
  induction arts generalizing g with
  | nil => rfl
  | cons a arts ih =>
    cases hfp : a.Fingerprints with
    | none =>
      have : BuildGII.artifactStep g a = g := by simp [BuildGII.artifactStep, hfp]
      simp [List.filter, hfp, this, ih]
    | some fp =>
      simp [List.filter, hfp, ih]

/-- C4. With pairwise distinct attempt IDs, a hash is a key of the index exactly when it
occurs in the fingerprints of two distinct attempts of the list; artifacts with nil
fingerprints contribute nothing (dropping them leaves the index unchanged); and every
posting list has at least two entries. -/
theorem BuildGII_keys_iff_two_attempts (artifacts : List Artifact)
    (hid : (artifacts.map Artifact.AttemptID).Nodup) :
    (∀ h, h ∈ (BuildGII artifacts).keys ↔
      ∃ A ∈ artifacts, ∃ B ∈ artifacts, A.AttemptID ≠ B.AttemptID ∧
        hasHash A h = true ∧ hasHash B h = true) ∧
    BuildGII artifacts = BuildGII (artifacts.filter (fun a => a.Fingerprints.isSome)) ∧
    (∀ e ∈ BuildGII artifacts, 2 ≤ e.2.length) := by
  refine ⟨fun h => ?_, ?_, ?_⟩
  · rw [mem_keys_BuildGII_iff, two_le_length_postingOf_iff hid]
  · unfold BuildGII
    rw [← foldl_artifactStep_filter]
  · rintro ⟨h, l⟩ he
    exact ((BuildGII_mem_iff artifacts h l).1 he).2

/-- C5. With pairwise distinct attempt IDs, the posting list of a key `h` is the list of
the attempt IDs of the artifacts whose fingerprints hold `h`, in input order: the ID of
such an artifact occurs exactly once (however often `h` is repeated inside its
fingerprints), the ID of any other artifact does not occur, and no ID is repeated. -/
theorem BuildGII_posting_once_in_order (artifacts : List Artifact)
    (hid : (artifacts.map Artifact.AttemptID).Nodup) (h : String) (l : List String)
    (hl : (BuildGII artifacts).get? h = some l) :
    l = (artifacts.filter (fun a => hasHash a h)).map Artifact.AttemptID ∧
    (∀ A ∈ artifacts, l.count A.AttemptID = if hasHash A h = true then 1 else 0) ∧
    l.Nodup := by
  have hl' : l = postingOf artifacts h :=
    ((BuildGII_mem_iff artifacts h l).1 (GoMap.mem_of_get? hl)).1
  subst hl'
  have hnd := postingOf_nodup hid h
  refine ⟨rfl, fun A hA => ?_, hnd⟩
  by_cases hh : hasHash A h = true
  · rw [if_pos hh]
    exact List.count_eq_one_of_mem hnd (mem_postingOf_of_mem hA hh)
  · rw [if_neg hh]
    apply List.count_eq_zero_of_not_mem
    intro hmem
    obtain ⟨X, hX, hXh, hXid⟩ := mem_postingOf hmem
    have : X = A := List.inj_on_of_nodup_map hid hX hA hXid
    subst this
    exact hh hXh

/-! ## The Merkle AST score -/

theorem GoMap.set_ne_nil {V : Type} (m : GoMap V) (k : String) (v : V) : m.set k v ≠ [] := by
  cases m with
  | nil => simp [GoMap.set]
  | cons e rest =>
    obtain ⟨k', v'⟩ := e
    unfold GoMap.set
    split <;> simp

mutual
theorem buildSubtreeHashesRecursive_inv (H : String → String) :
    ∀ (n : ASTNode) (s : GoMap Bool), s.keys.Nodup ∧ s.AllTrue →
      (buildSubtreeHashesRecursive H n s).2.keys.Nodup ∧
        (buildSubtreeHashesRecursive H n s).2.AllTrue
  | ⟨t, nm, rt, op, ms, ps, children⟩, s, hs => by
    rw [buildSubtreeHashesRecursive]
    have ih := buildSubtreeHashesRecursive_children_inv H children [] s hs
    exact ⟨GoMap.nodup_keys_set ih.1 _ _, ih.2.set _⟩
theorem buildSubtreeHashesRecursive_children_inv (H : String → String) :
    ∀ (cs : List (Option ASTNode)) (acc : List String) (s : GoMap Bool),
      s.keys.Nodup ∧ s.AllTrue →
      (buildSubtreeHashesRecursive.children H cs acc s).2.keys.Nodup ∧
        (buildSubtreeHashesRecursive.children H cs acc s).2.AllTrue
  | [], acc, s, hs => by
    rw [buildSubtreeHashesRecursive.children]
    exact hs
  | c :: rest, acc, s, hs => by
    rw [buildSubtreeHashesRecursive.children]
    exact buildSubtreeHashesRecursive_children_inv H rest _ _
      (buildSubtreeHashesRecursive_child_inv H c s hs)
theorem buildSubtreeHashesRecursive_child_inv (H : String → String) :
    ∀ (c : Option ASTNode) (s : GoMap Bool), s.keys.Nodup ∧ s.AllTrue →
      (buildSubtreeHashesRecursive.child H c s).2.keys.Nodup ∧
        (buildSubtreeHashesRecursive.child H c s).2.AllTrue
  | none, s, hs => by
    rw [buildSubtreeHashesRecursive.child]
    exact hs
  | some n, s, hs => by
    rw [buildSubtreeHashesRecursive.child]
    exact buildSubtreeHashesRecursive_inv H n s hs
end

theorem buildSubtreeHashes_inv (H : String → String) (ast : Option ASTNode) :
    (buildSubtreeHashes H ast).keys.Nodup ∧ (buildSubtreeHashes H ast).AllTrue := by
  cases ast with
  | none => exact ⟨by simp [buildSubtreeHashes, GoMap.keys], GoMap.allTrue_nil⟩
  | some n =>
    exact buildSubtreeHashesRecursive_inv H n [] ⟨by simp [GoMap.keys], GoMap.allTrue_nil⟩

theorem buildSubtreeHashes_some_ne_nil (H : String → String) (n : ASTNode) :
    buildSubtreeHashes H (some n) ≠ [] := by
  obtain ⟨t, nm, rt, op, ms, ps, children⟩ := n
  show (buildSubtreeHashesRecursive H _ []).2 ≠ []
  rw [buildSubtreeHashesRecursive]
  exact GoMap.set_ne_nil _ _ _

theorem length_eq_card_subtreeHashSet (H : String → String) (ast : Option ASTNode) :
    (buildSubtreeHashes H ast).length = (subtreeHashSet H ast).card := by
  unfold subtreeHashSet
  rw [List.toFinset_card_of_nodup (buildSubtreeHashes_inv H ast).1]
  simp [GoMap.keys]

theorem commonCount_eq_length_filter (a b : GoMap Bool) (hb : b.AllTrue) :
    commonCount a b = (a.keys.filter (fun k => decide (k ∈ b.keys))).length := by
  unfold commonCount
  have gen : ∀ (l : GoMap Bool) (c : Nat),
      l.foldl (fun count entry => if (b.get? entry.1).getD false then count + 1 else count) c =
        c + (l.keys.filter (fun k => decide (k ∈ b.keys))).length := by
    intro l
    induction l with
    | nil => simp [GoMap.keys]
    | cons e rest ih =>
      intro c
      rw [List.foldl_cons, ih]
      by_cases hk : e.1 ∈ b.keys
      · have := (hb.getD_eq_true_iff e.1).2 hk
        simp only [GoMap.keys] at hk
        simp [GoMap.keys, List.filter, this, hk]
        omega
      · have : ¬ (b.get? e.1).getD false = true := fun h => hk ((hb.getD_eq_true_iff e.1).1 h)
        simp only [GoMap.keys] at hk
        simp [GoMap.keys, List.filter, this, hk]
  simpa using gen a 0

theorem commonCount_eq_card_inter (H : String → String) (astA astB : Option ASTNode) :
    commonCount (buildSubtreeHashes H astA) (buildSubtreeHashes H astB) =
      (subtreeHashSet H astA ∩ subtreeHashSet H astB).card := by
  rw [commonCount_eq_length_filter _ _ (buildSubtreeHashes_inv H astB).2]
  unfold subtreeHashSet
  have hset : (buildSubtreeHashes H astA).keys.toFinset ∩ (buildSubtreeHashes H astB).keys.toFinset =
      ((buildSubtreeHashes H astA).keys.filter
        (fun k => decide (k ∈ (buildSubtreeHashes H astB).keys))).toFinset := by
    ext k
    simp
  rw [hset, List.toFinset_card_of_nodup ((buildSubtreeHashes_inv H astA).1.filter _)]

theorem subtreeHashSet_some_ne_empty (H : String → String) (ast : ASTNode) :
    subtreeHashSet H (some ast) ≠ ∅ := by
  unfold subtreeHashSet
  intro h
  rw [List.toFinset_eq_empty_iff] at h
  exact buildSubtreeHashes_some_ne_nil H ast (List.map_eq_nil_iff.1 h)

theorem ASTSimilarity_of_none (H : String → String) (A B : Artifact)
    (h : A.AST = none ∨ B.AST = none) : ASTSimilarity H A B = 0 := by
  unfold ASTSimilarity
  rcases h with h | h
  · rw [h]
  · rw [h]
    cases A.AST <;> rfl

/-- With both ASTs present the score is the quotient itself: the guards on empty sets
never fire, because the set of a present AST holds at least the hash of its root. -/
theorem ASTSimilarity_of_some (H : String → String) (A B : Artifact) (astA astB : ASTNode)
    (hA : A.AST = some astA) (hB : B.AST = some astB) :
    ASTSimilarity H A B =
      (((subtreeHashSet H (some astA) ∩ subtreeHashSet H (some astB)).card : ℕ) : ℚ) /
        ((min (subtreeHashSet H (some astA)).card (subtreeHashSet H (some astB)).card : ℕ) : ℚ) := by
  unfold ASTSimilarity
  rw [hA, hB]
  simp only
  rw [length_eq_card_subtreeHashSet, length_eq_card_subtreeHashSet, commonCount_eq_card_inter]
  have hcA : (subtreeHashSet H (some astA)).card ≠ 0 := by
    rw [Ne, Finset.card_eq_zero]
    exact subtreeHashSet_some_ne_empty H astA
  have hcB : (subtreeHashSet H (some astB)).card ≠ 0 := by
    rw [Ne, Finset.card_eq_zero]
    exact subtreeHashSet_some_ne_empty H astB
  have hmin : (if (subtreeHashSet H (some astB)).card < (subtreeHashSet H (some astA)).card
      then (subtreeHashSet H (some astB)).card else (subtreeHashSet H (some astA)).card) =
      min (subtreeHashSet H (some astA)).card (subtreeHashSet H (some astB)).card := by
    split
    · rw [min_eq_right (by omega)]
    · rw [min_eq_left (by omega)]
  have hne : min (subtreeHashSet H (some astA)).card (subtreeHashSet H (some astB)).card ≠ 0 := by
    omega
  rw [if_neg (by omega), hmin, if_neg hne]

/-- C7. The value of `ASTSimilarity A B` is `|SA ∩ SB| / min(|SA|, |SB|)` for the sets
`SA`, `SB` of subtree hashes of the two ASTs, and `0` when an AST is missing or a set
is empty. -/
theorem ASTSimilarity_eq_inter_div_min (H : String → String) (A B : Artifact) :
    ASTSimilarity H A B =
      if A.AST.isNone = true ∨ B.AST.isNone = true ∨
          subtreeHashSet H A.AST = ∅ ∨ subtreeHashSet H B.AST = ∅ then 0
      else (((subtreeHashSet H A.AST ∩ subtreeHashSet H B.AST).card : ℕ) : ℚ) /
        ((min (subtreeHashSet H A.AST).card (subtreeHashSet H B.AST).card : ℕ) : ℚ) := by
  cases hA : A.AST with
  | none =>
    rw [ASTSimilarity_of_none H A B (Or.inl hA)]
    simp
  | some astA =>
    cases hB : B.AST with
    | none =>
      rw [ASTSimilarity_of_none H A B (Or.inr hB)]
      simp
    | some astB =>
      rw [ASTSimilarity_of_some H A B astA astB hA hB, if_neg]
      simp only [Option.isNone_some, Bool.false_eq_true, false_or, not_or]
      exact ⟨subtreeHashSet_some_ne_empty H astA, subtreeHashSet_some_ne_empty H astB⟩

/-- C8. The value of `ASTSimilarity A B` lies in the closed interval from 0 to 1. -/
theorem ASTSimilarity_mem_unit_interval (H : String → String) (A B : Artifact) :
    0 ≤ ASTSimilarity H A B ∧ ASTSimilarity H A B ≤ 1 := by
  cases hA : A.AST with
  | none =>
    rw [ASTSimilarity_of_none H A B (Or.inl hA)]
    exact ⟨le_refl _, zero_le_one⟩
  | some astA =>
    cases hB : B.AST with
    | none =>
      rw [ASTSimilarity_of_none H A B (Or.inr hB)]
      exact ⟨le_refl _, zero_le_one⟩
    | some astB =>
      rw [ASTSimilarity_of_some H A B astA astB hA hB]
      constructor
      · exact div_nonneg (Nat.cast_nonneg _) (Nat.cast_nonneg _)
      · apply div_le_one_of_le₀ _ (Nat.cast_nonneg _)
        rw [Nat.cast_le]
        exact le_min (Finset.card_le_card Finset.inter_subset_left)
          (Finset.card_le_card Finset.inter_subset_right)

theorem calculateOverlap_comm (A B : Artifact) (s : Nat) :
    calculateOverlap A B s = calculateOverlap B A s := by
  unfold calculateOverlap
  cases A.Fingerprints with
  | none => cases B.Fingerprints <;> rfl
  | some fpA =>
    cases B.Fingerprints with
    | none => rfl
    | some fpB =>
      simp only [min_comm (hashSet fpA).length, or_comm (a := (hashSet fpA).length = 0)]

/-- C9. Both pair signals are symmetric in the pair: the AST score and, for every
shared count, the fingerprint overlap. -/
theorem pair_signals_symmetric (H : String → String) (A B : Artifact) (s : Nat) :
    ASTSimilarity H A B = ASTSimilarity H B A ∧
      calculateOverlap A B s = calculateOverlap B A s := by
  refine ⟨?_, calculateOverlap_comm A B s⟩
  cases hA : A.AST with
  | none =>
    rw [ASTSimilarity_of_none H A B (Or.inl hA), ASTSimilarity_of_none H B A (Or.inr hA)]
  | some astA =>
    cases hB : B.AST with
    | none =>
      rw [ASTSimilarity_of_none H A B (Or.inr hB), ASTSimilarity_of_none H B A (Or.inl hB)]
    | some astB =>
      rw [ASTSimilarity_of_some H A B astA astB hA hB,
        ASTSimilarity_of_some H B A astB astA hB hA, Finset.inter_comm, min_comm]

/-- C10. Two artifacts whose ASTs are present and equal as trees have AST score
exactly 1, whatever the size of the tree. -/
theorem ASTSimilarity_identical_eq_one (H : String → String) (A B : Artifact) (ast : ASTNode)
    (hA : A.AST = some ast) (hB : B.AST = some ast) : ASTSimilarity H A B = 1 := by
  rw [ASTSimilarity_of_some H A B ast ast hA hB, Finset.inter_self, min_self]
  have hcard : (subtreeHashSet H (some ast)).card ≠ 0 := by
    rw [Ne, Finset.card_eq_zero]
    exact subtreeHashSet_some_ne_empty H ast
  exact div_self (Nat.cast_ne_zero.2 hcard)

/-! ## Identical fingerprints -/

theorem hashSet_keys (fp : Fingerprints) :
    (hashSet fp).keys.Nodup ∧ ∀ k, k ∈ (hashSet fp).keys ↔ k ∈ fp.Hashes.map HashEntry.Hash := by
  unfold hashSet
  induction fp.Hashes using List.reverseRecOn with
  | nil => simp [GoMap.keys]
  | append_singleton l e ih =>
    rw [List.foldl_append]
    refine ⟨GoMap.nodup_keys_set ih.1 _ _, fun k => ?_⟩
    simp only [List.foldl_cons, List.foldl_nil, GoMap.mem_keys_set, ih.2, List.map_append,
      List.mem_append, List.map_cons, List.map_nil, List.mem_singleton]
    exact or_comm

theorem hasHash_iff_mem_hashSet {A : Artifact} {fp : Fingerprints} (hfp : A.Fingerprints = some fp)
    (h : String) : hasHash A h = true ↔ h ∈ (hashSet fp).keys := by
  rw [(hashSet_keys fp).2]
  simp [hasHash, hfp]

theorem getWorthyThreshold_le_one (d : String) : getWorthyThreshold d ≤ 1 := by
  unfold getWorthyThreshold
  split_ifs <;> norm_num

theorem getWorthyThreshold_pos (d : String) : 0 < getWorthyThreshold d := by
  unfold getWorthyThreshold
  split_ifs <;> norm_num

theorem flatMap_eq_replicate {α β : Type} (l : List α) (f : α → List β) (x : β)
    (h : ∀ e ∈ l, f e = [x]) : l.flatMap f = List.replicate l.length x := by
  induction l with
  | nil => rfl
  | cons a l ih =>
    rw [List.flatMap_cons, h a (by simp), ih (fun e he => h e (List.mem_cons_of_mem _ he))]
    rfl

/-- On the list of two artifacts with the same hashes, every index entry makes the
selector visit the pair once, so the visits are as many copies of the pair as the
artifacts have distinct hashes. -/
theorem visitedPairs_identical (A B : Artifact) (fpA : Fingerprints)
    (hfpA : A.Fingerprints = some fpA) (hne : A.AttemptID ≠ B.AttemptID)
    (hsame : ∀ h, hasHash A h = hasHash B h) (gii : GII) (hgii : gii.Perm (BuildGII [A, B])) :
    visitedPairs gii [A, B] = List.replicate (hashSet fpA).length (A, B) := by
  have hid : (List.map Artifact.AttemptID [A, B]).Nodup := by simp [hne]
  have hpost : ∀ h, postingOf [A, B] h =
      if hasHash A h = true then [A.AttemptID, B.AttemptID] else [] := by
    intro h
    rw [postingOf_cons, postingOf_cons, ← hsame h]
    split <;> simp [postingOf]
  have hlen : gii.length = (hashSet fpA).length := by
    have hperm : (BuildGII [A, B]).keys.Perm (hashSet fpA).keys := by
      rw [List.perm_ext_iff_of_nodup (BuildGII_nodup _) (hashSet_keys fpA).1]
      intro h
      rw [mem_keys_BuildGII_iff, hpost, ← hasHash_iff_mem_hashSet hfpA]
      split <;> simp_all
    have := hperm.length_eq
    simp only [GoMap.keys, List.length_map] at this
    rw [hgii.length_eq, this]
  rw [← hlen]
  apply flatMap_eq_replicate
  rintro ⟨h, l⟩ he
  obtain ⟨hl, h2⟩ := (BuildGII_mem_iff [A, B] h l).1 (hgii.mem_iff.1 he)
  rw [hpost] at hl
  split at hl
  · subst hl
    unfold entryPairs
    simp only [List.length_cons, List.length_nil, Nat.lt_irrefl, if_false, List.filterMap_cons,
      List.filterMap_nil, Nat.reduceAdd]
    rw [artifactMapOf_get?_of_mem hid (List.mem_cons_self _ _),
      artifactMapOf_get?_of_mem hid (List.mem_cons_of_mem _ (List.mem_cons_self _ _))]
    rfl
  · subst hl
    simp at h2

/-- Identical fingerprints on a list of two: when the artifact list consists of two
artifacts with distinct attempt IDs and the same non-empty set of fingerprint hashes,
the pair is emitted at every difficulty (in whatever order the index map is ranged
over), and the overlap that `calculateOverlap` computes from the accumulated shared
count is exactly 1. -/
theorem GetWorthyPairs_identical_fingerprints (A B : Artifact)
    (hne : A.AttemptID ≠ B.AttemptID) (hsame : ∀ h, hasHash A h = hasHash B h)
    (hnonempty : ∃ h, hasHash A h = true) (difficulty : String)
    (gii : GII) (hgii : gii.Perm (BuildGII [A, B])) :
    EmitsPair (GetWorthyPairs gii [A, B] difficulty) A B ∧
    ∃ sharedCount,
      (GetWorthyPairs.counts gii [A, B]).1.get? (getPairKey A.AttemptID B.AttemptID) =
        some sharedCount ∧
      calculateOverlap A B sharedCount = 1 := by
  obtain ⟨h₀, hh₀⟩ := hnonempty
  have hB₀ : hasHash B h₀ = true := by rw [← hsame]; exact hh₀
  obtain ⟨fpA, hfpA⟩ : ∃ fp, A.Fingerprints = some fp := by
    cases hfp : A.Fingerprints with
    | none => simp [hasHash, hfp] at hh₀
    | some fp => exact ⟨fp, rfl⟩
  obtain ⟨fpB, hfpB⟩ : ∃ fp, B.Fingerprints = some fp := by
    cases hfp : B.Fingerprints with
    | none => simp [hasHash, hfp] at hB₀
    | some fp => exact ⟨fp, rfl⟩
  have hvis := visitedPairs_identical A B fpA hfpA hne hsame gii hgii
  have hlenAB : (hashSet fpB).length = (hashSet fpA).length := by
    have hperm : (hashSet fpB).keys.Perm (hashSet fpA).keys := by
      rw [List.perm_ext_iff_of_nodup (hashSet_keys fpB).1 (hashSet_keys fpA).1]
      intro h
      rw [← hasHash_iff_mem_hashSet hfpA, ← hasHash_iff_mem_hashSet hfpB, hsame]
    simpa [GoMap.keys] using hperm.length_eq
  have hpos : (hashSet fpA).length ≠ 0 := by
    intro h0
    have hmem := (hasHash_iff_mem_hashSet hfpA h₀).1 hh₀
    rw [List.length_eq_zero] at h0
    rw [h0] at hmem
    simp [GoMap.keys] at hmem
  have hov : calculateOverlap A B (hashSet fpA).length = 1 := by
    unfold calculateOverlap
    simp only [hfpA, hfpB, hlenAB, or_self, min_self, if_neg hpos]
    exact div_self (Nat.cast_ne_zero.2 hpos)
  have hcount : List.countP (fun x => decide (pairKeyOf x = pairKeyOf (A, B)))
      (List.replicate (hashSet fpA).length (A, B)) = (hashSet fpA).length := by
    rw [List.countP_eq_length.2]
    · simp
    · intro x hx
      rw [List.eq_of_mem_replicate hx]
      simp
  have hfind : List.find? (fun x => decide (pairKeyOf x = pairKeyOf (A, B)))
      (List.replicate (hashSet fpA).length (A, B)) = some (A, B) := by
    obtain ⟨n, hn⟩ := Nat.exists_eq_succ_of_ne_zero hpos
    rw [hn, List.replicate_succ]
    simp [List.find?]
  constructor
  · refine ⟨⟨A, B⟩, ?_, Or.inl ⟨rfl, rfl⟩⟩
    rw [mem_GetWorthyPairs_iff]
    refine ⟨(A, B), ?_, rfl, ?_⟩
    · rw [hvis]
      exact hfind
    · rw [hvis, hcount, hov]
      exact getWorthyThreshold_le_one _
  · refine ⟨(hashSet fpA).length, ?_, hov⟩
    rw [counts_eq, hvis]
    have := (foldl_pairStep_spec (List.replicate (hashSet fpA).length (A, B))).1
      (pairKeyOf (A, B))
    rw [hcount, if_neg hpos] at this
    exact this

/-! ## The selector against the spec -/

theorem getPairKey_comm (a b : String) : getPairKey a b = getPairKey b a := by
  unfold getPairKey
  rcases lt_trichotomy a b with h | h | h
  · rw [if_pos h, if_neg (lt_asymm h)]
  · subst h
    rfl
  · rw [if_neg (lt_asymm h), if_pos h]

theorem filterMap_get?_postingOf {arts : List Artifact}
    (hid : (arts.map Artifact.AttemptID).Nodup) (h : String) :
    (postingOf arts h).filterMap (fun attemptID => (artifactMapOf arts).get? attemptID) =
      arts.filter (fun a => hasHash a h) := by
  unfold postingOf
  rw [List.filterMap_map]
  have : ∀ x ∈ arts.filter (fun a => hasHash a h),
      ((fun attemptID => (artifactMapOf arts).get? attemptID) ∘ Artifact.AttemptID) x =
        some x := by
    intro x hx
    exact artifactMapOf_get?_of_mem hid (List.mem_filter.1 hx).1
  rw [List.filterMap_congr this, List.filterMap_some]

theorem entryPairs_of_mem_BuildGII {arts : List Artifact}
    (hid : (arts.map Artifact.AttemptID).Nodup) {e : String × List String}
    (he : e ∈ BuildGII arts) :
    entryPairs (artifactMapOf arts) e = pairsOf (arts.filter (fun a => hasHash a e.1)) := by
  obtain ⟨h, l⟩ := e
  obtain ⟨hl, h2⟩ := (BuildGII_mem_iff arts h l).1 he
  unfold entryPairs
  rw [if_neg (by simpa using h2)]
  simp only [hl, filterMap_get?_postingOf hid]

/-- In the pairs of a slice with pairwise distinct IDs, the unordered pair of two given
distinct IDs occurs once if both IDs are in the slice, and not at all otherwise. -/
theorem countP_pairsOf (l : List Artifact) (hl : (l.map Artifact.AttemptID).Nodup)
    {a b : String} (hab : a ≠ b) :
    (pairsOf l).countP (fun p => decide ((p.1.AttemptID = a ∧ p.2.AttemptID = b) ∨
        (p.1.AttemptID = b ∧ p.2.AttemptID = a))) =
      if a ∈ l.map Artifact.AttemptID ∧ b ∈ l.map Artifact.AttemptID then 1 else 0 := by
  have single : ∀ (r : List Artifact) (c : String), (r.map Artifact.AttemptID).Nodup →
      r.countP (fun y => decide (y.AttemptID = c)) =
        if c ∈ r.map Artifact.AttemptID then 1 else 0 := by
    intro r c hr
    have h1 : r.countP (fun y => decide (y.AttemptID = c)) =
        (r.map Artifact.AttemptID).count c := by
      rw [List.count, List.countP_map]
      congr 1
    rw [h1]
    split
    · exact List.count_eq_one_of_mem hr (by assumption)
    · exact List.count_eq_zero_of_not_mem (by assumption)
  induction l with
  | nil => simp [pairsOf]
  | cons x rest ih =>
    rw [List.map_cons, List.nodup_cons] at hl
    rw [pairsOf, List.countP_append, ih hl.2, List.countP_map]
    by_cases hxa : x.AttemptID = a
    · have hna : a ∉ rest.map Artifact.AttemptID := hxa ▸ hl.1
      have hxb : ¬ x.AttemptID = b := fun h => hab (hxa.symm.trans h)
      have hfun : ((fun p : Artifact × Artifact => decide ((p.1.AttemptID = a ∧ p.2.AttemptID = b) ∨
          (p.1.AttemptID = b ∧ p.2.AttemptID = a))) ∘ fun y => (x, y)) =
          fun y => decide (y.AttemptID = b) := by
        funext y
        simp [hxa, hab]
      rw [hfun, single rest b hl.2]
      simp [hxa, hna, hab, Ne.symm hab]
    · by_cases hxb : x.AttemptID = b
      · have hnb : b ∉ rest.map Artifact.AttemptID := hxb ▸ hl.1
        have hfun : ((fun p : Artifact × Artifact => decide ((p.1.AttemptID = a ∧ p.2.AttemptID = b) ∨
            (p.1.AttemptID = b ∧ p.2.AttemptID = a))) ∘ fun y => (x, y)) =
            fun y => decide (y.AttemptID = a) := by
          funext y
          simp [hxb, Ne.symm hab]
        rw [hfun, single rest a hl.2]
        simp [hxb, hnb, hab, Ne.symm hab]
      · have hfun : ((fun p : Artifact × Artifact => decide ((p.1.AttemptID = a ∧ p.2.AttemptID = b) ∨
            (p.1.AttemptID = b ∧ p.2.AttemptID = a))) ∘ fun y => (x, y)) =
            fun _ => false := by
          funext y
          simp [hxa, hxb]
        have hxa' : ¬ a = x.AttemptID := fun h => hxa h.symm
        have hxb' : ¬ b = x.AttemptID := fun h => hxb h.symm
        rw [hfun]
        simp [hxa', hxb']

theorem mem_map_attemptID_filter_iff {arts : List Artifact}
    (hid : (arts.map Artifact.AttemptID).Nodup) {A : Artifact} (hA : A ∈ arts) (h : String) :
    A.AttemptID ∈ (arts.filter (fun a => hasHash a h)).map Artifact.AttemptID ↔
      hasHash A h = true := by
  constructor
  · intro hm
    obtain ⟨X, hX, hXh, hXid⟩ := mem_postingOf hm
    have : X = A := List.inj_on_of_nodup_map hid hX hA hXid
    subst this
    exact hXh
  · exact mem_postingOf_of_mem hA

/-- Under an injective pair key, a visited pair is counted under the key of `{A, B}`
exactly when it is `{A, B}`. -/
theorem pairKeyOf_eq_iff {arts : List Artifact}
    (hinj : PairKeyInjectiveOn (arts.map Artifact.AttemptID)) {A B : Artifact} (hA : A ∈ arts)
    (hB : B ∈ arts) {p : Artifact × Artifact} (hp1 : p.1 ∈ arts) (hp2 : p.2 ∈ arts) :
    pairKeyOf p = getPairKey A.AttemptID B.AttemptID ↔
      (p.1.AttemptID = A.AttemptID ∧ p.2.AttemptID = B.AttemptID) ∨
        (p.1.AttemptID = B.AttemptID ∧ p.2.AttemptID = A.AttemptID) := by
  constructor
  · exact hinj _ (List.mem_map_of_mem _ hp1) _ (List.mem_map_of_mem _ hp2) _
      (List.mem_map_of_mem _ hA) _ (List.mem_map_of_mem _ hB)
  · rintro (⟨h1, h2⟩ | ⟨h1, h2⟩)
    · rw [pairKeyOf, h1, h2]
    · rw [pairKeyOf, h1, h2, getPairKey_comm]

/-- Under an injective pair key, the shared count of `{A, B}` is the number of index
entries whose hash both artifacts hold. -/
theorem countP_visitedPairs {arts : List Artifact} (hid : (arts.map Artifact.AttemptID).Nodup)
    (hinj : PairKeyInjectiveOn (arts.map Artifact.AttemptID)) {A B : Artifact} (hA : A ∈ arts)
    (hB : B ∈ arts) (hAB : A.AttemptID ≠ B.AttemptID) (g : GII) (hg : ∀ e ∈ g, e ∈ BuildGII arts) :
    (g.flatMap (entryPairs (artifactMapOf arts))).countP
        (fun x => decide (pairKeyOf x = getPairKey A.AttemptID B.AttemptID)) =
      g.countP (fun e => hasHash A e.1 && hasHash B e.1) := by
  induction g with
  | nil => rfl
  | cons e g ih =>
    rw [List.flatMap_cons, List.countP_append, ih (fun e' he' => hg e' (List.mem_cons_of_mem _ he')),
      List.countP_cons, entryPairs_of_mem_BuildGII hid (hg e (List.mem_cons_self _ _)), Nat.add_comm]
    congr 1
    have hsub : ∀ x ∈ arts.filter (fun a => hasHash a e.1), x ∈ arts :=
      fun x hx => (List.mem_filter.1 hx).1
    have hcongr : (pairsOf (arts.filter (fun a => hasHash a e.1))).countP
        (fun x => decide (pairKeyOf x = getPairKey A.AttemptID B.AttemptID)) =
        (pairsOf (arts.filter (fun a => hasHash a e.1))).countP
          (fun p => decide ((p.1.AttemptID = A.AttemptID ∧ p.2.AttemptID = B.AttemptID) ∨
            (p.1.AttemptID = B.AttemptID ∧ p.2.AttemptID = A.AttemptID))) := by
      apply List.countP_congr
      intro p hp
      have hm := mem_pairsOf hp
      simp only [decide_eq_true_eq]
      exact pairKeyOf_eq_iff hinj hA hB (hsub _ hm.1) (hsub _ hm.2)
    rw [hcongr, countP_pairsOf _
      (List.Nodup.sublist (List.Sublist.map _ (List.filter_sublist arts)) hid) hAB]
    have hiffA := mem_map_attemptID_filter_iff hid hA e.1
    have hiffB := mem_map_attemptID_filter_iff hid hB e.1
    by_cases h1 : hasHash A e.1 = true
    · by_cases h2 : hasHash B e.1 = true
      · rw [if_pos ⟨hiffA.2 h1, hiffB.2 h2⟩]
        simp [h1, h2]
      · rw [if_neg (fun h => h2 (hiffB.1 h.2))]
        simp [h2]
    · rw [if_neg (fun h => h1 (hiffA.1 h.1))]
      simp [h1]

theorem mem_fingerprintSet_iff (A : Artifact) (h : String) :
    h ∈ fingerprintSet A ↔ hasHash A h = true := by
  unfold fingerprintSet hasHash
  cases A.Fingerprints with
  | none => simp
  | some fp => simp

theorem length_hashSet_eq_card {A : Artifact} {fp : Fingerprints} (hfp : A.Fingerprints = some fp) :
    (hashSet fp).length = (fingerprintSet A).card := by
  have hk := hashSet_keys fp
  have : (hashSet fp).keys.toFinset = fingerprintSet A := by
    ext h
    rw [List.mem_toFinset, mem_fingerprintSet_iff, hasHash_iff_mem_hashSet hfp]
  rw [← this, List.toFinset_card_of_nodup hk.1]
  simp [GoMap.keys]

/-- The number of index entries whose hash both artifacts hold is the number of hashes
they share. -/
theorem countP_shared_eq_card_inter {arts : List Artifact}
    (hid : (arts.map Artifact.AttemptID).Nodup) {A B : Artifact} (hA : A ∈ arts) (hB : B ∈ arts)
    (hAB : A.AttemptID ≠ B.AttemptID) {g : GII} (hg : g.Perm (BuildGII arts)) :
    g.countP (fun e => hasHash A e.1 && hasHash B e.1) =
      (fingerprintSet A ∩ fingerprintSet B).card := by
  rw [hg.countP_eq]
  have h1 : (BuildGII arts).countP (fun e => hasHash A e.1 && hasHash B e.1) =
      ((BuildGII arts).keys.filter (fun h => hasHash A h && hasHash B h)).length := by
    rw [← List.countP_eq_length_filter, GoMap.keys, List.countP_map]
    rfl
  have h2 : ((BuildGII arts).keys.filter (fun h => hasHash A h && hasHash B h)).toFinset =
      fingerprintSet A ∩ fingerprintSet B := by
    ext h
    rw [List.mem_toFinset, List.mem_filter, Finset.mem_inter, mem_fingerprintSet_iff,
      mem_fingerprintSet_iff, Bool.and_eq_true]
    constructor
    · exact fun hh => hh.2
    · intro hh
      refine ⟨?_, hh⟩
      rw [mem_keys_BuildGII_iff, two_le_length_postingOf_iff hid]
      exact ⟨A, hA, B, hB, hAB, hh.1, hh.2⟩
  rw [h1, ← h2, List.toFinset_card_of_nodup ((BuildGII_nodup arts).filter _)]

/-- The value of `calculateOverlap` in terms of the hash sets. -/
theorem calculateOverlap_eq (A B : Artifact) (c : Nat) :
    calculateOverlap A B c =
      if A.Fingerprints.isSome = true ∧ B.Fingerprints.isSome = true ∧
          fingerprintSet A ≠ ∅ ∧ fingerprintSet B ≠ ∅ then
        (c : ℚ) / ((min (fingerprintSet A).card (fingerprintSet B).card : ℕ) : ℚ)
      else 0 := by
  unfold calculateOverlap
  cases hfA : A.Fingerprints with
  | none => simp
  | some fpA =>
    cases hfB : B.Fingerprints with
    | none => simp
    | some fpB =>
      simp only [length_hashSet_eq_card hfA, length_hashSet_eq_card hfB, Finset.card_eq_zero,
        Option.isSome_some, true_and, ne_eq]
      by_cases h0 : fingerprintSet A = ∅ ∨ fingerprintSet B = ∅
      · rw [if_pos h0, if_neg (fun h => h0.elim h.1 h.2)]
      · rw [if_neg h0, if_pos (not_or.1 h0)]

/-- The selector meets the spec whenever the pair key is injective on the attempt IDs
of the list: with pairwise distinct attempt IDs, the pair of two artifacts of the list
is emitted exactly when it is worthy in the words of the spec, in whatever order the
index map is ranged over. -/
theorem GetWorthyPairs_iff_of_injective_pairKey (artifacts : List Artifact)
    (hid : (artifacts.map Artifact.AttemptID).Nodup)
    (hinj : PairKeyInjectiveOn (artifacts.map Artifact.AttemptID)) (difficulty : String)
    (gii : GII) (hgii : gii.Perm (BuildGII artifacts)) (A B : Artifact) (hA : A ∈ artifacts)
    (hB : B ∈ artifacts) (hAB : A.AttemptID ≠ B.AttemptID) :
    EmitsPair (GetWorthyPairs gii artifacts difficulty) A B ↔ WorthySpec A B difficulty := by
  have hcount : (visitedPairs gii artifacts).countP
      (fun x => decide (pairKeyOf x = getPairKey A.AttemptID B.AttemptID)) =
      (fingerprintSet A ∩ fingerprintSet B).card := by
    unfold visitedPairs
    rw [countP_visitedPairs hid hinj hA hB hAB gii (fun e he => hgii.mem_iff.1 he),
      countP_shared_eq_card_inter hid hA hB hAB hgii]
  have hpair : ∀ p ∈ visitedPairs gii artifacts,
      pairKeyOf p = getPairKey A.AttemptID B.AttemptID →
        (p.1 = A ∧ p.2 = B) ∨ (p.1 = B ∧ p.2 = A) := by
    intro p hp hk
    obtain ⟨-, h1, h2, -, -⟩ := mem_visitedPairs_BuildGII hid hgii hp
    rcases (pairKeyOf_eq_iff hinj hA hB h1 h2).1 hk with ⟨e1, e2⟩ | ⟨e1, e2⟩
    · exact Or.inl ⟨List.inj_on_of_nodup_map hid h1 hA e1, List.inj_on_of_nodup_map hid h2 hB e2⟩
    · exact Or.inr ⟨List.inj_on_of_nodup_map hid h1 hB e1, List.inj_on_of_nodup_map hid h2 hA e2⟩
  have hthr := getWorthyThreshold_pos difficulty
  have hworthy : ∀ c : Nat, c = (fingerprintSet A ∩ fingerprintSet B).card →
      (calculateOverlap A B c ≥ getWorthyThreshold difficulty ↔ WorthySpec A B difficulty) := by
    intro c hc
    rw [calculateOverlap_eq, WorthySpec, overlapRatio, ← hc]
    constructor
    · intro h
      split at h
      · rename_i hpre
        exact ⟨hpre.1, hpre.2.1, hpre.2.2.1, hpre.2.2.2, h⟩
      · exact absurd h (not_le.2 hthr)
    · rintro ⟨h1, h2, h3, h4, h5⟩
      rw [if_pos ⟨h1, h2, h3, h4⟩]
      exact h5
  constructor
  · rintro ⟨q, hq, hqAB⟩
    rw [mem_GetWorthyPairs_iff] at hq
    obtain ⟨p, hf, rfl, hov⟩ := hq
    simp only at hqAB
    have hkey : pairKeyOf p = getPairKey A.AttemptID B.AttemptID := by
      rcases hqAB with ⟨e1, e2⟩ | ⟨e1, e2⟩
      · rw [pairKeyOf, e1, e2]
      · rw [pairKeyOf, e1, e2, getPairKey_comm]
    rw [hkey] at hov
    have hov' : calculateOverlap A B ((visitedPairs gii artifacts).countP
        (fun x => decide (pairKeyOf x = getPairKey A.AttemptID B.AttemptID))) ≥
        getWorthyThreshold difficulty := by
      generalize (visitedPairs gii artifacts).countP
        (fun x => decide (pairKeyOf x = getPairKey A.AttemptID B.AttemptID)) = c at hov ⊢
      rcases hqAB with ⟨e1, e2⟩ | ⟨e1, e2⟩
      · rw [← e1, ← e2]
        exact hov
      · rw [calculateOverlap_comm, ← e1, ← e2]
        exact hov
    exact (hworthy _ hcount).1 hov'
  · intro hw
    have hov := (hworthy _ hcount).2 hw
    have hne : (fingerprintSet A ∩ fingerprintSet B).card ≠ 0 := by
      intro h0
      rw [hcount, h0, calculateOverlap_eq] at hov
      have : (0 : ℚ) ≥ getWorthyThreshold difficulty := by
        split at hov
        · simpa using hov
        · exact hov
      exact absurd this (not_le.2 hthr)
    rw [← hcount] at hne
    obtain ⟨p₀, hp₀, hk₀⟩ : ∃ p ∈ visitedPairs gii artifacts,
        pairKeyOf p = getPairKey A.AttemptID B.AttemptID := by
      by_contra hcon
      apply hne
      rw [List.countP_eq_zero]
      intro p hp
      simp only [decide_eq_true_eq]
      exact fun hk => hcon ⟨p, hp, hk⟩
    cases hf : (visitedPairs gii artifacts).find?
        (fun x => decide (pairKeyOf x = getPairKey A.AttemptID B.AttemptID)) with
    | none =>
      rw [List.find?_eq_none] at hf
      exact absurd (by simpa using hk₀) (hf p₀ hp₀)
    | some p =>
      have hk : pairKeyOf p = getPairKey A.AttemptID B.AttemptID := by
        simpa using List.find?_some hf
      have hAB' := hpair p (List.mem_of_find?_eq_some hf) hk
      refine ⟨⟨p.1, p.2⟩, ?_, hAB'⟩
      rw [mem_GetWorthyPairs_iff]
      refine ⟨p, by rw [hk]; exact hf, rfl, ?_⟩
      rw [hk]
      rcases hAB' with ⟨e1, e2⟩ | ⟨e1, e2⟩
      · rw [e1, e2]
        exact hov
      · rw [e1, e2, calculateOverlap_comm]
        exact hov

/-- Scenario S3: ten hashes each, one shared. The overlap equals the medium threshold
exactly and the pair is emitted at medium. -/
theorem GetWorthyPairs_iff_of_injective_pairKey_witness :
    ([boundaryA, boundaryB].map Artifact.AttemptID).Nodup ∧
    PairKeyInjectiveOn ([boundaryA, boundaryB].map Artifact.AttemptID) ∧
    overlapRatio boundaryA boundaryB = getWorthyThreshold "medium" ∧
    WorthySpec boundaryA boundaryB "medium" ∧
    EmitsPair (GetWorthyPairs (BuildGII [boundaryA, boundaryB]) [boundaryA, boundaryB] "medium")
      boundaryA boundaryB :=
  have hid : ([boundaryA, boundaryB].map Artifact.AttemptID).Nodup := by decide
  have hinj : PairKeyInjectiveOn ([boundaryA, boundaryB].map Artifact.AttemptID) := by
    unfold PairKeyInjectiveOn
    decide!
  have hov : overlapRatio boundaryA boundaryB = getWorthyThreshold "medium" := by
    unfold overlapRatio
    decide!
  have hw : WorthySpec boundaryA boundaryB "medium" :=
    ⟨rfl, rfl, by decide!, by decide!, le_of_eq hov.symm⟩
  ⟨hid, hinj, hov, hw,
    (GetWorthyPairs_iff_of_injective_pairKey [boundaryA, boundaryB] hid hinj "medium" _
      (List.Perm.refl _) boundaryA boundaryB (by simp) (by simp) (by decide)).2 hw⟩
/-! ## Colliding pair keys -/

theorem not_emitsPair_of_pairIDs {out : List Pair} {A B : Artifact}
    (h : (A.AttemptID, B.AttemptID) ∉ pairIDs out ∧ (B.AttemptID, A.AttemptID) ∉ pairIDs out) :
    ¬ EmitsPair out A B := by
  rintro ⟨p, hp, ⟨e1, e2⟩ | ⟨e1, e2⟩⟩
  · exact h.1 (List.mem_map.2 ⟨p, hp, by rw [e1, e2]⟩)
  · exact h.2 (List.mem_map.2 ⟨p, hp, by rw [e1, e2]⟩)

/-- C1 fails on attempt IDs with colliding pair keys. The four attempts `a`, `b:c`,
`a:b`, `c` have pairwise distinct IDs; `{a, b:c}` share their only hash and so do
`{a:b, c}`, so both pairs are worthy at medium in the words of the spec. Both pairs are
counted under the key `a:b:c`: the selector emits one pair only, the one it meets first
(which one depends on the order in which the index map is ranged over), with shared
count 2 and overlap 2, and never emits the other. -/
theorem GetWorthyPairs_pairKey_collision :
    (collidingArtifacts.map Artifact.AttemptID).Nodup ∧
    WorthySpec collidingA collidingBC "medium" ∧
    WorthySpec collidingAB collidingC "medium" ∧
    getPairKey "a" "b:c" = getPairKey "a:b" "c" ∧
    ¬ EmitsPair (GetWorthyPairs (BuildGII collidingArtifacts) collidingArtifacts "medium")
      collidingAB collidingC ∧
    ¬ EmitsPair (GetWorthyPairs (BuildGII collidingArtifacts).reverse collidingArtifacts "medium")
      collidingA collidingBC ∧
    pairIDs (GetWorthyPairs (BuildGII collidingArtifacts) collidingArtifacts "medium") =
      [("a", "b:c")] ∧
    (GetWorthyPairs.counts (BuildGII collidingArtifacts) collidingArtifacts).1 =
      [("a:b:c", 2)] ∧
    calculateOverlap collidingA collidingBC 2 = 2 := by
  have h1 : pairIDs (GetWorthyPairs (BuildGII collidingArtifacts) collidingArtifacts "medium") =
      [("a", "b:c")] := by decide!
  have h2 : pairIDs (GetWorthyPairs (BuildGII collidingArtifacts).reverse collidingArtifacts
      "medium") = [("a:b", "c")] := by decide!
  refine ⟨by decide, ?_, ?_, by decide!, ?_, ?_, h1, by decide!, by decide!⟩
  · unfold WorthySpec overlapRatio
    decide!
  · unfold WorthySpec overlapRatio
    decide!
  · apply not_emitsPair_of_pairIDs
    rw [h1]
    decide
  · apply not_emitsPair_of_pairIDs
    rw [h2]
    decide

/-! ## Instances on concrete inputs -/

/-- C2 at scenario S4 (disjoint fingerprints, identical ASTs, difficulty hard). -/
theorem GetWorthyPairs_disjoint_not_emitted_witness :
    ([disjointA, disjointB].map Artifact.AttemptID).Nodup ∧
    (∀ h, ¬ (hasHash disjointA h = true ∧ hasHash disjointB h = true)) ∧
    ¬ EmitsPair (GetWorthyPairs (BuildGII [disjointA, disjointB]) [disjointA, disjointB] "hard")
      disjointA disjointB :=
  have hid : ([disjointA, disjointB].map Artifact.AttemptID).Nodup := by decide
  have hdisj : ∀ h, ¬ (hasHash disjointA h = true ∧ hasHash disjointB h = true) := by
    intro h
    simp only [hasHash, disjointA, disjointB, exampleArtifact, List.map, decide_eq_true_eq,
      List.mem_cons, List.mem_singleton, List.not_mem_nil, or_false]
    rintro ⟨h1 | h1, h2⟩ <;> rw [h1] at h2 <;> exact absurd h2 (by decide)
  ⟨hid, hdisj,
    GetWorthyPairs_disjoint_not_emitted [disjointA, disjointB] hid "hard" disjointA disjointB
      hdisj _ (List.Perm.refl _)⟩

/-- C4 on three attempts, one of them with nil fingerprints. -/
theorem BuildGII_keys_iff_two_attempts_witness :
    (repeatedHashArtifacts.map Artifact.AttemptID).Nodup ∧
    ((∀ h, h ∈ (BuildGII repeatedHashArtifacts).keys ↔
      ∃ A ∈ repeatedHashArtifacts, ∃ B ∈ repeatedHashArtifacts, A.AttemptID ≠ B.AttemptID ∧
        hasHash A h = true ∧ hasHash B h = true) ∧
    BuildGII repeatedHashArtifacts =
      BuildGII (repeatedHashArtifacts.filter (fun a => a.Fingerprints.isSome)) ∧
    (∀ e ∈ BuildGII repeatedHashArtifacts, 2 ≤ e.2.length)) :=
  ⟨by decide, BuildGII_keys_iff_two_attempts repeatedHashArtifacts (by decide)⟩

/-- C5 on the key `h1`, which the first attempt holds twice. -/
theorem BuildGII_posting_once_in_order_witness :
    (repeatedHashArtifacts.map Artifact.AttemptID).Nodup ∧
    (BuildGII repeatedHashArtifacts).get? "h1" = some ["attempt-1", "attempt-3"] ∧
    (["attempt-1", "attempt-3"] =
        (repeatedHashArtifacts.filter (fun a => hasHash a "h1")).map Artifact.AttemptID ∧
      (∀ A ∈ repeatedHashArtifacts,
        ["attempt-1", "attempt-3"].count A.AttemptID = if hasHash A "h1" = true then 1 else 0) ∧
      ["attempt-1", "attempt-3"].Nodup) :=
  ⟨by decide, by decide,
    BuildGII_posting_once_in_order repeatedHashArtifacts (by decide) "h1"
      ["attempt-1", "attempt-3"] (by decide)⟩

/-- The statement on a list of two at scenario S2 (the same ten hashes, difficulty
hard). -/
theorem GetWorthyPairs_identical_fingerprints_witness :
    identicalA.AttemptID ≠ identicalB.AttemptID ∧
    (∀ h, hasHash identicalA h = hasHash identicalB h) ∧
    (∃ h, hasHash identicalA h = true) ∧
    (EmitsPair (GetWorthyPairs (BuildGII [identicalA, identicalB]) [identicalA, identicalB] "hard")
        identicalA identicalB ∧
      ∃ sharedCount,
        (GetWorthyPairs.counts (BuildGII [identicalA, identicalB])
          [identicalA, identicalB]).1.get?
            (getPairKey identicalA.AttemptID identicalB.AttemptID) = some sharedCount ∧
        calculateOverlap identicalA identicalB sharedCount = 1) :=
  have hne : identicalA.AttemptID ≠ identicalB.AttemptID := by decide
  have hsame : ∀ h, hasHash identicalA h = hasHash identicalB h := fun _ => rfl
  have hnonempty : ∃ h, hasHash identicalA h = true := ⟨"f0", by decide⟩
  ⟨hne, hsame, hnonempty,
    GetWorthyPairs_identical_fingerprints identicalA identicalB hne hsame hnonempty "hard" _
      (List.Perm.refl _)⟩

/-- C10 on the five-node AST of scenario S2, for every digest function. -/
theorem ASTSimilarity_identical_eq_one_witness :
    identicalA.AST = some exampleAST ∧ identicalB.AST = some exampleAST ∧
    ASTSimilarity (fun s => s) identicalA identicalB = 1 :=
  ⟨rfl, rfl, ASTSimilarity_identical_eq_one (fun s => s) identicalA identicalB exampleAST rfl rfl⟩

/-! ## Retry with backoff -/

theorem loop_success (env : RetryEnv) (streamID : String) (fields : GoMap FieldValue)
    (attempt : Nat) (lastErr : Option String) (trace : RetryTrace) (ha : attempt < 4)
    (hfn : env.fn trace.calls = none) :
    RetryWithBackoff.loop env streamID fields attempt lastErr trace =
      (none, { trace with calls := trace.calls + 1 }) := by
  rw [RetryWithBackoff.loop, if_pos (by simpa [maxRetries] using ha), hfn]

theorem loop_fail_wait (env : RetryEnv) (streamID : String) (fields : GoMap FieldValue)
    (attempt : Nat) (lastErr : Option String) (trace : RetryTrace) (ha : attempt < 3)
    {err : String} (hfn : env.fn trace.calls = some err) (hctx : env.ctxDone attempt = none) :
    RetryWithBackoff.loop env streamID fields attempt lastErr trace =
      RetryWithBackoff.loop env streamID fields (attempt + 1) (some err)
        { trace with calls := trace.calls + 1,
                     waited := trace.waited ++ [retryDelays.getD attempt 0] } := by
  rw [RetryWithBackoff.loop, if_pos (by simp [maxRetries]; omega), hfn]
  simp only
  rw [if_pos (by simp [maxRetries]; omega), hctx]

theorem loop_fail_cancel (env : RetryEnv) (streamID : String) (fields : GoMap FieldValue)
    (attempt : Nat) (lastErr : Option String) (trace : RetryTrace) (ha : attempt < 3)
    {err e : String} (hfn : env.fn trace.calls = some err) (hctx : env.ctxDone attempt = some e) :
    RetryWithBackoff.loop env streamID fields attempt lastErr trace =
      (some e, { trace with calls := trace.calls + 1 }) := by
  rw [RetryWithBackoff.loop, if_pos (by simp [maxRetries]; omega), hfn]
  simp only
  rw [if_pos (by simp [maxRetries]; omega), hctx]

theorem loop_fail_last (env : RetryEnv) (streamID : String) (fields : GoMap FieldValue)
    (lastErr : Option String) (trace : RetryTrace) {err : String}
    (hfn : env.fn trace.calls = some err) :
    RetryWithBackoff.loop env streamID fields 3 lastErr trace =
      RetryWithBackoff.loop env streamID fields 4 (some err)
        { trace with calls := trace.calls + 1 } := by
  rw [RetryWithBackoff.loop, if_pos (by simp [maxRetries]), hfn]
  simp only
  rw [if_neg (by simp [maxRetries])]

theorem loop_exhausted (env : RetryEnv) (streamID : String) (fields : GoMap FieldValue)
    (attempt : Nat) (lastErr : Option String) (trace : RetryTrace) (ha : 4 ≤ attempt) :
    RetryWithBackoff.loop env streamID fields attempt lastErr trace =
      sendToDeathQueue env streamID fields (lastErr.getD "") trace := by
  rw [RetryWithBackoff.loop, if_neg (by simp [maxRetries]; omega)]

theorem sendToDeathQueue_eq (env : RetryEnv) (streamID : String) (fields : GoMap FieldValue)
    (err : String) (trace : RetryTrace) :
    sendToDeathQueue env streamID fields err trace =
      ((env.xadd (deadLetterRecord env streamID fields err)).map
          (fun e => "failed to send to death queue: " ++ e),
        { trace with
          deadLetters := trace.deadLetters ++ [deadLetterRecord env streamID fields err] }) := by
  unfold sendToDeathQueue deadLetterRecord
  simp only
  cases env.xadd _ <;> rfl

/-- The whole run when all four attempts fail and no wait is cancelled. -/
theorem RetryWithBackoff_all_fail (env : RetryEnv) (streamID : String)
    (fields : GoMap FieldValue) {e0 e1 e2 e3 : String} (h0 : env.fn 0 = some e0)
    (h1 : env.fn 1 = some e1) (h2 : env.fn 2 = some e2) (h3 : env.fn 3 = some e3)
    (hctx : ∀ k, k < 3 → env.ctxDone k = none) :
    RetryWithBackoff env streamID fields =
      ((env.xadd (deadLetterRecord env streamID fields e3)).map
          (fun e => "failed to send to death queue: " ++ e),
        ⟨4, [1 * timeSecond, 2 * timeSecond, 4 * timeSecond],
          [deadLetterRecord env streamID fields e3]⟩) := by
  unfold RetryWithBackoff
  rw [loop_fail_wait _ _ _ 0 _ _ (by omega) h0 (hctx 0 (by omega))]
  rw [loop_fail_wait _ _ _ 1 _ _ (by omega) h1 (hctx 1 (by omega))]
  rw [loop_fail_wait _ _ _ 2 _ _ (by omega) h2 (hctx 2 (by omega))]
  rw [loop_fail_last _ _ _ _ _ h3, loop_exhausted _ _ _ 4 _ _ (le_refl _), sendToDeathQueue_eq]
  rfl

/-- The whole run when attempt `j` is the first to succeed and no wait is cancelled. -/
theorem RetryWithBackoff_first_success (env : RetryEnv) (streamID : String)
    (fields : GoMap FieldValue) (j : Nat) (hj : j < 4) (hfn : env.fn j = none)
    (hfail : ∀ i, i < j → env.fn i ≠ none) (hctx : ∀ k, k < 3 → env.ctxDone k = none) :
    RetryWithBackoff env streamID fields = (none, ⟨j + 1, retryDelays.take j, []⟩) := by
  have hsome : ∀ i, i < j → ∃ e, env.fn i = some e := fun i hi =>
    Option.ne_none_iff_exists'.1 (hfail i hi)
  unfold RetryWithBackoff
  match j, hj with
  | 0, _ => rw [loop_success _ _ _ 0 _ _ (by omega) hfn]; rfl
  | 1, _ =>
    obtain ⟨e0, h0⟩ := hsome 0 (by omega)
    rw [loop_fail_wait _ _ _ 0 _ _ (by omega) h0 (hctx 0 (by omega)),
      loop_success _ _ _ 1 _ _ (by omega) hfn]
    rfl
  | 2, _ =>
    obtain ⟨e0, h0⟩ := hsome 0 (by omega)
    obtain ⟨e1, h1⟩ := hsome 1 (by omega)
    rw [loop_fail_wait _ _ _ 0 _ _ (by omega) h0 (hctx 0 (by omega)),
      loop_fail_wait _ _ _ 1 _ _ (by omega) h1 (hctx 1 (by omega)),
      loop_success _ _ _ 2 _ _ (by omega) hfn]
    rfl
  | 3, _ =>
    obtain ⟨e0, h0⟩ := hsome 0 (by omega)
    obtain ⟨e1, h1⟩ := hsome 1 (by omega)
    obtain ⟨e2, h2⟩ := hsome 2 (by omega)
    rw [loop_fail_wait _ _ _ 0 _ _ (by omega) h0 (hctx 0 (by omega)),
      loop_fail_wait _ _ _ 1 _ _ (by omega) h1 (hctx 1 (by omega)),
      loop_fail_wait _ _ _ 2 _ _ (by omega) h2 (hctx 2 (by omega)),
      loop_success _ _ _ 3 _ _ (by omega) hfn]
    rfl

/-- From iteration `attempt` on, the loop calls `fn` at most once per remaining
iteration, whatever `fn` returns and whether or not a wait is cancelled. -/
theorem loop_calls_le (env : RetryEnv) (streamID : String) (fields : GoMap FieldValue)
    (n attempt : Nat) (hn : attempt + n = 4) (lastErr : Option String) (trace : RetryTrace) :
    (RetryWithBackoff.loop env streamID fields attempt lastErr trace).2.calls ≤
      trace.calls + n := by
  induction n generalizing attempt lastErr trace with
  | zero =>
    rw [loop_exhausted _ _ _ _ _ _ (by omega), sendToDeathQueue_eq]
    simp
  | succ n ih =>
    cases hfn : env.fn trace.calls with
    | none =>
      rw [loop_success _ _ _ _ _ _ (by omega) hfn]
      simp only
      omega
    | some err =>
      by_cases h3 : attempt < 3
      · cases hc : env.ctxDone attempt with
        | none =>
          rw [loop_fail_wait _ _ _ _ _ _ h3 hfn hc]
          refine le_trans (ih (attempt + 1) (by omega) _ _) ?_
          simp only
          omega
        | some e =>
          rw [loop_fail_cancel _ _ _ _ _ _ h3 hfn hc]
          simp only
          omega
      · have : attempt = 3 := by omega
        subst this
        rw [loop_fail_last _ _ _ _ _ hfn]
        refine le_trans (ih 4 (by omega) _ _) ?_
        simp only
        omega

theorem deadLetterRecord_error (env : RetryEnv) (streamID : String) (fields : GoMap FieldValue)
    (err : String) :
    (deadLetterRecord env streamID fields err).get? "_error" = some (FieldValue.str err) := by
  unfold deadLetterRecord
  rw [GoMap.get?_set_of_ne _ _ (by decide), GoMap.get?_set_of_ne _ _ (by decide),
    GoMap.get?_set_self]

/-- C17 fails on the code: with an operation that fails on all four attempts and a
dead-letter write that succeeds, `RetryWithBackoff` returns the nil error. -/
theorem RetryWithBackoff_exhausted_returns_nil :
    (∀ k, k < 4 → alwaysFailing.fn k ≠ none) ∧
    (∀ k, alwaysFailing.ctxDone k = none) ∧
    (∀ record, alwaysFailing.xadd record = none) ∧
    (RetryWithBackoff alwaysFailing "1-0" [("attemptId", FieldValue.str "a1")]).1 = none ∧
    (RetryWithBackoff alwaysFailing "1-0" [("attemptId", FieldValue.str "a1")]).2.calls = 4 ∧
    (RetryWithBackoff alwaysFailing "1-0" [("attemptId", FieldValue.str "a1")]).2.deadLetters =
      [[("attemptId", FieldValue.str "a1"), ("_error", FieldValue.str "write failed"),
        ("_stream_id", FieldValue.str "1-0"), ("_failed_at", FieldValue.int 1700000000)]] := by
  refine ⟨fun k _ => by simp [alwaysFailing], fun _ => rfl, fun _ => rfl, ?_, ?_, ?_⟩
  · decide!
  · decide!
  · decide!

/-- C17, amended. When every one of the four attempts fails (and no wait is cancelled),
`RetryWithBackoff` returns the result of the dead-letter write: nil when the write
succeeds, the wrapped write error when it fails. The exhausted failure is not returned;
its message is stored in the field `_error` of the one dead-letter record. -/
theorem RetryWithBackoff_exhausted_returns_write_result (env : RetryEnv) (streamID : String)
    (fields : GoMap FieldValue) (hfail : ∀ k, k < 4 → env.fn k ≠ none)
    (hctx : ∀ k, k < 3 → env.ctxDone k = none) :
    ∃ lastErr, env.fn 3 = some lastErr ∧
      (RetryWithBackoff env streamID fields).2.deadLetters =
        [deadLetterRecord env streamID fields lastErr] ∧
      (deadLetterRecord env streamID fields lastErr).get? "_error" =
        some (FieldValue.str lastErr) ∧
      (RetryWithBackoff env streamID fields).1 =
        (env.xadd (deadLetterRecord env streamID fields lastErr)).map
          (fun e => "failed to send to death queue: " ++ e) ∧
      ((RetryWithBackoff env streamID fields).1 = none ↔
        env.xadd (deadLetterRecord env streamID fields lastErr) = none) := by
  obtain ⟨e0, h0⟩ := Option.ne_none_iff_exists'.1 (hfail 0 (by omega))
  obtain ⟨e1, h1⟩ := Option.ne_none_iff_exists'.1 (hfail 1 (by omega))
  obtain ⟨e2, h2⟩ := Option.ne_none_iff_exists'.1 (hfail 2 (by omega))
  obtain ⟨e3, h3⟩ := Option.ne_none_iff_exists'.1 (hfail 3 (by omega))
  have hrun := RetryWithBackoff_all_fail env streamID fields h0 h1 h2 h3 hctx
  refine ⟨e3, h3, ?_, deadLetterRecord_error env streamID fields e3, ?_, ?_⟩
  · rw [hrun]
  · rw [hrun]
  · rw [hrun]
    simp only
    cases env.xadd (deadLetterRecord env streamID fields e3) <;> simp

/-- C17, amended, on an operation that always fails and a write that succeeds. -/
theorem RetryWithBackoff_exhausted_returns_write_result_witness :
    (∀ k, k < 4 → alwaysFailing.fn k ≠ none) ∧
    (∀ k, k < 3 → alwaysFailing.ctxDone k = none) ∧
    ∃ lastErr, alwaysFailing.fn 3 = some lastErr ∧
      (RetryWithBackoff alwaysFailing "1-0" []).2.deadLetters =
        [deadLetterRecord alwaysFailing "1-0" [] lastErr] ∧
      (deadLetterRecord alwaysFailing "1-0" [] lastErr).get? "_error" =
        some (FieldValue.str lastErr) ∧
      (RetryWithBackoff alwaysFailing "1-0" []).1 =
        (alwaysFailing.xadd (deadLetterRecord alwaysFailing "1-0" [] lastErr)).map
          (fun e => "failed to send to death queue: " ++ e) ∧
      ((RetryWithBackoff alwaysFailing "1-0" []).1 = none ↔
        alwaysFailing.xadd (deadLetterRecord alwaysFailing "1-0" [] lastErr) = none) :=
  ⟨fun k _ => by simp [alwaysFailing], fun _ _ => rfl,
    RetryWithBackoff_exhausted_returns_write_result alwaysFailing "1-0" []
      (fun k _ => by simp [alwaysFailing]) (fun _ _ => rfl)⟩

/-- C18. With an uncancelled context, `RetryWithBackoff` calls `fn` at most four times;
if call `j` is the first to succeed it stops there (`j + 1` calls), returns nil and
writes nothing to the dead-letter sink; if all four calls fail it has called `fn`
exactly four times and written one dead-letter record. -/
theorem RetryWithBackoff_attempts (env : RetryEnv) (streamID : String)
    (fields : GoMap FieldValue) (hctx : ∀ k, env.ctxDone k = none) :
    (RetryWithBackoff env streamID fields).2.calls ≤ 4 ∧
    (∀ j, j < 4 → env.fn j = none → (∀ i, i < j → env.fn i ≠ none) →
      (RetryWithBackoff env streamID fields).1 = none ∧
      (RetryWithBackoff env streamID fields).2.calls = j + 1 ∧
      (RetryWithBackoff env streamID fields).2.deadLetters = []) ∧
    ((∀ k, k < 4 → env.fn k ≠ none) →
      (RetryWithBackoff env streamID fields).2.calls = 4 ∧
      (RetryWithBackoff env streamID fields).2.deadLetters.length = 1) := by
  refine ⟨?_, ?_, ?_⟩
  · have := loop_calls_le env streamID fields 4 0 rfl none ⟨0, [], []⟩
    simpa [RetryWithBackoff] using this
  · intro j hj hfn hfail
    rw [RetryWithBackoff_first_success env streamID fields j hj hfn hfail (fun k _ => hctx k)]
    exact ⟨rfl, rfl, rfl⟩
  · intro hfail
    obtain ⟨e0, h0⟩ := Option.ne_none_iff_exists'.1 (hfail 0 (by omega))
    obtain ⟨e1, h1⟩ := Option.ne_none_iff_exists'.1 (hfail 1 (by omega))
    obtain ⟨e2, h2⟩ := Option.ne_none_iff_exists'.1 (hfail 2 (by omega))
    obtain ⟨e3, h3⟩ := Option.ne_none_iff_exists'.1 (hfail 3 (by omega))
    rw [RetryWithBackoff_all_fail env streamID fields h0 h1 h2 h3 (fun k _ => hctx k)]
    exact ⟨rfl, rfl⟩

/-- C18 on an operation that fails twice and then succeeds. -/
theorem RetryWithBackoff_attempts_witness :
    (∀ k, failingTwice.ctxDone k = none) ∧
    ((RetryWithBackoff failingTwice "1-0" []).2.calls ≤ 4 ∧
    (∀ j, j < 4 → failingTwice.fn j = none → (∀ i, i < j → failingTwice.fn i ≠ none) →
      (RetryWithBackoff failingTwice "1-0" []).1 = none ∧
      (RetryWithBackoff failingTwice "1-0" []).2.calls = j + 1 ∧
      (RetryWithBackoff failingTwice "1-0" []).2.deadLetters = []) ∧
    ((∀ k, k < 4 → failingTwice.fn k ≠ none) →
      (RetryWithBackoff failingTwice "1-0" []).2.calls = 4 ∧
      (RetryWithBackoff failingTwice "1-0" []).2.deadLetters.length = 1)) :=
  ⟨fun _ => rfl, RetryWithBackoff_attempts failingTwice "1-0" [] (fun _ => rfl)⟩

/-- C19 fails on the code: a run in which all four attempts fail has waited 1s, 2s and
4s, and not 8s. -/
theorem RetryWithBackoff_never_waits_8s :
    (∀ k, k < 4 → alwaysFailing.fn k ≠ none) ∧
    (∀ k, alwaysFailing.ctxDone k = none) ∧
    (RetryWithBackoff alwaysFailing "1-0" []).2.waited =
      [1 * timeSecond, 2 * timeSecond, 4 * timeSecond] ∧
    (RetryWithBackoff alwaysFailing "1-0" []).2.waited ≠
      [1 * timeSecond, 2 * timeSecond, 4 * timeSecond, 8 * timeSecond] := by
  refine ⟨fun k _ => by simp [alwaysFailing], fun _ => rfl, ?_, ?_⟩
  · decide!
  · decide!

/-- C19, amended. The table holds the delays 1s, 2s, 4s, 8s, and entry `k - 1` is
`2^(k-1)` seconds. With an uncancelled context the delay waited after the `k`-th failed
attempt is `2^(k-1)` seconds for `k = 1, 2, 3`; nothing is waited after the fourth
failed attempt. A run in which all four attempts fail has waited 1s, 2s, 4s, in that
order, and a run whose attempt `j` is the first to succeed the first `j` of these. -/
theorem RetryWithBackoff_waits (env : RetryEnv) (streamID : String)
    (fields : GoMap FieldValue) (hctx : ∀ k, env.ctxDone k = none) :
    (∀ k, 1 ≤ k → k ≤ 4 → retryDelays.get? (k - 1) = some (2 ^ (k - 1) * timeSecond)) ∧
    ((∀ k, k < 4 → env.fn k ≠ none) →
      (RetryWithBackoff env streamID fields).2.waited =
        [1 * timeSecond, 2 * timeSecond, 4 * timeSecond] ∧
      (∀ k, 1 ≤ k → k ≤ 3 →
        (RetryWithBackoff env streamID fields).2.waited.get? (k - 1) =
          some (2 ^ (k - 1) * timeSecond)) ∧
      (RetryWithBackoff env streamID fields).2.waited.length = 3) ∧
    (∀ j, j < 4 → env.fn j = none → (∀ i, i < j → env.fn i ≠ none) →
      (RetryWithBackoff env streamID fields).2.waited =
        [1 * timeSecond, 2 * timeSecond, 4 * timeSecond].take j) := by
  refine ⟨?_, ?_, ?_⟩
  · intro k hk1 hk4
    have : k = 1 ∨ k = 2 ∨ k = 3 ∨ k = 4 := by omega
    rcases this with rfl | rfl | rfl | rfl <;> rfl
  · intro hfail
    obtain ⟨e0, h0⟩ := Option.ne_none_iff_exists'.1 (hfail 0 (by omega))
    obtain ⟨e1, h1⟩ := Option.ne_none_iff_exists'.1 (hfail 1 (by omega))
    obtain ⟨e2, h2⟩ := Option.ne_none_iff_exists'.1 (hfail 2 (by omega))
    obtain ⟨e3, h3⟩ := Option.ne_none_iff_exists'.1 (hfail 3 (by omega))
    rw [RetryWithBackoff_all_fail env streamID fields h0 h1 h2 h3 (fun k _ => hctx k)]
    refine ⟨rfl, ?_, rfl⟩
    intro k hk1 hk3
    have : k = 1 ∨ k = 2 ∨ k = 3 := by omega
    rcases this with rfl | rfl | rfl <;> rfl
  · intro j hj hfn hfail
    rw [RetryWithBackoff_first_success env streamID fields j hj hfn hfail (fun k _ => hctx k)]
    have : j = 0 ∨ j = 1 ∨ j = 2 ∨ j = 3 := by omega
    rcases this with rfl | rfl | rfl | rfl <;> rfl

/-- C19, amended, on an operation that always fails. -/
theorem RetryWithBackoff_waits_witness :
    (∀ k, alwaysFailing.ctxDone k = none) ∧
    (∀ k, k < 4 → alwaysFailing.fn k ≠ none) ∧
    (RetryWithBackoff alwaysFailing "1-0" []).2.waited =
      [1 * timeSecond, 2 * timeSecond, 4 * timeSecond] :=
  ⟨fun _ => rfl, fun k _ => by simp [alwaysFailing],
    ((RetryWithBackoff_waits alwaysFailing "1-0" [] (fun _ => rfl)).2.1
      (fun k _ => by simp [alwaysFailing])).1⟩

/-! ## The pair key -/

/-- C20. The pair key is symmetric, and it is the lexicographically smaller ID, a colon,
then the larger ID; for equal IDs it is the ID, a colon, the ID. -/
theorem getPairKey_eq_min_max (a b : String) :
    getPairKey a b = getPairKey b a ∧
    getPairKey a b = min a b ++ ":" ++ max a b ∧
    getPairKey a a = a ++ ":" ++ a ∧
    (a < b ↔ a.toList < b.toList) := by
  refine ⟨getPairKey_comm a b, ?_, ?_, String.lt_iff_toList_lt⟩
  · unfold getPairKey
    by_cases h : a < b
    · rw [if_pos h, min_eq_left h.le, max_eq_right h.le]
    · rw [if_neg h, min_eq_right (not_lt.1 h), max_eq_left (not_lt.1 h)]
  · unfold getPairKey
    rw [if_neg (lt_irrefl a)]

/-! ## Joining strings -/

theorem intercalate_go_append (x y s : String) (l : List String) :
    String.intercalate.go (x ++ y) s l = x ++ String.intercalate.go y s l := by
  induction l generalizing y with
  | nil => rfl
  | cons a l ih =>
    simp only [String.intercalate.go]
    rw [String.append_assoc, String.append_assoc, ← String.append_assoc y, ih]

theorem intercalate_cons_cons (s a b : String) (l : List String) :
    s.intercalate (a :: b :: l) = a ++ s ++ s.intercalate (b :: l) := by
  simp only [String.intercalate, String.intercalate.go]
  rw [intercalate_go_append]

theorem intercalate_singleton (s a : String) : s.intercalate [a] = a := rfl

/-- Joining a non-empty list extended by one more string. -/
theorem intercalate_append_singleton (s : String) (l : List String) (hl : l ≠ []) (a : String) :
    s.intercalate (l ++ [a]) = s.intercalate l ++ s ++ a := by
  induction l with
  | nil => exact absurd rfl hl
  | cons x l ih =>
    cases l with
    | nil => simp [intercalate_cons_cons, intercalate_singleton]
    | cons y l =>
      rw [List.cons_append, List.cons_append, intercalate_cons_cons, ← List.cons_append,
        ih (by simp), intercalate_cons_cons]
      simp only [String.append_assoc]

/-- Joining a non-empty list extended by a label and its value. -/
theorem intercalate_append_pair (s : String) (l : List String) (hl : l ≠ []) (a b : String) :
    s.intercalate (l ++ [a, b]) = s.intercalate l ++ s ++ a ++ s ++ b := by
  have : l ++ [a, b] = (l ++ [a]) ++ [b] := by simp
  rw [this, intercalate_append_singleton s _ (by simp), intercalate_append_singleton s l hl]

theorem intercalate_data (c : Char) (l : List String) :
    ((String.singleton c).intercalate l).data = [c].intercalate (l.map String.data) := by
  induction l with
  | nil => rfl
  | cons a l ih =>
    cases l with
    | nil => simp [intercalate_singleton, List.intercalate]
    | cons b l =>
      rw [intercalate_cons_cons, String.data_append, String.data_append, ih]
      simp [List.intercalate, String.singleton]

/-- A join with a one-character separator determines the joined strings, when none of
them holds the separator and the lists are non-empty. -/
theorem intercalate_injective (c : Char) {l₁ l₂ : List String} (h₁ : ∀ s ∈ l₁, c ∉ s.data)
    (h₂ : ∀ s ∈ l₂, c ∉ s.data) (hne₁ : l₁ ≠ []) (hne₂ : l₂ ≠ [])
    (h : (String.singleton c).intercalate l₁ = (String.singleton c).intercalate l₂) :
    l₁ = l₂ := by
  have hd := congrArg String.data h
  rw [intercalate_data, intercalate_data] at hd
  have hs := congrArg (fun x => List.splitOn c x) hd
  simp only at hs
  rw [List.splitOn_intercalate _ c (by simpa using h₁) (by simpa using hne₁),
    List.splitOn_intercalate _ c (by simpa using h₂) (by simpa using hne₂)] at hs
  exact List.map_injective_iff.2 (fun a b hab => String.ext hab) hs

theorem not_mem_intercalate_data {d : Char} {s : String} {l : List String} (hs : d ∉ s.data)
    (hl : ∀ x ∈ l, d ∉ x.data) : d ∉ (s.intercalate l).data := by
  induction l with
  | nil => simp [String.intercalate]
  | cons a l ih =>
    cases l with
    | nil => simpa [intercalate_singleton] using hl a (by simp)
    | cons b l =>
      rw [intercalate_cons_cons]
      simp only [String.data_append, List.mem_append, not_or]
      exact ⟨⟨hl a (by simp), hs⟩, ih (fun x hx => hl x (List.mem_cons_of_mem _ hx))⟩

/-! ## The canonical hash input -/

/-- The slice `parts` as the code builds it: the type, then one labelled pair per
attribute that is present. -/
theorem hashParts_eq (node : ASTNode) (childHashes : List String) :
    hashParts node childHashes =
      ["type:", node.Type_] ++ labelled (node.Name ≠ "") "name:" node.Name ++
        labelled (node.ReturnType ≠ "") "return:" node.ReturnType ++
        labelled (node.Operator ≠ "") "op:" node.Operator ++
        labelled (node.Modifiers.length > 0) "modifiers:"
          (",".intercalate (sortStrings node.Modifiers)) ++
        labelled (node.Parameters.length > 0) "params:"
          (",".intercalate (sortStrings (node.Parameters.map paramString))) ++
        labelled (childHashes.length > 0) "children:" (",".intercalate childHashes) := by
  unfold hashParts labelled
  simp only
  split_ifs <;> simp

theorem intercalate_append_labelled (l : List String) (hl : l ≠ []) (present : Prop)
    [Decidable present] (label value : String) :
    "|".intercalate (l ++ labelled present label value) =
      "|".intercalate l ++ (if present then "|" ++ label ++ "|" ++ value else "") := by
  unfold labelled
  split
  · rw [intercalate_append_pair "|" l hl]
    simp only [String.append_assoc]
  · simp

theorem string_append_left_cancel {x a b : String} (h : x ++ a = x ++ b) : a = b := by
  have := congrArg String.data h
  simp only [String.data_append, List.append_cancel_left_eq] at this
  exact String.ext this

/-- The hash input in one piece: `type:|<type>` followed, for each attribute that is
present, by `|<label>|<value>`. -/
theorem hashInput_eq (node : ASTNode) (childHashes : List String) :
    hashInput node childHashes =
      "type:|" ++ node.Type_ ++
        (if node.Name ≠ "" then "|name:|" ++ node.Name else "") ++
        (if node.ReturnType ≠ "" then "|return:|" ++ node.ReturnType else "") ++
        (if node.Operator ≠ "" then "|op:|" ++ node.Operator else "") ++
        (if node.Modifiers.length > 0 then
          "|modifiers:|" ++ ",".intercalate (sortStrings node.Modifiers) else "") ++
        (if node.Parameters.length > 0 then
          "|params:|" ++ ",".intercalate (sortStrings (node.Parameters.map paramString))
          else "") ++
        (if childHashes.length > 0 then "|children:|" ++ ",".intercalate childHashes
          else "") := by
  unfold hashInput
  rw [hashParts_eq]
  rw [intercalate_append_labelled _ (by simp), intercalate_append_labelled _ (by simp),
    intercalate_append_labelled _ (by simp), intercalate_append_labelled _ (by simp),
    intercalate_append_labelled _ (by simp), intercalate_append_labelled _ (by simp)]
  have h0 : "|".intercalate ["type:", node.Type_] = "type:|" ++ node.Type_ := by
    rw [intercalate_cons_cons, intercalate_singleton]
    rfl
  rw [h0]
  rfl

/-- C12 fails on the code: the node with type `T`, name `N` and nothing else is not
hashed from `type:T|name:N` but from `type:|T|name:|N`. -/
theorem hashInput_type_name_example :
    hashParts exampleTN [] = ["type:", "T", "name:", "N"] ∧
    hashInput exampleTN [] = "type:|T|name:|N" ∧
    hashInput exampleTN [] ≠ "type:T|name:N" := by
  refine ⟨by decide, by decide, by decide⟩

/-- C12, amended. The string that `computeNodeHash` feeds to the digest is the
`|`-separated concatenation of the label `type:` and the type, then, each pair present
only when its attribute is non-empty, of the label `name:` and the name, `return:` and
the return type, `op:` and the operator, `modifiers:` and the sorted comma-joined
modifiers, `params:` and the sorted comma-joined parameter strings, `children:` and the
comma-joined child hashes in their order: a `|` stands between every label and its
value. A node with type `T`, name `N` and nothing else is hashed from `type:|T|name:|N`. -/
theorem computeNodeHash_input (H : String → String) (node : ASTNode)
    (childHashes : List String) :
    computeNodeHash H (some node) childHashes = H (hashInput node childHashes) ∧
    hashInput node childHashes =
      "type:|" ++ node.Type_ ++
        (if node.Name ≠ "" then "|name:|" ++ node.Name else "") ++
        (if node.ReturnType ≠ "" then "|return:|" ++ node.ReturnType else "") ++
        (if node.Operator ≠ "" then "|op:|" ++ node.Operator else "") ++
        (if node.Modifiers.length > 0 then
          "|modifiers:|" ++ ",".intercalate (sortStrings node.Modifiers) else "") ++
        (if node.Parameters.length > 0 then
          "|params:|" ++ ",".intercalate (sortStrings (node.Parameters.map paramString))
          else "") ++
        (if childHashes.length > 0 then "|children:|" ++ ",".intercalate childHashes
          else "") ∧
    (sortStrings node.Modifiers).Sorted (fun a b => a ≤ b) ∧
    (sortStrings node.Modifiers).Perm node.Modifiers ∧
    (sortStrings (node.Parameters.map paramString)).Sorted (fun a b => a ≤ b) ∧
    (sortStrings (node.Parameters.map paramString)).Perm (node.Parameters.map paramString) ∧
    hashInput exampleTN [] = "type:|T|name:|N" := by
  refine ⟨rfl, hashInput_eq node childHashes, ?_, ?_, ?_, ?_, by decide⟩
  · exact List.sorted_insertionSort _ _
  · exact List.perm_insertionSort _ _
  · exact List.sorted_insertionSort _ _
  · exact List.perm_insertionSort _ _

/-! ## Order of modifiers, parameters and children -/

theorem sortStrings_eq_of_perm {l₁ l₂ : List String} (h : l₁.Perm l₂) :
    sortStrings l₁ = sortStrings l₂ := by
  unfold sortStrings
  exact List.eq_of_perm_of_sorted
    ((List.perm_insertionSort _ l₁).trans (h.trans (List.perm_insertionSort _ l₂).symm))
    (List.sorted_insertionSort _ l₁) (List.sorted_insertionSort _ l₂)

/-- The parts of two nodes that agree up to the order of modifiers and parameters. -/
theorem hashParts_congr (n₁ n₂ : ASTNode) (ht : n₁.Type_ = n₂.Type_) (hn : n₁.Name = n₂.Name)
    (hr : n₁.ReturnType = n₂.ReturnType) (ho : n₁.Operator = n₂.Operator)
    (hm : n₁.Modifiers.Perm n₂.Modifiers) (hp : n₁.Parameters.Perm n₂.Parameters)
    (childHashes : List String) : hashParts n₁ childHashes = hashParts n₂ childHashes := by
  rw [hashParts_eq, hashParts_eq, ht, hn, hr, ho, sortStrings_eq_of_perm hm,
    sortStrings_eq_of_perm (hp.map paramString), hm.length_eq, hp.length_eq]

mutual
theorem buildSubtreeHashesRecursive_permEquiv (H : String → String) :
    ∀ (a b : ASTNode) (s : GoMap Bool), ASTNode.PermEquiv a b →
      buildSubtreeHashesRecursive H a s = buildSubtreeHashesRecursive H b s
  | ⟨t₁, n₁, r₁, o₁, m₁, p₁, c₁⟩, ⟨t₂, n₂, r₂, o₂, m₂, p₂, c₂⟩, s, h => by
    rw [ASTNode.PermEquiv] at h
    obtain ⟨ht, hn, hr, ho, hm, hp, hc⟩ := h
    rw [buildSubtreeHashesRecursive, buildSubtreeHashesRecursive,
      buildSubtreeHashesRecursive_children_permEquiv H c₁ c₂ [] s hc]
    have hparts : ∀ cs, hashParts ⟨t₁, n₁, r₁, o₁, m₁, p₁, c₁⟩ cs =
        hashParts ⟨t₂, n₂, r₂, o₂, m₂, p₂, c₂⟩ cs :=
      fun cs => hashParts_congr _ _ ht hn hr ho hm hp cs
    simp only [computeNodeHash, hashInput, hparts]
theorem buildSubtreeHashesRecursive_children_permEquiv (H : String → String) :
    ∀ (as bs : List (Option ASTNode)) (acc : List String) (s : GoMap Bool),
      ASTNode.PermEquiv.children as bs →
      buildSubtreeHashesRecursive.children H as acc s =
        buildSubtreeHashesRecursive.children H bs acc s
  | [], [], acc, s, _ => rfl
  | a :: as, b :: bs, acc, s, h => by
    rw [ASTNode.PermEquiv.children] at h
    rw [buildSubtreeHashesRecursive.children, buildSubtreeHashesRecursive.children,
      buildSubtreeHashesRecursive_child_permEquiv H a b s h.1]
    exact buildSubtreeHashesRecursive_children_permEquiv H as bs _ _ h.2
  | [], _ :: _, _, _, h => by
    rw [ASTNode.PermEquiv.children] at h
    exact h.elim
  | _ :: _, [], _, _, h => by
    rw [ASTNode.PermEquiv.children] at h
    exact h.elim
theorem buildSubtreeHashesRecursive_child_permEquiv (H : String → String) :
    ∀ (a b : Option ASTNode) (s : GoMap Bool), ASTNode.PermEquiv.child a b →
      buildSubtreeHashesRecursive.child H a s = buildSubtreeHashesRecursive.child H b s
  | none, none, s, _ => rfl
  | some a, some b, s, h => by
    rw [ASTNode.PermEquiv.child] at h
    rw [buildSubtreeHashesRecursive.child, buildSubtreeHashesRecursive.child,
      buildSubtreeHashesRecursive_permEquiv H a b s h]
  | none, some _, _, h => by
    rw [ASTNode.PermEquiv.child] at h
    exact h.elim
  | some _, none, _, h => by
    rw [ASTNode.PermEquiv.child] at h
    exact h.elim
end

/-- C11. The node hash does not change when the modifiers of the node are replaced by
a permutation of them, nor when its parameters are; consequently two trees that differ
only in the order of modifiers and parameters at their nodes have the same set of
subtree hashes. -/
theorem computeNodeHash_perm_invariant (H : String → String) :
    (∀ (node : ASTNode) (childHashes modifiers : List String),
      node.Modifiers.Perm modifiers →
        computeNodeHash H (some { node with Modifiers := modifiers }) childHashes =
          computeNodeHash H (some node) childHashes) ∧
    (∀ (node : ASTNode) (childHashes : List String) (parameters : List Parameter),
      node.Parameters.Perm parameters →
        computeNodeHash H (some { node with Parameters := parameters }) childHashes =
          computeNodeHash H (some node) childHashes) ∧
    (∀ a b : ASTNode, ASTNode.PermEquiv a b →
      buildSubtreeHashes H (some a) = buildSubtreeHashes H (some b)) := by
  refine ⟨?_, ?_, ?_⟩
  · intro node cs m hm
    simp only [computeNodeHash, hashInput]
    rw [hashParts_congr { node with Modifiers := m } node rfl rfl rfl rfl
      hm.symm (List.Perm.refl _)]
  · intro node cs p hp
    simp only [computeNodeHash, hashInput]
    rw [hashParts_congr { node with Parameters := p } node rfl rfl rfl rfl
      (List.Perm.refl _) hp.symm]
  · intro a b h
    simp only [buildSubtreeHashes]
    rw [buildSubtreeHashesRecursive_permEquiv H a b [] h]

theorem not_mem_comma_of_isHexDigest {s : String} (h : IsHexDigest s) : ',' ∉ s.data := by
  intro hc
  exact absurd (h.2 _ hc) (by decide)

/-- C14. The hash input is sensitive to the order of the children: for one node and two
lists of child digests that are permutations of each other but different lists, the
hash inputs differ, and so do the hashes under any injective digest function. -/
theorem hashInput_child_order_sensitive (node : ASTNode) (cs₁ cs₂ : List String)
    (hperm : cs₁.Perm cs₂) (hne : cs₁ ≠ cs₂) (hhex : ∀ c ∈ cs₁, IsHexDigest c) :
    hashInput node cs₁ ≠ hashInput node cs₂ ∧
    ∀ H : String → String, Function.Injective H →
      computeNodeHash H (some node) cs₁ ≠ computeNodeHash H (some node) cs₂ := by
  have hmain : hashInput node cs₁ ≠ hashInput node cs₂ := by
    intro heq
    have hne₁ : cs₁ ≠ [] := by
      rintro rfl
      exact hne (hperm.nil_eq)
    have hne₂ : cs₂ ≠ [] := by
      rintro rfl
      exact hne₁ hperm.eq_nil
    have hl₁ : cs₁.length > 0 := List.length_pos.2 hne₁
    have hl₂ : cs₂.length > 0 := List.length_pos.2 hne₂
    rw [hashInput_eq, hashInput_eq, if_pos hl₁, if_pos hl₂] at heq
    have hjoin : ",".intercalate cs₁ = ",".intercalate cs₂ :=
      string_append_left_cancel (string_append_left_cancel heq)
    exact hne (intercalate_injective ','
      (fun c hc => not_mem_comma_of_isHexDigest (hhex c hc))
      (fun c hc => not_mem_comma_of_isHexDigest (hhex c (hperm.mem_iff.2 hc)))
      hne₁ hne₂ hjoin)
  exact ⟨hmain, fun H hH heq => hmain (hH heq)⟩

theorem exampleAST_permEquiv : ASTNode.PermEquiv exampleAST exampleASTPermuted := by
  simp only [exampleAST, exampleASTPermuted, exampleLeaf, ASTNode.PermEquiv,
    ASTNode.PermEquiv.children, ASTNode.PermEquiv.child, and_self, true_and, and_true,
    List.Perm.refl]
  exact List.Perm.swap _ _ _

/-- C11 on the five-node example AST and the same tree with the root's modifiers
swapped. -/
theorem computeNodeHash_perm_invariant_witness :
    exampleAST.Modifiers.Perm ["public", "static"] ∧
    ASTNode.PermEquiv exampleAST exampleASTPermuted ∧
    computeNodeHash (fun s => s) (some { exampleAST with Modifiers := ["public", "static"] })
        ["c1"] = computeNodeHash (fun s => s) (some exampleAST) ["c1"] ∧
    buildSubtreeHashes (fun s => s) (some exampleAST) =
      buildSubtreeHashes (fun s => s) (some exampleASTPermuted) :=
  ⟨List.Perm.swap _ _ _, exampleAST_permEquiv,
    (computeNodeHash_perm_invariant (fun s => s)).1 exampleAST ["c1"] ["public", "static"]
      (List.Perm.swap _ _ _),
    (computeNodeHash_perm_invariant (fun s => s)).2.2 exampleAST exampleASTPermuted
      exampleAST_permEquiv⟩

/-- C14 on two digests in the two possible orders. -/
theorem hashInput_child_order_sensitive_witness :
    [digestA, digestB].Perm [digestB, digestA] ∧ [digestA, digestB] ≠ [digestB, digestA] ∧
    (∀ c ∈ [digestA, digestB], IsHexDigest c) ∧
    hashInput exampleTN [digestA, digestB] ≠ hashInput exampleTN [digestB, digestA] :=
  have hhex : ∀ c ∈ [digestA, digestB], IsHexDigest c := by
    intro c hc
    simp only [List.mem_cons, List.mem_singleton, List.not_mem_nil, or_false] at hc
    rcases hc with rfl | rfl
    · exact ⟨by decide, by decide⟩
    · exact ⟨by decide, by decide⟩
  ⟨List.Perm.swap _ _ _, by decide, hhex,
    (hashInput_child_order_sensitive exampleTN [digestA, digestB] [digestB, digestA]
      (List.Perm.swap _ _ _) (by decide) hhex).1⟩

/-! ## The set of subtree hashes -/

theorem insertAll_append (s : GoMap Bool) (l₁ l₂ : List String) :
    insertAll s (l₁ ++ l₂) = insertAll (insertAll s l₁) l₂ := by
  simp [insertAll, List.foldl_append]

theorem insertAll_keys (s : GoMap Bool) (l : List String) (hs : s.keys.Nodup) :
    (insertAll s l).keys.Nodup ∧ (∀ k, k ∈ (insertAll s l).keys ↔ k ∈ s.keys ∨ k ∈ l) ∧
      (insertAll s l).length ≤ s.length + l.length := by
  induction l generalizing s with
  | nil => simpa [insertAll] using hs
  | cons h l ih =>
    have := ih (s.set h true) (GoMap.nodup_keys_set hs _ _)
    simp only [insertAll, List.foldl_cons] at this ⊢
    refine ⟨this.1, fun k => ?_, ?_⟩
    · rw [this.2.1, GoMap.mem_keys_set, List.mem_cons]
      constructor
      · rintro ((h1 | h1) | h1)
        · exact Or.inr (Or.inl h1)
        · exact Or.inl h1
        · exact Or.inr (Or.inr h1)
      · rintro (h1 | h1 | h1)
        · exact Or.inl (Or.inr h1)
        · exact Or.inl (Or.inl h1)
        · exact Or.inr h1
    · refine le_trans this.2.2 ?_
      rw [GoMap.length_set, List.length_cons]
      split <;> omega

mutual
theorem buildSubtreeHashesRecursive_eq_merkle (H : String → String) :
    ∀ (n : ASTNode) (s : GoMap Bool),
      buildSubtreeHashesRecursive H n s =
        (merkle H n, insertAll s ((subtreeNodes n).map (merkle H)))
  | ⟨t, nm, rt, op, ms, ps, children⟩, s => by
    rw [buildSubtreeHashesRecursive, buildSubtreeHashesRecursive_children_eq_merkle H children [] s,
      merkle, subtreeNodes, List.map_append, insertAll_append]
    simp [insertAll, merkle]
theorem buildSubtreeHashesRecursive_children_eq_merkle (H : String → String) :
    ∀ (cs : List (Option ASTNode)) (acc : List String) (s : GoMap Bool),
      buildSubtreeHashesRecursive.children H cs acc s =
        (acc ++ merkle.children H cs,
          insertAll s ((subtreeNodes.children cs).map (merkle H)))
  | [], acc, s => by
    simp [buildSubtreeHashesRecursive.children, merkle.children, subtreeNodes.children,
      insertAll]
  | c :: rest, acc, s => by
    rw [buildSubtreeHashesRecursive.children, buildSubtreeHashesRecursive_child_eq_merkle H c s,
      buildSubtreeHashesRecursive_children_eq_merkle H rest, merkle.children,
      subtreeNodes.children, List.map_append, insertAll_append]
    cases h : merkle.child H c <;> simp
theorem buildSubtreeHashesRecursive_child_eq_merkle (H : String → String) :
    ∀ (c : Option ASTNode) (s : GoMap Bool),
      buildSubtreeHashesRecursive.child H c s =
        (merkle.child H c, insertAll s ((subtreeNodes.child c).map (merkle H)))
  | none, s => by
    simp [buildSubtreeHashesRecursive.child, merkle.child, subtreeNodes.child, insertAll]
  | some n, s => by
    rw [buildSubtreeHashesRecursive.child, buildSubtreeHashesRecursive_eq_merkle H n s,
      merkle.child, subtreeNodes.child]
end

theorem merkle_children_eq (H : String → String) (cs : List (Option ASTNode)) :
    merkle.children H cs = cs.filterMap (fun c => c.map (merkle H)) := by
  induction cs with
  | nil => simp [merkle.children]
  | cons c rest ih =>
    rw [merkle.children, ih]
    cases c <;> simp [merkle.child]

theorem merkle_eq (H : String → String) (n : ASTNode) :
    merkle H n = computeNodeHash H (some n) (n.Children.filterMap (fun c => c.map (merkle H))) := by
  obtain ⟨t, nm, rt, op, ms, ps, children⟩ := n
  rw [merkle, merkle_children_eq]

/-- The map that `buildSubtreeHashes` returns: the Merkle hashes of the nodes, inserted
children first. -/
theorem buildSubtreeHashes_eq_insertAll (H : String → String) (root : ASTNode) :
    buildSubtreeHashes H (some root) = insertAll [] ((subtreeNodes root).map (merkle H)) := by
  simp only [buildSubtreeHashes]
  rw [buildSubtreeHashesRecursive_eq_merkle]

/-- C15. For every tree, the set that `buildSubtreeHashes` returns is exactly the set of
the Merkle hashes of the nodes of the tree, where the Merkle hash of a node is the node
hash computed from the node and the Merkle hashes of its children in order. It is a set:
no hash is held twice, nodes with equal Merkle hashes share one entry, and it has at
most as many elements as the tree has nodes (four for the five nodes of the example AST,
whose two leaves are identical). -/
theorem buildSubtreeHashes_eq_merkle_set (H : String → String) (root : ASTNode) :
    (∀ n : ASTNode,
      merkle H n =
        computeNodeHash H (some n) (n.Children.filterMap (fun c => c.map (merkle H)))) ∧
    (∀ h, h ∈ (buildSubtreeHashes H (some root)).keys ↔
      ∃ n ∈ subtreeNodes root, merkle H n = h) ∧
    subtreeHashSet H (some root) = ((subtreeNodes root).map (merkle H)).toFinset ∧
    (buildSubtreeHashes H (some root)).keys.Nodup ∧
    (buildSubtreeHashes H (some root)).length ≤ (subtreeNodes root).length ∧
    (buildSubtreeHashes (fun s => s) (some exampleAST)).length = 4 ∧
    (subtreeNodes exampleAST).length = 5 := by
  have hk := insertAll_keys [] ((subtreeNodes root).map (merkle H)) (by simp [GoMap.keys])
  rw [← buildSubtreeHashes_eq_insertAll] at hk
  have hmem : ∀ h, h ∈ (buildSubtreeHashes H (some root)).keys ↔
      ∃ n ∈ subtreeNodes root, merkle H n = h := by
    intro h
    rw [hk.2.1]
    simp [GoMap.keys]
  refine ⟨merkle_eq H, hmem, ?_, hk.1, ?_, by decide!, by decide⟩
  · ext h
    rw [subtreeHashSet, List.mem_toFinset, hmem, List.mem_toFinset, List.mem_map]
  · simpa using hk.2.2

/-! ## The output of the selector as a set of unordered pairs -/

/-- The keys of `sharedPairCount` are pairwise distinct, and what the final loop emits
for a key is the first pair visited under that key. -/
theorem emit_counts (gii : GII) (arts : List Artifact) (threshold : ℚ) :
    (GetWorthyPairs.counts gii arts).1.keys.Nodup ∧
    ∀ (e : String × Nat) (q : Pair),
      GetWorthyPairs.emit threshold (GetWorthyPairs.counts gii arts).2 e = some q →
        ∃ p ∈ visitedPairs gii arts, pairKeyOf p = e.1 ∧ q = ⟨p.1, p.2⟩ := by
  rw [counts_eq]
  obtain ⟨-, h2, h3⟩ := foldl_pairStep_spec (visitedPairs gii arts)
  refine ⟨h3, fun e q he => ?_⟩
  unfold GetWorthyPairs.emit at he
  simp only [h2] at he
  cases hf : List.find? (fun x => decide (pairKeyOf x = e.1)) (visitedPairs gii arts) with
  | none => simp [hf] at he
  | some p =>
    simp only [hf, Option.map_some'] at he
    split at he
    · simp only [Option.some.injEq] at he
      exact ⟨p, List.mem_of_find?_eq_some hf, by simpa using List.find?_some hf, he.symm⟩
    · simp at he

theorem ne_of_mem_pairsOf {l : List Artifact} (hl : (l.map Artifact.AttemptID).Nodup)
    {p : Artifact × Artifact} (hp : p ∈ pairsOf l) : p.1.AttemptID ≠ p.2.AttemptID := by
  induction l with
  | nil => simp [pairsOf] at hp
  | cons a rest ih =>
    rw [List.map_cons, List.nodup_cons] at hl
    simp only [pairsOf, List.mem_append, List.mem_map] at hp
    rcases hp with ⟨b, hb, rfl⟩ | hp
    · intro heq
      exact hl.1 (heq ▸ List.mem_map_of_mem Artifact.AttemptID hb)
    · exact ih hl.2 hp

/-- The two artifacts of a visited pair have different attempt IDs. -/
theorem ne_of_mem_visitedPairs {arts : List Artifact}
    (hid : (arts.map Artifact.AttemptID).Nodup) {g : GII} (hg : g.Perm (BuildGII arts))
    {p : Artifact × Artifact} (hp : p ∈ visitedPairs g arts) :
    p.1.AttemptID ≠ p.2.AttemptID := by
  unfold visitedPairs at hp
  rw [List.mem_flatMap] at hp
  obtain ⟨e, he, hpe⟩ := hp
  rw [entryPairs_of_mem_BuildGII hid (hg.mem_iff.1 he)] at hpe
  exact ne_of_mem_pairsOf
    (List.Nodup.sublist (List.Sublist.map _ (List.filter_sublist arts)) hid) hpe

/-- C16. With pairwise distinct attempt IDs the output of the selector is a set of
unordered pairs: no two positions of the output hold the same unordered pair (neither
the same ordered pair twice nor a pair and its mirror image), and no emitted pair has
the same artifact on both sides; in whatever order the index map is ranged over. -/
theorem GetWorthyPairs_unordered_set (artifacts : List Artifact)
    (hid : (artifacts.map Artifact.AttemptID).Nodup) (difficulty : String) (gii : GII)
    (hgii : gii.Perm (BuildGII artifacts)) :
    (GetWorthyPairs gii artifacts difficulty).Pairwise (fun p q => ¬ SameUnorderedPair p q) ∧
    ∀ p ∈ GetWorthyPairs gii artifacts difficulty,
      p.ArtifactA ≠ p.ArtifactB ∧ p.ArtifactA.AttemptID ≠ p.ArtifactB.AttemptID := by
  obtain ⟨hnd, hemit⟩ := emit_counts gii artifacts (getWorthyThreshold difficulty)
  unfold GetWorthyPairs
  simp only
  constructor
  · have hpw : (GetWorthyPairs.counts gii artifacts).1.Pairwise (fun e e' => e.1 ≠ e'.1) := by
      unfold GoMap.keys List.Nodup at hnd
      exact List.pairwise_map.1 hnd
    refine List.Pairwise.filterMap _ ?_ hpw
    intro e e' hne q hq q' hq' hsame
    obtain ⟨p, -, hk, rfl⟩ := hemit e q hq
    obtain ⟨p', -, hk', rfl⟩ := hemit e' q' hq'
    apply hne
    rw [← hk, ← hk']
    simp only [pairKeyOf]
    rcases hsame with ⟨h1, h2⟩ | ⟨h1, h2⟩
    · simp only at h1 h2
      rw [h1, h2]
    · simp only at h1 h2
      rw [h1, h2, getPairKey_comm]
  · intro q hq
    rw [List.mem_filterMap] at hq
    obtain ⟨e, -, he⟩ := hq
    obtain ⟨p, hp, -, rfl⟩ := hemit e q he
    have hne := ne_of_mem_visitedPairs hid hgii hp
    exact ⟨fun h => hne (congrArg Artifact.AttemptID h), hne⟩

/-- C16 on the four attempts with colliding pair keys. -/
theorem GetWorthyPairs_unordered_set_witness :
    (collidingArtifacts.map Artifact.AttemptID).Nodup ∧
    (GetWorthyPairs (BuildGII collidingArtifacts) collidingArtifacts "hard").Pairwise
      (fun p q => ¬ SameUnorderedPair p q) ∧
    ∀ p ∈ GetWorthyPairs (BuildGII collidingArtifacts) collidingArtifacts "hard",
      p.ArtifactA ≠ p.ArtifactB ∧ p.ArtifactA.AttemptID ≠ p.ArtifactB.AttemptID :=
  ⟨by decide,
    GetWorthyPairs_unordered_set collidingArtifacts (by decide) "hard" _ (List.Perm.refl _)⟩

/-! ## Reading the attributes back from the hash input -/

theorem append_cons_inj_of_not_mem {c : Char} {l₁ l₂ r₁ r₂ : List Char} (h₁ : c ∉ l₁)
    (h₂ : c ∉ l₂) (h : l₁ ++ c :: r₁ = l₂ ++ c :: r₂) : l₁ = l₂ ∧ r₁ = r₂ := by
  induction l₁ generalizing l₂ with
  | nil =>
    cases l₂ with
    | nil => simpa using h
    | cons b l₂ =>
      simp only [List.nil_append, List.cons_append, List.cons.injEq] at h
      exact absurd (h.1 ▸ List.mem_cons_self _ _) h₂
  | cons a l₁ ih =>
    cases l₂ with
    | nil =>
      simp only [List.nil_append, List.cons_append, List.cons.injEq] at h
      exact absurd (h.1 ▸ List.mem_cons_self _ _) h₁
    | cons b l₂ =>
      simp only [List.cons_append, List.cons.injEq] at h
      obtain ⟨rfl, hrest⟩ := h
      have := ih (fun hc => h₁ (List.mem_cons_of_mem _ hc))
        (fun hc => h₂ (List.mem_cons_of_mem _ hc)) hrest
      exact ⟨by rw [this.1], this.2⟩

theorem paramString_data (p : Parameter) :
    (paramString p).data =
      p.Type_.data ++ ':' :: (p.Name.data ++
        (if p.ParamType ≠ "" then ':' :: p.ParamType.data else [])) := by
  unfold paramString
  simp only
  split
  · simp [String.data_append]
  · simp [String.data_append]

/-- The parameter string determines the parameter, when neither the type nor the name
of the parameters holds a colon. -/
theorem paramString_injective {p q : Parameter} (hp : ':' ∉ p.Type_.data ∧ ':' ∉ p.Name.data)
    (hq : ':' ∉ q.Type_.data ∧ ':' ∉ q.Name.data) (h : paramString p = paramString q) :
    p = q := by
  have hd := congrArg String.data h
  rw [paramString_data, paramString_data] at hd
  obtain ⟨hT, hrest⟩ := append_cons_inj_of_not_mem hp.1 hq.1 hd
  obtain ⟨pT, pN, pP⟩ := p
  obtain ⟨qT, qN, qP⟩ := q
  simp only at hT hrest hp hq
  have hT' : pT = qT := String.ext hT
  by_cases h1 : pP = ""
  · by_cases h2 : qP = ""
    · simp only [h1, h2, ne_eq, not_true_eq_false, if_false, List.append_nil] at hrest
      rw [hT', String.ext hrest, h1, h2]
    · simp only [h1, h2, ne_eq, not_true_eq_false, not_false_eq_true, if_true, if_false,
        List.append_nil] at hrest
      exact absurd (hrest ▸ List.mem_append_right _ (List.mem_cons_self _ _)) hp.2
  · by_cases h2 : qP = ""
    · simp only [h1, h2, ne_eq, not_true_eq_false, not_false_eq_true, if_true, if_false,
        List.append_nil] at hrest
      exact absurd (hrest.symm ▸ List.mem_append_right _ (List.mem_cons_self _ _)) hq.2
    · simp only [h1, h2, ne_eq, not_false_eq_true, if_true] at hrest
      obtain ⟨hN, hP⟩ := append_cons_inj_of_not_mem hp.2 hq.2 hrest
      rw [hT', String.ext hN, String.ext hP]

theorem perm_of_map_perm {α β : Type} [DecidableEq α] (f : α → β) :
    ∀ (l₁ l₂ : List α), (∀ a ∈ l₁, ∀ b ∈ l₂, f a = f b → a = b) →
      (l₁.map f).Perm (l₂.map f) → l₁.Perm l₂
  | [], l₂, _, h => by
    have := h.nil_eq
    rw [eq_comm, List.map_eq_nil_iff] at this
    rw [this]
  | a :: l₁, l₂, hinj, h => by
    have hmem : f a ∈ l₂.map f := h.mem_iff.1 (by simp)
    obtain ⟨b, hb, hfb⟩ := List.mem_map.1 hmem
    have hab : a = b := hinj a (by simp) b hb hfb.symm
    subst hab
    have hp₂ : l₂.Perm (a :: l₂.erase a) := List.perm_cons_erase hb
    have h' : (l₁.map f).Perm ((l₂.erase a).map f) := by
      have := h.trans (hp₂.map f)
      simpa using this
    exact (List.Perm.cons a (perm_of_map_perm f l₁ (l₂.erase a)
      (fun x hx y hy => hinj x (List.mem_cons_of_mem _ hx) y (List.mem_of_mem_erase hy))
      h')).trans hp₂.symm

theorem partValue_labelled_append (lbl : String) (present : Prop) [Decidable present]
    (label value : String) (rest : List String) :
    partValue lbl (labelled present label value ++ rest) =
      if present ∧ label = lbl then some value else partValue lbl rest := by
  unfold labelled
  by_cases hp : present
  · by_cases hl : label = lbl
    · simp [hp, hl, partValue]
    · simp [hp, hl, partValue]
  · simp [hp]

theorem partValue_labelled (lbl : String) (present : Prop) [Decidable present]
    (label value : String) :
    partValue lbl (labelled present label value) =
      if present ∧ label = lbl then some value else none := by
  have := partValue_labelled_append lbl present label value []
  simpa [partValue] using this

/-- The parts after the type, grouped from the right. -/
theorem hashParts_drop (node : ASTNode) (childHashes : List String) :
    hashParts node childHashes =
      "type:" :: node.Type_ ::
        (labelled (node.Name ≠ "") "name:" node.Name ++
        (labelled (node.ReturnType ≠ "") "return:" node.ReturnType ++
        (labelled (node.Operator ≠ "") "op:" node.Operator ++
        (labelled (node.Modifiers.length > 0) "modifiers:"
          (",".intercalate (sortStrings node.Modifiers)) ++
        (labelled (node.Parameters.length > 0) "params:"
          (",".intercalate (sortStrings (node.Parameters.map paramString))) ++
        labelled (childHashes.length > 0) "children:" (",".intercalate childHashes)))))) := by
  rw [hashParts_eq]
  simp only [List.append_assoc, List.cons_append, List.nil_append]

/-- Every attribute can be read back from the slice `parts`. -/
theorem partValue_hashParts (node : ASTNode) (childHashes : List String) :
    (hashParts node childHashes).get? 1 = some node.Type_ ∧
    partValue "name:" ((hashParts node childHashes).drop 2) =
      (if node.Name ≠ "" then some node.Name else none) ∧
    partValue "return:" ((hashParts node childHashes).drop 2) =
      (if node.ReturnType ≠ "" then some node.ReturnType else none) ∧
    partValue "op:" ((hashParts node childHashes).drop 2) =
      (if node.Operator ≠ "" then some node.Operator else none) ∧
    partValue "modifiers:" ((hashParts node childHashes).drop 2) =
      (if node.Modifiers.length > 0 then
        some (",".intercalate (sortStrings node.Modifiers)) else none) ∧
    partValue "params:" ((hashParts node childHashes).drop 2) =
      (if node.Parameters.length > 0 then
        some (",".intercalate (sortStrings (node.Parameters.map paramString))) else none) ∧
    partValue "children:" ((hashParts node childHashes).drop 2) =
      (if childHashes.length > 0 then some (",".intercalate childHashes) else none) := by
  rw [hashParts_drop]
  simp only [List.drop_succ_cons, List.drop_zero, partValue_labelled_append,
    partValue_labelled]
  refine ⟨rfl, ?_, ?_, ?_, ?_, ?_, ?_⟩ <;> simp

theorem eq_of_ite_some_eq {a b : String}
    (h : (if a ≠ "" then some a else none) = (if b ≠ "" then some b else none)) : a = b := by
  by_cases ha : a = ""
  · by_cases hb : b = ""
    · rw [ha, hb]
    · simp [ha, hb] at h
  · by_cases hb : b = ""
    · simp [ha, hb] at h
    · simpa [ha, hb] using h

/-- A comma-joined value read back from `parts` determines the joined list, when the
joined strings hold no comma. -/
theorem eq_of_ite_join_eq {l₁ l₂ : List String} (h₁ : ∀ s ∈ l₁, ',' ∉ s.data)
    (h₂ : ∀ s ∈ l₂, ',' ∉ s.data)
    (h : (if l₁.length > 0 then some (",".intercalate l₁) else none) =
      (if l₂.length > 0 then some (",".intercalate l₂) else none)) : l₁ = l₂ := by
  by_cases ha : l₁.length > 0
  · by_cases hb : l₂.length > 0
    · rw [if_pos ha, if_pos hb, Option.some.injEq] at h
      exact intercalate_injective ',' h₁ h₂ (List.length_pos.1 ha) (List.length_pos.1 hb) h
    · simp [ha, hb] at h
  · by_cases hb : l₂.length > 0
    · simp [ha, hb] at h
    · have e₁ : l₁ = [] := List.length_eq_zero.1 (Nat.eq_zero_of_not_pos ha)
      have e₂ : l₂ = [] := List.length_eq_zero.1 (Nat.eq_zero_of_not_pos hb)
      rw [e₁, e₂]

theorem sortStrings_length (l : List String) : (sortStrings l).length = l.length :=
  (List.perm_insertionSort _ l).length_eq

theorem mem_sortStrings {l : List String} {s : String} : s ∈ sortStrings l ↔ s ∈ l :=
  (List.perm_insertionSort _ l).mem_iff

theorem not_mem_paramString_data {c : Char} (hc : c ≠ ':') {p : Parameter}
    (h : c ∉ p.Type_.data ∧ c ∉ p.Name.data ∧ c ∉ p.ParamType.data) :
    c ∉ (paramString p).data := by
  rw [paramString_data]
  simp only [List.mem_append, List.mem_cons, not_or]
  refine ⟨h.1, hc, h.2.1, ?_⟩
  split
  · simp only [List.mem_cons, not_or]
    exact ⟨hc, h.2.2⟩
  · simp

/-- No part of a delimiter-free node holds the separator `|`. -/
theorem not_mem_bar_hashParts {node : ASTNode} {childHashes : List String}
    (h : DelimiterFree node childHashes) : ∀ s ∈ hashParts node childHashes, '|' ∉ s.data := by
  obtain ⟨hT, hN, hR, hO, hM, hP, hC⟩ := h
  have hjoin : ∀ l : List String, (∀ x ∈ l, '|' ∉ x.data) → '|' ∉ (",".intercalate l).data :=
    fun l hl => not_mem_intercalate_data (by decide) hl
  have hmods := hjoin (sortStrings node.Modifiers) (fun x hx => (hM x (mem_sortStrings.1 hx)).1)
  have hparams := hjoin (sortStrings (node.Parameters.map paramString)) (by
    intro x hx
    obtain ⟨p, hp, rfl⟩ := List.mem_map.1 (mem_sortStrings.1 hx)
    exact not_mem_paramString_data (by decide) (hP p hp).1)
  have hchildren := hjoin childHashes (fun x hx => (hC x hx).1)
  intro s hs
  rw [hashParts_drop] at hs
  simp only [labelled, List.mem_cons, List.mem_append] at hs
  rcases hs with rfl | rfl | hs | hs | hs | hs | hs | hs
  · decide
  · exact hT
  all_goals
    split at hs
    · simp only [List.mem_cons, List.mem_singleton, List.not_mem_nil, or_false] at hs
      rcases hs with rfl | rfl
      · decide
      · assumption
    · simp at hs

/-- The hash input determines the node up to the order of modifiers and parameters, and
the ordered child hashes, for delimiter-free nodes. -/
theorem hashInput_injective_of_delimiterFree {n₁ n₂ : ASTNode} {cs₁ cs₂ : List String}
    (h₁ : DelimiterFree n₁ cs₁) (h₂ : DelimiterFree n₂ cs₂)
    (h : hashInput n₁ cs₁ = hashInput n₂ cs₂) :
    n₁.Type_ = n₂.Type_ ∧ n₁.Name = n₂.Name ∧ n₁.ReturnType = n₂.ReturnType ∧
      n₁.Operator = n₂.Operator ∧ n₁.Modifiers.Perm n₂.Modifiers ∧
      n₁.Parameters.Perm n₂.Parameters ∧ cs₁ = cs₂ := by
  have hparts : hashParts n₁ cs₁ = hashParts n₂ cs₂ := by
    unfold hashInput at h
    refine intercalate_injective '|' (not_mem_bar_hashParts h₁) (not_mem_bar_hashParts h₂)
      ?_ ?_ h
    · rw [hashParts_drop]; simp
    · rw [hashParts_drop]; simp
  obtain ⟨a0, a1, a2, a3, a4, a5, a6⟩ := partValue_hashParts n₁ cs₁
  obtain ⟨b0, b1, b2, b3, b4, b5, b6⟩ := partValue_hashParts n₂ cs₂
  rw [hparts] at a0 a1 a2 a3 a4 a5 a6
  obtain ⟨-, -, -, -, hM₁, hP₁, hC₁⟩ := h₁
  obtain ⟨-, -, -, -, hM₂, hP₂, hC₂⟩ := h₂
  have hmods : sortStrings n₁.Modifiers = sortStrings n₂.Modifiers := by
    have := a4.symm.trans b4
    rw [← sortStrings_length n₁.Modifiers, ← sortStrings_length n₂.Modifiers] at this
    exact eq_of_ite_join_eq (fun s hs => (hM₁ s (mem_sortStrings.1 hs)).2)
      (fun s hs => (hM₂ s (mem_sortStrings.1 hs)).2) this
  have hcomma : ∀ (n : ASTNode), (∀ p ∈ n.Parameters,
      ('|' ∉ p.Type_.data ∧ '|' ∉ p.Name.data ∧ '|' ∉ p.ParamType.data) ∧
      (',' ∉ p.Type_.data ∧ ',' ∉ p.Name.data ∧ ',' ∉ p.ParamType.data) ∧
      (':' ∉ p.Type_.data ∧ ':' ∉ p.Name.data)) →
      ∀ s ∈ sortStrings (n.Parameters.map paramString), ',' ∉ s.data := by
    intro n hn s hs
    obtain ⟨p, hp, rfl⟩ := List.mem_map.1 (mem_sortStrings.1 hs)
    exact not_mem_paramString_data (by decide) (hn p hp).2.1
  have hparams : sortStrings (n₁.Parameters.map paramString) =
      sortStrings (n₂.Parameters.map paramString) := by
    have := a5.symm.trans b5
    rw [← List.length_map n₁.Parameters paramString, ← List.length_map n₂.Parameters paramString,
      ← sortStrings_length (n₁.Parameters.map paramString),
      ← sortStrings_length (n₂.Parameters.map paramString)] at this
    exact eq_of_ite_join_eq (hcomma n₁ hP₁) (hcomma n₂ hP₂) this
  refine ⟨?_, eq_of_ite_some_eq (a1.symm.trans b1), eq_of_ite_some_eq (a2.symm.trans b2),
    eq_of_ite_some_eq (a3.symm.trans b3), ?_, ?_, ?_⟩
  · simpa using a0.symm.trans b0
  · exact ((List.perm_insertionSort _ n₁.Modifiers).symm.trans
      (by unfold sortStrings at hmods; rw [hmods])).trans (List.perm_insertionSort _ n₂.Modifiers)
  · apply perm_of_map_perm paramString
    · intro p hp q hq hpq
      exact paramString_injective (hP₁ p hp).2.2 (hP₂ q hq).2.2 hpq
    · exact ((List.perm_insertionSort _ _).symm.trans
        (by unfold sortStrings at hparams; rw [hparams])).trans (List.perm_insertionSort _ _)
  · exact eq_of_ite_join_eq (fun s hs => (hC₁ s hs).2) (fun s hs => (hC₂ s hs).2)
      (a6.symm.trans b6)

/-- The injectivity above on the five-node example AST and its copy with the root's
modifiers swapped, with one child digest. -/
theorem hashInput_injective_of_delimiterFree_witness :
    DelimiterFree exampleAST [digestA] ∧ DelimiterFree exampleASTPermuted [digestA] ∧
    hashInput exampleAST [digestA] = hashInput exampleASTPermuted [digestA] ∧
    exampleAST.Modifiers.Perm exampleASTPermuted.Modifiers :=
  have h₁ : DelimiterFree exampleAST [digestA] := by
    unfold DelimiterFree
    decide
  have h₂ : DelimiterFree exampleASTPermuted [digestA] := by
    unfold DelimiterFree
    decide
  have h : hashInput exampleAST [digestA] = hashInput exampleASTPermuted [digestA] := by
    unfold hashInput
    rw [hashParts_congr exampleAST exampleASTPermuted rfl rfl rfl rfl
      (List.Perm.swap _ _ _) (List.Perm.refl _)]
  ⟨h₁, h₂, h, (hashInput_injective_of_delimiterFree h₁ h₂ h).2.2.2.2.1⟩

/-- C13 fails on attribute values that hold the delimiter `|`. A literal node with the
name `x|op:|+` and a node of the same type with the name `x` and the operator `+` build
the same hash input, hence have the same node hash under every digest function, although
their names and their operators differ. -/
theorem hashInput_delimiter_collision :
    hashInput exampleLiteralWithBar [] = "type:|Literal|name:|x|op:|+" ∧
    hashInput exampleLiteralWithOperator [] = "type:|Literal|name:|x|op:|+" ∧
    (∀ H : String → String,
      computeNodeHash H (some exampleLiteralWithBar) [] =
        computeNodeHash H (some exampleLiteralWithOperator) []) ∧
    exampleLiteralWithBar.Name ≠ exampleLiteralWithOperator.Name ∧
    exampleLiteralWithBar.Operator ≠ exampleLiteralWithOperator.Operator := by
  have h₁ : hashInput exampleLiteralWithBar [] = "type:|Literal|name:|x|op:|+" := by decide
  have h₂ : hashInput exampleLiteralWithOperator [] = "type:|Literal|name:|x|op:|+" := by
    decide
  refine ⟨h₁, h₂, fun H => ?_, by decide, by decide⟩
  simp only [computeNodeHash, h₁, h₂]

/-! ## Injectivity of the pair key -/

theorem getPairKey_data (a b : String) :
    (getPairKey a b).data =
      if a < b then a.data ++ ':' :: b.data else b.data ++ ':' :: a.data := by
  unfold getPairKey
  split <;> simp [String.data_append]

/-- On attempt IDs without a colon the pair key identifies the unordered pair. -/
theorem getPairKey_injective_of_no_colon {a b c d : String} (ha : ':' ∉ a.data)
    (hb : ':' ∉ b.data) (hc : ':' ∉ c.data) (hd : ':' ∉ d.data)
    (h : getPairKey a b = getPairKey c d) : (a = c ∧ b = d) ∨ (a = d ∧ b = c) := by
  have hdata := congrArg String.data h
  rw [getPairKey_data, getPairKey_data] at hdata
  by_cases h₁ : a < b
  · by_cases h₂ : c < d
    · rw [if_pos h₁, if_pos h₂] at hdata
      obtain ⟨e₁, e₂⟩ := append_cons_inj_of_not_mem ha hc hdata
      exact Or.inl ⟨String.ext e₁, String.ext e₂⟩
    · rw [if_pos h₁, if_neg h₂] at hdata
      obtain ⟨e₁, e₂⟩ := append_cons_inj_of_not_mem ha hd hdata
      exact Or.inr ⟨String.ext e₁, String.ext e₂⟩
  · by_cases h₂ : c < d
    · rw [if_neg h₁, if_pos h₂] at hdata
      obtain ⟨e₁, e₂⟩ := append_cons_inj_of_not_mem hb hc hdata
      exact Or.inr ⟨String.ext e₂, String.ext e₁⟩
    · rw [if_neg h₁, if_neg h₂] at hdata
      obtain ⟨e₁, e₂⟩ := append_cons_inj_of_not_mem hb hd hdata
      exact Or.inl ⟨String.ext e₂, String.ext e₁⟩

theorem pairKeyInjectiveOn_of_no_colon {ids : List String} (h : ∀ a ∈ ids, ':' ∉ a.data) :
    PairKeyInjectiveOn ids :=
  fun a ha b hb c hc d hd hk =>
    getPairKey_injective_of_no_colon (h a ha) (h b hb) (h c hc) (h d hd) hk

/-- On the scenario S3 input: the IDs hold no colon, so the key is injective on them. -/
theorem pairKeyInjectiveOn_of_no_colon_witness :
    (∀ a ∈ [boundaryA, boundaryB].map Artifact.AttemptID, ':' ∉ a.data) ∧
    PairKeyInjectiveOn ([boundaryA, boundaryB].map Artifact.AttemptID) :=
  ⟨by decide, pairKeyInjectiveOn_of_no_colon (by decide)⟩

/-- C21 fails on attempt IDs that hold a colon. The pairs `{a, b:c}` and `{a:b, c}` are
different unordered pairs with the same pair key `a:b:c`; on the four attempts `a`,
`b:c`, `a:b`, `c`, where the first two share hash `h1` and the last two hash `h2`, the
selector adds the shared hashes of both pairs into the one counter of that key. -/
theorem getPairKey_not_injective :
    getPairKey "a" "b:c" = "a:b:c" ∧
    getPairKey "a:b" "c" = "a:b:c" ∧
    ¬ (("a" = "a:b" ∧ "b:c" = "c") ∨ ("a" = "c" ∧ "b:c" = "a:b")) ∧
    ¬ PairKeyInjectiveOn (collidingArtifacts.map Artifact.AttemptID) ∧
    (visitedPairs (BuildGII collidingArtifacts) collidingArtifacts).map
        (fun p => (p.1.AttemptID, p.2.AttemptID)) = [("a", "b:c"), ("a:b", "c")] ∧
    (GetWorthyPairs.counts (BuildGII collidingArtifacts) collidingArtifacts).1 =
      [("a:b:c", 2)] := by
  have h₁ : getPairKey "a" "b:c" = "a:b:c" := by decide!
  have h₂ : getPairKey "a:b" "c" = "a:b:c" := by decide!
  refine ⟨h₁, h₂, by decide, ?_, by decide!, by decide!⟩
  intro hinj
  have := hinj "a" (by decide) "b:c" (by decide) "a:b" (by decide) "c" (by decide)
    (h₁.trans h₂.symm)
  revert this
  decide

/-! ## A fragment of an AST -/

mutual
theorem subtreeNodes_subset (b : ASTNode) :
    ∀ a : ASTNode, b ∈ subtreeNodes a → ∀ x ∈ subtreeNodes b, x ∈ subtreeNodes a
  | ⟨t, nm, rt, op, ms, ps, children⟩, hb, x, hx => by
    rw [subtreeNodes] at hb ⊢
    rcases List.mem_append.1 hb with h | h
    · exact List.mem_append_left _ (subtreeNodes_children_subset b children h x hx)
    · rw [List.mem_singleton] at h
      subst h
      rw [subtreeNodes] at hx
      exact hx
theorem subtreeNodes_children_subset (b : ASTNode) :
    ∀ cs : List (Option ASTNode), b ∈ subtreeNodes.children cs →
      ∀ x ∈ subtreeNodes b, x ∈ subtreeNodes.children cs
  | [], hb, _, _ => by
    rw [subtreeNodes.children] at hb
    exact absurd hb (List.not_mem_nil _)
  | c :: rest, hb, x, hx => by
    rw [subtreeNodes.children] at hb ⊢
    rcases List.mem_append.1 hb with h | h
    · exact List.mem_append_left _ (subtreeNodes_child_subset b c h x hx)
    · exact List.mem_append_right _ (subtreeNodes_children_subset b rest h x hx)
theorem subtreeNodes_child_subset (b : ASTNode) :
    ∀ c : Option ASTNode, b ∈ subtreeNodes.child c →
      ∀ x ∈ subtreeNodes b, x ∈ subtreeNodes.child c
  | none, hb, _, _ => by
    rw [subtreeNodes.child] at hb
    exact absurd hb (List.not_mem_nil _)
  | some n, hb, x, hx => by
    rw [subtreeNodes.child] at hb ⊢
    exact subtreeNodes_subset b n hb x hx
end

theorem mem_subtreeHashSet_iff (H : String → String) (root : ASTNode) (h : String) :
    h ∈ subtreeHashSet H (some root) ↔ ∃ n ∈ subtreeNodes root, merkle H n = h := by
  have hk := insertAll_keys [] ((subtreeNodes root).map (merkle H)) (by simp [GoMap.keys])
  rw [← buildSubtreeHashes_eq_insertAll] at hk
  rw [subtreeHashSet, List.mem_toFinset, hk.2.1]
  simp [GoMap.keys]

/-- The subtree hashes of a fragment are among the subtree hashes of the whole tree. -/
theorem subtreeHashSet_subset_of_mem (H : String → String) {a b : ASTNode}
    (hb : b ∈ subtreeNodes a) : subtreeHashSet H (some b) ⊆ subtreeHashSet H (some a) := by
  intro h hh
  rw [mem_subtreeHashSet_iff] at hh ⊢
  obtain ⟨n, hn, rfl⟩ := hh
  exact ⟨n, subtreeNodes_subset b a hb n hn, rfl⟩

/-- C22. When the AST of `B` is, as a tree, the subtree rooted at some node of the AST
of `A`, the AST score of the pair is exactly 1 in both orders, however many more nodes
the AST of `A` has. -/
theorem ASTSimilarity_fragment_eq_one (H : String → String) (A B : Artifact)
    (astA astB : ASTNode) (hA : A.AST = some astA) (hB : B.AST = some astB)
    (hfragment : astB ∈ subtreeNodes astA) :
    ASTSimilarity H A B = 1 ∧ ASTSimilarity H B A = 1 := by
  have hsub := subtreeHashSet_subset_of_mem H hfragment
  have hcard : (subtreeHashSet H (some astB)).card ≠ 0 := by
    rw [Ne, Finset.card_eq_zero]
    exact subtreeHashSet_some_ne_empty H astB
  have hle := Finset.card_le_card hsub
  have hone : (((subtreeHashSet H (some astB)).card : ℕ) : ℚ) /
      (((subtreeHashSet H (some astB)).card : ℕ) : ℚ) = 1 :=
    div_self (Nat.cast_ne_zero.2 hcard)
  constructor
  · rw [ASTSimilarity_of_some H A B astA astB hA hB, Finset.inter_eq_right.2 hsub,
      min_eq_right hle]
    exact hone
  · rw [ASTSimilarity_of_some H B A astB astA hB hA, Finset.inter_eq_left.2 hsub,
      min_eq_left hle]
    exact hone

theorem exampleFragment_mem : exampleFragment ∈ subtreeNodes exampleAST := by
  simp [exampleAST, exampleFragment, exampleLeaf, subtreeNodes, subtreeNodes.children,
    subtreeNodes.child]

/-- C22 on the five-node example AST and its three-node fragment `BinaryExpr`. -/
theorem ASTSimilarity_fragment_eq_one_witness :
    fragmentWhole.AST = some exampleAST ∧ fragmentPart.AST = some exampleFragment ∧
    exampleFragment ∈ subtreeNodes exampleAST ∧
    ASTSimilarity (fun s => s) fragmentWhole fragmentPart = 1 ∧
    ASTSimilarity (fun s => s) fragmentPart fragmentWhole = 1 :=
  ⟨rfl, rfl, exampleFragment_mem,
    ASTSimilarity_fragment_eq_one (fun s => s) fragmentWhole fragmentPart exampleAST
      exampleFragment rfl rfl exampleFragment_mem⟩

/-- The selector meets the spec on attempt IDs without a colon: with pairwise distinct,
colon-free attempt IDs the pair of two artifacts of the list is emitted exactly when it
is worthy in the words of the spec. -/
theorem GetWorthyPairs_iff_of_no_colon (artifacts : List Artifact)
    (hid : (artifacts.map Artifact.AttemptID).Nodup)
    (hcolon : ∀ a ∈ artifacts.map Artifact.AttemptID, ':' ∉ a.data) (difficulty : String)
    (gii : GII) (hgii : gii.Perm (BuildGII artifacts)) (A B : Artifact) (hA : A ∈ artifacts)
    (hB : B ∈ artifacts) (hAB : A.AttemptID ≠ B.AttemptID) :
    EmitsPair (GetWorthyPairs gii artifacts difficulty) A B ↔ WorthySpec A B difficulty :=
  GetWorthyPairs_iff_of_injective_pairKey artifacts hid (pairKeyInjectiveOn_of_no_colon hcolon)
    difficulty gii hgii A B hA hB hAB

/-- The statement above on the two artifacts of scenario S2, at difficulty hard. -/
theorem GetWorthyPairs_iff_of_no_colon_witness :
    ([identicalA, identicalB].map Artifact.AttemptID).Nodup ∧
    (∀ a ∈ [identicalA, identicalB].map Artifact.AttemptID, ':' ∉ a.data) ∧
    (EmitsPair (GetWorthyPairs (BuildGII [identicalA, identicalB]) [identicalA, identicalB] "hard")
        identicalA identicalB ↔ WorthySpec identicalA identicalB "hard") :=
  ⟨by decide, by decide,
    GetWorthyPairs_iff_of_no_colon [identicalA, identicalB] (by decide) (by decide) "hard" _
      (List.Perm.refl _) identicalA identicalB (by simp) (by simp) (by decide)⟩

/-! ## Parsing a stream message -/

/-- The result of `ParseSubmission` when `qId` is non-empty and parses to `qid`: the
first empty required field decides the error. -/
theorem ParseSubmission_of_parsed (parseInt : String → Except String Int) (msg : StreamMessage)
    {qid : Int} (hq : msg.Fields.index "qId" ≠ "")
    (hp : parseInt (msg.Fields.index "qId") = Except.ok qid) :
    ParseSubmission parseInt msg =
      if msg.Fields.index "attemptId" = "" then
        Except.error (ParseError.ErrMissingField "attemptId")
      else if msg.Fields.index "sourceCode" = "" then
        Except.error (ParseError.ErrMissingField "sourceCode")
      else if msg.Fields.index "email" = "" then
        Except.error (ParseError.ErrMissingField "email")
      else if msg.Fields.index "driveId" = "" then
        Except.error (ParseError.ErrMissingField "driveId")
      else
        Except.ok
          { AttemptID := msg.Fields.index "attemptId"
            SourceCode := msg.Fields.index "sourceCode"
            Language := msg.Fields.index "language"
            LangCode := msg.Fields.index "langCode"
            Email := msg.Fields.index "email"
            TestID := msg.Fields.index "testId"
            DriveID := msg.Fields.index "driveId"
            Difficulty := msg.Fields.index "difficulty"
            QID := qid } := by
  unfold ParseSubmission
  simp only [if_neg hq, hp]

theorem ParseSubmission_of_empty_qId (parseInt : String → Except String Int)
    (msg : StreamMessage) (hq : msg.Fields.index "qId" = "") :
    ParseSubmission parseInt msg = Except.error (ParseError.ErrMissingField "qId") := by
  unfold ParseSubmission
  simp only [if_pos hq]

theorem ParseSubmission_of_numError (parseInt : String → Except String Int)
    (msg : StreamMessage) {err : String} (hq : msg.Fields.index "qId" ≠ "")
    (hp : parseInt (msg.Fields.index "qId") = Except.error err) :
    ParseSubmission parseInt msg = Except.error (ParseError.numError err) := by
  unfold ParseSubmission
  simp only [if_neg hq, hp]

/-- C23. `ParseSubmission` returns a submission exactly when `qId` is non-empty and
parses as an integer and `attemptId`, `sourceCode`, `email` and `driveId` are non-empty.
On success `QID` is the parsed integer and the other fields are the message fields. When
`qId` is a valid integer and a required field is empty, the error is `ErrMissingField`
of the first empty field in the order `attemptId`, `sourceCode`, `email`, `driveId`. -/
theorem ParseSubmission_spec (parseInt : String → Except String Int) (msg : StreamMessage) :
    ((∃ s, ParseSubmission parseInt msg = Except.ok s) ↔ ValidMessage parseInt msg) ∧
    (∀ s, ParseSubmission parseInt msg = Except.ok s →
      parseInt (msg.Fields.index "qId") = Except.ok s.QID ∧
      s.AttemptID = msg.Fields.index "attemptId" ∧
      s.SourceCode = msg.Fields.index "sourceCode" ∧
      s.Language = msg.Fields.index "language" ∧
      s.LangCode = msg.Fields.index "langCode" ∧
      s.Email = msg.Fields.index "email" ∧
      s.TestID = msg.Fields.index "testId" ∧
      s.DriveID = msg.Fields.index "driveId" ∧
      s.Difficulty = msg.Fields.index "difficulty") ∧
    (∀ qid, msg.Fields.index "qId" ≠ "" →
      parseInt (msg.Fields.index "qId") = Except.ok qid →
      (msg.Fields.index "attemptId" = "" →
        ParseSubmission parseInt msg = Except.error (ParseError.ErrMissingField "attemptId")) ∧
      (msg.Fields.index "attemptId" ≠ "" → msg.Fields.index "sourceCode" = "" →
        ParseSubmission parseInt msg = Except.error (ParseError.ErrMissingField "sourceCode")) ∧
      (msg.Fields.index "attemptId" ≠ "" → msg.Fields.index "sourceCode" ≠ "" →
        msg.Fields.index "email" = "" →
        ParseSubmission parseInt msg = Except.error (ParseError.ErrMissingField "email")) ∧
      (msg.Fields.index "attemptId" ≠ "" → msg.Fields.index "sourceCode" ≠ "" →
        msg.Fields.index "email" ≠ "" → msg.Fields.index "driveId" = "" →
        ParseSubmission parseInt msg = Except.error (ParseError.ErrMissingField "driveId"))) := by
  have hok : ∀ s, ParseSubmission parseInt msg = Except.ok s →
      ValidMessage parseInt msg ∧
      parseInt (msg.Fields.index "qId") = Except.ok s.QID ∧
      s.AttemptID = msg.Fields.index "attemptId" ∧
      s.SourceCode = msg.Fields.index "sourceCode" ∧
      s.Language = msg.Fields.index "language" ∧
      s.LangCode = msg.Fields.index "langCode" ∧
      s.Email = msg.Fields.index "email" ∧
      s.TestID = msg.Fields.index "testId" ∧
      s.DriveID = msg.Fields.index "driveId" ∧
      s.Difficulty = msg.Fields.index "difficulty" := by
    intro s hs
    by_cases hq : msg.Fields.index "qId" = ""
    · rw [ParseSubmission_of_empty_qId parseInt msg hq] at hs
      exact absurd hs (by simp)
    · cases hp : parseInt (msg.Fields.index "qId") with
      | error err =>
        rw [ParseSubmission_of_numError parseInt msg hq hp] at hs
        exact absurd hs (by simp)
      | ok qid =>
        rw [ParseSubmission_of_parsed parseInt msg hq hp] at hs
        split_ifs at hs with h1 h2 h3 h4
        simp only [Except.ok.injEq] at hs
        subst hs
        exact ⟨⟨hq, ⟨qid, hp⟩, h1, h2, h3, h4⟩, rfl, rfl, rfl, rfl, rfl, rfl, rfl, rfl, rfl⟩
  refine ⟨⟨fun ⟨s, hs⟩ => (hok s hs).1, ?_⟩, fun s hs => (hok s hs).2, ?_⟩
  · rintro ⟨hq, ⟨qid, hp⟩, h1, h2, h3, h4⟩
    rw [ParseSubmission_of_parsed parseInt msg hq hp, if_neg h1, if_neg h2, if_neg h3, if_neg h4]
    exact ⟨_, rfl⟩
  · intro qid hq hp
    rw [ParseSubmission_of_parsed parseInt msg hq hp]
    refine ⟨fun h1 => ?_, fun h1 h2 => ?_, fun h1 h2 h3 => ?_, fun h1 h2 h3 h4 => ?_⟩
    · rw [if_pos h1]
    · rw [if_neg h1, if_pos h2]
    · rw [if_neg h1, if_neg h2, if_pos h3]
    · rw [if_neg h1, if_neg h2, if_neg h3, if_pos h4]

/-- C23 on a complete message, and on a message that lacks `sourceCode` and `email`:
the error names `sourceCode`, the first of the two. -/
theorem ParseSubmission_spec_witness :
    ValidMessage decimalParseInt exampleMessage ∧
    (∃ s, ParseSubmission decimalParseInt exampleMessage = Except.ok s) ∧
    ParseSubmission decimalParseInt exampleMessage =
      Except.ok ⟨"a1", "print(1)", "python", "py", "a@example.org", "t1", "d1", "easy", 42⟩ ∧
    exampleMessageMissing.Fields.index "qId" ≠ "" ∧
    decimalParseInt (exampleMessageMissing.Fields.index "qId") = Except.ok 42 ∧
    exampleMessageMissing.Fields.index "attemptId" ≠ "" ∧
    exampleMessageMissing.Fields.index "sourceCode" = "" ∧
    exampleMessageMissing.Fields.index "email" = "" ∧
    ParseSubmission decimalParseInt exampleMessageMissing =
      Except.error (ParseError.ErrMissingField "sourceCode") :=
  have hv : ValidMessage decimalParseInt exampleMessage :=
    ⟨by decide, ⟨42, rfl⟩, by decide, by decide, by decide, by decide⟩
  ⟨hv, (ParseSubmission_spec decimalParseInt exampleMessage).1.2 hv, rfl, by decide, rfl,
    by decide, by decide, by decide,
    ((ParseSubmission_spec decimalParseInt exampleMessageMissing).2.2 42 (by decide) rfl).2.1
      (by decide) (by decide)⟩

/-! ## The range order of the index and colliding pair keys -/

/-- An emitted pair of attempt IDs is an emitted pair of artifacts of the list. -/
theorem emitsPair_of_mem_pairIDs {arts : List Artifact}
    (hid : (arts.map Artifact.AttemptID).Nodup) {g : GII} (hg : g.Perm (BuildGII arts))
    (d : String) {A B : Artifact} (hA : A ∈ arts) (hB : B ∈ arts)
    (h : (A.AttemptID, B.AttemptID) ∈ pairIDs (GetWorthyPairs g arts d)) :
    EmitsPair (GetWorthyPairs g arts d) A B := by
  unfold pairIDs at h
  obtain ⟨q, hq, hqid⟩ := List.mem_map.1 h
  simp only [Prod.mk.injEq] at hqid
  refine ⟨q, hq, Or.inl ?_⟩
  rw [mem_GetWorthyPairs_iff] at hq
  obtain ⟨p, hf, rfl, -⟩ := hq
  obtain ⟨-, h1, h2, -, -⟩ := mem_visitedPairs_BuildGII hid hg (List.mem_of_find?_eq_some hf)
  exact ⟨List.inj_on_of_nodup_map hid h1 hA hqid.1, List.inj_on_of_nodup_map hid h2 hB hqid.2⟩

theorem WorthySpec_of_le {A B : Artifact} {d d' : String}
    (hle : getWorthyThreshold d' ≤ getWorthyThreshold d) (h : WorthySpec A B d) :
    WorthySpec A B d' :=
  ⟨h.1, h.2.1, h.2.2.1, h.2.2.2.1, le_trans hle h.2.2.2.2⟩

/-- With an injective pair key, a pair emitted at a difficulty is emitted at every
difficulty with a lower threshold, in whatever order each of the two calls ranges over
the index map. -/
theorem GetWorthyPairs_emitted_of_le_of_injective_pairKey (artifacts : List Artifact)
    (hid : (artifacts.map Artifact.AttemptID).Nodup)
    (hinj : PairKeyInjectiveOn (artifacts.map Artifact.AttemptID)) {d d' : String}
    (hle : getWorthyThreshold d' ≤ getWorthyThreshold d) (g g' : GII)
    (hg : g.Perm (BuildGII artifacts)) (hg' : g'.Perm (BuildGII artifacts)) :
    ∀ q ∈ GetWorthyPairs g artifacts d,
      EmitsPair (GetWorthyPairs g' artifacts d') q.ArtifactA q.ArtifactB := by
  intro q hq
  have hq' := hq
  rw [mem_GetWorthyPairs_iff] at hq'
  obtain ⟨p, hf, rfl, -⟩ := hq'
  have hp := List.mem_of_find?_eq_some hf
  obtain ⟨-, h1, h2, -, -⟩ := mem_visitedPairs_BuildGII hid hg hp
  have hne := ne_of_mem_visitedPairs hid hg hp
  have hemit : EmitsPair (GetWorthyPairs g artifacts d) p.1 p.2 :=
    ⟨⟨p.1, p.2⟩, hq, Or.inl ⟨rfl, rfl⟩⟩
  have hw := (GetWorthyPairs_iff_of_injective_pairKey artifacts hid hinj d g hg p.1 p.2 h1 h2
    hne).1 hemit
  exact (GetWorthyPairs_iff_of_injective_pairKey artifacts hid hinj d' g' hg' p.1 p.2 h1 h2
    hne).2 (WorthySpec_of_le hle hw)

/-- The statement above on scenario S3, from easy to hard, with the two calls ranging
over the index in opposite orders. -/
theorem GetWorthyPairs_emitted_of_le_of_injective_pairKey_witness :
    ([boundaryA, boundaryB].map Artifact.AttemptID).Nodup ∧
    PairKeyInjectiveOn ([boundaryA, boundaryB].map Artifact.AttemptID) ∧
    getWorthyThreshold "hard" ≤ getWorthyThreshold "easy" ∧
    ∀ q ∈ GetWorthyPairs (BuildGII [boundaryA, boundaryB]) [boundaryA, boundaryB] "easy",
      EmitsPair (GetWorthyPairs (BuildGII [boundaryA, boundaryB]).reverse
        [boundaryA, boundaryB] "hard") q.ArtifactA q.ArtifactB :=
  have hid : ([boundaryA, boundaryB].map Artifact.AttemptID).Nodup := by decide
  have hinj : PairKeyInjectiveOn ([boundaryA, boundaryB].map Artifact.AttemptID) :=
    pairKeyInjectiveOn_of_no_colon (by decide)
  have hle : getWorthyThreshold "hard" ≤ getWorthyThreshold "easy" := by
    rw [getWorthyThreshold_easy, getWorthyThreshold_hard]
    norm_num
  ⟨hid, hinj, hle,
    GetWorthyPairs_emitted_of_le_of_injective_pairKey [boundaryA, boundaryB] hid hinj hle _ _
      (List.Perm.refl _) (List.reverse_perm _)⟩

/-- C3 fails on attempt IDs with colliding pair keys. The index of the four attempts `a`,
`b:c`, `a:b`, `c` has the two entries `h1` and `h2`, and a Go map is ranged over in an
order of its own at every call. The call at easy that meets `h1` first emits the pair
`{a, b:c}`; the calls at medium and at hard that meet `h2` first emit `{a:b, c}` and do
not emit `{a, b:c}`: a pair worthy at easy is not worthy at medium and hard, although the
thresholds decrease. -/
theorem GetWorthyPairs_threshold_not_monotone_on_collision :
    (collidingArtifacts.map Artifact.AttemptID).Nodup ∧
    (BuildGII collidingArtifacts).reverse.Perm (BuildGII collidingArtifacts) ∧
    BuildGII collidingArtifacts = [("h1", ["a", "b:c"]), ("h2", ["a:b", "c"])] ∧
    getWorthyThreshold "easy" > getWorthyThreshold "medium" ∧
    getWorthyThreshold "medium" > getWorthyThreshold "hard" ∧
    pairIDs (GetWorthyPairs (BuildGII collidingArtifacts) collidingArtifacts "easy") =
      [("a", "b:c")] ∧
    pairIDs (GetWorthyPairs (BuildGII collidingArtifacts).reverse collidingArtifacts "medium") =
      [("a:b", "c")] ∧
    pairIDs (GetWorthyPairs (BuildGII collidingArtifacts).reverse collidingArtifacts "hard") =
      [("a:b", "c")] ∧
    EmitsPair (GetWorthyPairs (BuildGII collidingArtifacts) collidingArtifacts "easy")
      collidingA collidingBC ∧
    ¬ EmitsPair (GetWorthyPairs (BuildGII collidingArtifacts).reverse collidingArtifacts "medium")
      collidingA collidingBC ∧
    ¬ EmitsPair (GetWorthyPairs (BuildGII collidingArtifacts).reverse collidingArtifacts "hard")
      collidingA collidingBC := by
  have hid : (collidingArtifacts.map Artifact.AttemptID).Nodup := by decide
  have he : pairIDs (GetWorthyPairs (BuildGII collidingArtifacts) collidingArtifacts "easy") =
      [("a", "b:c")] := by decide!
  have hm : pairIDs (GetWorthyPairs (BuildGII collidingArtifacts).reverse collidingArtifacts
      "medium") = [("a:b", "c")] := by decide!
  have hh : pairIDs (GetWorthyPairs (BuildGII collidingArtifacts).reverse collidingArtifacts
      "hard") = [("a:b", "c")] := by decide!
  have h1 : getWorthyThreshold "medium" < getWorthyThreshold "easy" := by
    rw [getWorthyThreshold_easy, getWorthyThreshold_medium]; norm_num
  have h2 : getWorthyThreshold "hard" < getWorthyThreshold "medium" := by
    rw [getWorthyThreshold_hard, getWorthyThreshold_medium]; norm_num
  refine ⟨hid, List.reverse_perm _, by decide, h1, h2, he, hm, hh, ?_, ?_, ?_⟩
  · apply emitsPair_of_mem_pairIDs hid (List.Perm.refl _) "easy"
      (List.mem_cons_self _ _) (List.mem_cons_of_mem _ (List.mem_cons_self _ _))
    rw [he]
    decide
  · apply not_emitsPair_of_pairIDs
    rw [hm]
    decide
  · apply not_emitsPair_of_pairIDs
    rw [hh]
    decide

/-- The shared count of two artifacts of the list, under an injective pair key: the
number of hashes they share, and no counter at all when they share none. -/
theorem counts_get?_of_injective_pairKey (artifacts : List Artifact)
    (hid : (artifacts.map Artifact.AttemptID).Nodup)
    (hinj : PairKeyInjectiveOn (artifacts.map Artifact.AttemptID)) (gii : GII)
    (hgii : gii.Perm (BuildGII artifacts)) (A B : Artifact) (hA : A ∈ artifacts)
    (hB : B ∈ artifacts) (hAB : A.AttemptID ≠ B.AttemptID) :
    (GetWorthyPairs.counts gii artifacts).1.get? (getPairKey A.AttemptID B.AttemptID) =
      if (fingerprintSet A ∩ fingerprintSet B).card = 0 then none
      else some (fingerprintSet A ∩ fingerprintSet B).card := by
  have hcount : (visitedPairs gii artifacts).countP
      (fun x => decide (pairKeyOf x = getPairKey A.AttemptID B.AttemptID)) =
      (fingerprintSet A ∩ fingerprintSet B).card := by
    unfold visitedPairs
    rw [countP_visitedPairs hid hinj hA hB hAB gii (fun e he => hgii.mem_iff.1 he),
      countP_shared_eq_card_inter hid hA hB hAB hgii]
  rw [counts_eq]
  have := (foldl_pairStep_spec (visitedPairs gii artifacts)).1
    (getPairKey A.AttemptID B.AttemptID)
  rw [hcount] at this
  exact this

/-- With an injective pair key, two artifacts of any list that have distinct attempt IDs
and the same non-empty set of fingerprint hashes are emitted at every difficulty, in
whatever order the index map is ranged over, and the overlap computed from their shared
count is exactly 1. -/
theorem GetWorthyPairs_identical_of_injective_pairKey (artifacts : List Artifact)
    (hid : (artifacts.map Artifact.AttemptID).Nodup)
    (hinj : PairKeyInjectiveOn (artifacts.map Artifact.AttemptID)) (difficulty : String)
    (gii : GII) (hgii : gii.Perm (BuildGII artifacts)) (A B : Artifact) (hA : A ∈ artifacts)
    (hB : B ∈ artifacts) (hAB : A.AttemptID ≠ B.AttemptID)
    (hsame : ∀ h, hasHash A h = hasHash B h) (hnonempty : ∃ h, hasHash A h = true) :
    EmitsPair (GetWorthyPairs gii artifacts difficulty) A B ∧
    ∃ sharedCount,
      (GetWorthyPairs.counts gii artifacts).1.get? (getPairKey A.AttemptID B.AttemptID) =
        some sharedCount ∧
      calculateOverlap A B sharedCount = 1 := by
  obtain ⟨h₀, hh₀⟩ := hnonempty
  have hB₀ : hasHash B h₀ = true := by rw [← hsame]; exact hh₀
  have hset : fingerprintSet B = fingerprintSet A := by
    ext h
    rw [mem_fingerprintSet_iff, mem_fingerprintSet_iff, hsame]
  have hneA : fingerprintSet A ≠ ∅ := by
    intro h0
    have := (mem_fingerprintSet_iff A h₀).2 hh₀
    rw [h0] at this
    simp at this
  have hcard : (fingerprintSet A).card ≠ 0 := by
    rwa [Ne, Finset.card_eq_zero]
  have hsomeA : A.Fingerprints.isSome = true := by
    cases hfp : A.Fingerprints with
    | none => simp [hasHash, hfp] at hh₀
    | some fp => rfl
  have hsomeB : B.Fingerprints.isSome = true := by
    cases hfp : B.Fingerprints with
    | none => simp [hasHash, hfp] at hB₀
    | some fp => rfl
  have hone : (((fingerprintSet A).card : ℕ) : ℚ) / (((fingerprintSet A).card : ℕ) : ℚ) = 1 :=
    div_self (Nat.cast_ne_zero.2 hcard)
  constructor
  · rw [GetWorthyPairs_iff_of_injective_pairKey artifacts hid hinj difficulty gii hgii A B hA hB
      hAB]
    refine ⟨hsomeA, hsomeB, hneA, by rw [hset]; exact hneA, ?_⟩
    unfold overlapRatio
    rw [hset, Finset.inter_self, min_self, hone]
    exact getWorthyThreshold_le_one _
  · refine ⟨(fingerprintSet A).card, ?_, ?_⟩
    · rw [counts_get?_of_injective_pairKey artifacts hid hinj gii hgii A B hA hB hAB, hset,
        Finset.inter_self, if_neg hcard]
    · rw [calculateOverlap_eq, if_pos ⟨hsomeA, hsomeB, hneA, by rw [hset]; exact hneA⟩, hset,
        min_self]
      exact hone

/-- The statement above on three attempts, two of which hold the same hashes. -/
theorem GetWorthyPairs_identical_of_injective_pairKey_witness :
    ([identicalA, identicalB, identicalThird].map Artifact.AttemptID).Nodup ∧
    PairKeyInjectiveOn ([identicalA, identicalB, identicalThird].map Artifact.AttemptID) ∧
    identicalA.AttemptID ≠ identicalB.AttemptID ∧
    (∀ h, hasHash identicalA h = hasHash identicalB h) ∧
    (∃ h, hasHash identicalA h = true) ∧
    EmitsPair (GetWorthyPairs (BuildGII [identicalA, identicalB, identicalThird])
      [identicalA, identicalB, identicalThird] "easy") identicalA identicalB :=
  have hid : ([identicalA, identicalB, identicalThird].map Artifact.AttemptID).Nodup := by decide
  have hinj : PairKeyInjectiveOn ([identicalA, identicalB, identicalThird].map Artifact.AttemptID) :=
    pairKeyInjectiveOn_of_no_colon (by decide)
  ⟨hid, hinj, by decide, fun _ => rfl, ⟨"f0", by decide⟩,
    (GetWorthyPairs_identical_of_injective_pairKey [identicalA, identicalB, identicalThird] hid hinj
      "easy" _ (List.Perm.refl _) identicalA identicalB (by simp) (by simp) (by decide)
      (fun _ => rfl) ⟨"f0", by decide⟩).1⟩

/-- C6 fails on attempt IDs with colliding pair keys. Among the four attempts `a`, `b:c`,
`a:b`, `c`, the artifacts `a:b` and `c` have distinct attempt IDs and the same non-empty
set of hashes `{h2}`. When the index is ranged over with `h1` first, the pair is not
emitted at any of the three difficulties; when `h2` comes first it is emitted, but the
shared count accumulated under its key is 2 and the overlap computed from it is 2, not
1. -/
theorem GetWorthyPairs_identical_fails_on_collision :
    (collidingArtifacts.map Artifact.AttemptID).Nodup ∧
    collidingAB ∈ collidingArtifacts ∧ collidingC ∈ collidingArtifacts ∧
    collidingAB.AttemptID ≠ collidingC.AttemptID ∧
    (∀ h, hasHash collidingAB h = hasHash collidingC h) ∧
    (∃ h, hasHash collidingAB h = true) ∧
    ¬ EmitsPair (GetWorthyPairs (BuildGII collidingArtifacts) collidingArtifacts "easy")
      collidingAB collidingC ∧
    ¬ EmitsPair (GetWorthyPairs (BuildGII collidingArtifacts) collidingArtifacts "medium")
      collidingAB collidingC ∧
    ¬ EmitsPair (GetWorthyPairs (BuildGII collidingArtifacts) collidingArtifacts "hard")
      collidingAB collidingC ∧
    (GetWorthyPairs.counts (BuildGII collidingArtifacts) collidingArtifacts).1.get?
      (getPairKey collidingAB.AttemptID collidingC.AttemptID) = some 2 ∧
    (GetWorthyPairs.counts (BuildGII collidingArtifacts).reverse collidingArtifacts).1.get?
      (getPairKey collidingAB.AttemptID collidingC.AttemptID) = some 2 ∧
    calculateOverlap collidingAB collidingC 2 = 2 ∧
    calculateOverlap collidingAB collidingC 2 ≠ 1 := by
  have he : pairIDs (GetWorthyPairs (BuildGII collidingArtifacts) collidingArtifacts "easy") =
      [("a", "b:c")] := by decide!
  have hm : pairIDs (GetWorthyPairs (BuildGII collidingArtifacts) collidingArtifacts "medium") =
      [("a", "b:c")] := by decide!
  have hh : pairIDs (GetWorthyPairs (BuildGII collidingArtifacts) collidingArtifacts "hard") =
      [("a", "b:c")] := by decide!
  have hov : calculateOverlap collidingAB collidingC 2 = 2 := by decide!
  refine ⟨by decide, ?_, ?_, by decide, fun _ => rfl, ⟨"h2", by decide⟩, ?_, ?_, ?_,
    by decide!, by decide!, hov, ?_⟩
  · simp [collidingArtifacts]
  · simp [collidingArtifacts]
  · apply not_emitsPair_of_pairIDs
    rw [he]
    decide
  · apply not_emitsPair_of_pairIDs
    rw [hm]
    decide
  · apply not_emitsPair_of_pairIDs
    rw [hh]
    decide
  · rw [hov]
    norm_num

end Aegis
